import Mathlib

/-!
Pollution rule of clash: LRU cache and recursive DNS classifier.

A shallow embedding of `rules/polluted.go` (and the rule-type constants of
`constant/rule.go`).

* `container/list` elements are heap cells: an element pointer is an address
  (`Nat`), the cell holds the `pollutionCacheEntry` the element's `Value`
  points to, and the list `q` is the sequence of element addresses, front
  first.
* The Go map `m` is an association list from hostname to element address.
* The DNS client is an oracle: the result of the `n`-th exchange of a run as
  a function of `n`, the server address and the question name.
* Recursion of `match` is bounded by fuel; aborts (nil dereference, failed
  type assertion) are explicit outcomes.
-/

namespace Clash

/-! ## constant/rule.go -/

/-- The Go type `RuleType` is an `int`. -/
abbrev RuleType := Int

def Domain : RuleType := 0
def DomainSuffix : RuleType := 1
def DomainKeyword : RuleType := 2
def GEOIP : RuleType := 3
def IPCIDR : RuleType := 4
def FINAL : RuleType := 5
def POLLUTED : RuleType := 6

/-- Modelled from the spec: the connection metadata type is declared outside
the files at hand; the rule only reads the target hostname `Host`. -/
structure Metadata where
  Host : String
deriving DecidableEq, Repr

/-! ## rules/polluted.go : the cache -/

structure pollutionCacheEntry where
  hostname : String
  state : Int
deriving DecidableEq, Repr

def HostnamePolluted : Int := 1
def HostnameClean : Int := 2

/-- Lookup in a Go map from hostname to element address:
`v, ok := m[k]` is `some v` when `ok`. -/
def mapGet : List (String × Nat) → String → Option Nat
  | [], _ => none
  | (k, v) :: rest, key => if k = key then some v else mapGet rest key

/-- The Go builtin `delete(m, k)`. -/
def mapDelete (m : List (String × Nat)) (key : String) : List (String × Nat) :=
  m.filter (fun kv => decide (kv.1 ≠ key))

/-- The Go assignment `m[k] = v`. -/
def mapSet (m : List (String × Nat)) (key : String) (v : Nat) : List (String × Nat) :=
  (key, v) :: mapDelete m key

/-- An address that differs from every address in `live`: what allocating a
new list element returns. -/
def freshAddr (live : List Nat) : Nat :=
  live.foldr max 0 + 1

/-- The method `(*list.List).MoveToFront`: nothing happens when the element
does not belong to the list (or is already in front). -/
def MoveToFront (q : List Nat) (e : Nat) : List Nat :=
  if e ∈ q then e :: q.erase e else q

/-- The struct `pollutionCache` (the mutex is not modelled: every operation
runs to completion under it). -/
structure pollutionCache where
  heap : Nat → pollutionCacheEntry
  m : List (String × Nat)
  q : List Nat
  capacity : Int

/-- The entries of the cache in recency order, most recently used first. -/
def pollutionCache.entries (pc : pollutionCache) : List pollutionCacheEntry :=
  pc.q.map pc.heap

/-- The hostnames of the recency list, most recently used first. -/
def pollutionCache.hostnames (pc : pollutionCache) : List String :=
  pc.entries.map pollutionCacheEntry.hostname

/-- The method `pollutionCache.Get`: the cache after the call, the state
returned and the found flag. -/
def pollutionCache.Get (pc : pollutionCache) (hostname : String) :
    pollutionCache × Int × Bool :=
  match mapGet pc.m hostname with
  | some el => ({ pc with q := MoveToFront pc.q el }, (pc.heap el).state, true)
  | none => (pc, 0, false)

/-- The method `pollutionCache.Put`; `none` is the nil dereference of
`el.Value` when `Back()` finds the list empty. -/
def pollutionCache.Put (pc : pollutionCache) (hostname : String) (state : Int) :
    Option pollutionCache :=
  match mapGet pc.m hostname with
  | some r => some { pc with q := MoveToFront pc.q r }
  | none =>
    if (pc.q.length : Int) < pc.capacity then
      let el := freshAddr (pc.q ++ pc.m.map Prod.snd)
      some { pc with
        heap := Function.update pc.heap el ⟨hostname, state⟩
        q := el :: pc.q
        m := mapSet pc.m hostname el }
    else
      match pc.q.getLast? with
      | none => none
      | some el =>
        let entry := pc.heap el
        some { pc with
          m := mapSet (mapDelete pc.m entry.hostname) hostname el
          heap := Function.update pc.heap el ⟨hostname, state⟩
          q := MoveToFront pc.q el }

/-- Consistency of index and recency list: element addresses are distinct,
hostnames are distinct, the map has one binding per key, and the map binds
`h` to `p` exactly when `p` is a list element holding hostname `h`. -/
structure pollutionCache.WF (pc : pollutionCache) : Prop where
  nodupQ : pc.q.Nodup
  nodupHost : pc.hostnames.Nodup
  nodupKeys : (pc.m.map Prod.fst).Nodup
  index : ∀ h p, mapGet pc.m h = some p ↔ (p ∈ pc.q ∧ (pc.heap p).hostname = h)

/-- The empty cache built by the constructor: `make(map)`, `list.New()`. -/
def pollutionCache.empty (capacity : Int) : pollutionCache :=
  { heap := fun _ => ⟨"", 0⟩, m := [], q := [], capacity := capacity }

/-- Successive `Put` calls, left to right. -/
def pollutionCache.putAll (pc : pollutionCache) :
    List (String × Int) → Option pollutionCache
  | [] => some pc
  | (h, s) :: rest =>
    match pc.Put h s with
    | none => none
    | some pc1 => pc1.putAll rest

/-! ## rules/polluted.go : the DNS side -/

def TypeA : Nat := 1
def TypeCNAME : Nat := 5

/-- A resource record of an answer section: the type in its header and, when
the Go value is a `*dns.CNAME`, its target (`none` for every other dynamic
type). -/
structure RR where
  Rrtype : Nat
  cname : Option String
deriving DecidableEq, Repr

/-- A DNS message; only the answer section is read. The nil slice and the
empty slice are both `[]`: the DNS library leaves `Answer` nil when the
section is empty. -/
structure Msg where
  Answer : List RR
deriving DecidableEq, Repr

/-- What `Exchange` hands back: `err != nil`, or no error with a nil
message, or no error with a message. -/
inductive ExchangeResult where
  | err
  | nilMsg
  | msg (answer : Msg)
deriving DecidableEq, Repr

/-- An exchange that was issued: server address and question name. -/
structure Query where
  server : String
  name : String
deriving DecidableEq, Repr

/-- The `dns` package as the rule sees it: `Fqdn`, and the outcome of the
exchange issued when `n` exchanges were issued before it, for a question
name and a server address. -/
structure Dns where
  Fqdn : String → String
  Exchange : Nat → String → String → ExchangeResult

/-- The struct `Polluted`. Of the two resolver clients only the TLS server
name of the safe one is kept (`tlsServerName`); the plain client is the
oracle `Dns`. -/
structure Polluted where
  safeDNS : String
  honeypotDNS : String
  localDNS : String
  adapter : String
  cache : pollutionCache
  tlsServerName : String

/-- A rule together with the exchanges issued so far, oldest first. -/
structure Run where
  pr : Polluted
  sent : List Query

/-- How a call of `match` ends: it returns, it aborts (a Go panic), or the
recursion fuel of the model is used up. -/
inductive Outcome where
  | ret (b : Bool) (s : Run)
  | abort (s : Run)
  | outOfFuel (s : Run)

def Outcome.run : Outcome → Run
  | .ret _ s => s
  | .abort s => s
  | .outOfFuel s => s

def Run.withCache (s : Run) (c : pollutionCache) : Run :=
  { s with pr := { s.pr with cache := c } }

/-- The result of the call `pr.unsafeResolver.Exchange(q, server)` for
question `name`, issued in state `s`. -/
def Run.exchange (d : Dns) (s : Run) (name server : String) : ExchangeResult :=
  d.Exchange s.sent.length name server

/-- The state once that exchange has been issued. -/
def Run.send (s : Run) (name server : String) : Run :=
  { s with sent := s.sent ++ [⟨server, name⟩] }

/-- The call `pr.cache.Put(hostname, state)` followed by `return b`. -/
def Run.putRet (s : Run) (hostname : String) (state : Int) (b : Bool) : Outcome :=
  match s.pr.cache.Put hostname state with
  | none => .abort s
  | some c => .ret b (s.withCache c)

/-- The loop `for _, rr := range answer.Answer` of `match`, with `classify`
standing for the recursive call `pr.match(target, 0)`. `.ok` is the loop
running to its end, `.error` is leaving `match` from inside the loop. -/
def scanAnswer (classify : Run → String → Outcome) (hostname : String) :
    List RR → Run → Except Outcome Run
  | [], s => .ok s
  | rr :: rest, s =>
    if rr.Rrtype = TypeCNAME then
      match rr.cname with
      | none => .error (.abort s)
      | some target =>
        match classify s target with
        | .ret true s1 =>
          match s1.pr.cache.Put target HostnamePolluted with
          | none => .error (.abort s1)
          | some c => .error ((s1.withCache c).putRet hostname HostnamePolluted true)
        | .ret false s1 =>
          match s1.pr.cache.Put target HostnameClean with
          | none => .error (.abort s1)
          | some c => scanAnswer classify hostname rest (s1.withCache c)
        | .abort s1 => .error (.abort s1)
        | .outOfFuel s1 => .error (.outOfFuel s1)
    else scanAnswer classify hostname rest s

/-- Where a run of the loop ends. -/
def scanEnd : Except Outcome Run → Run
  | .ok s => s
  | .error o => o.run

/-- The method `Polluted.match`, with recursion depth bounded by fuel. -/
def Polluted.match_ (d : Dns) : Nat → Run → String → Int → Outcome
  | 0, s, _, _ => .outOfFuel s
  | fuel + 1, s, hostname, retry =>
    if retry > 3 then .ret true s
    else
      let g := s.pr.cache.Get hostname
      if g.2.2 then .ret (decide (g.2.1 = HostnamePolluted)) (s.withCache g.1)
      else
        let s0 := s.withCache g.1
        let fqdn := d.Fqdn hostname
        let s1 := s0.send fqdn s0.pr.honeypotDNS
        match s0.exchange d fqdn s0.pr.honeypotDNS with
        | .err => Polluted.match_ d fuel s1 hostname (retry + 1)
        | .nilMsg => .abort s1
        | .msg answer =>
          if answer.Answer ≠ [] then s1.putRet hostname HostnamePolluted true
          else
            let s2 := s1.send fqdn s1.pr.localDNS
            match s1.exchange d fqdn s1.pr.localDNS with
            | .err => Polluted.match_ d fuel s2 hostname (retry + 1)
            | .nilMsg => s2.putRet hostname HostnamePolluted true
            | .msg answer2 =>
              match scanAnswer (fun t target => Polluted.match_ d fuel t target 0)
                  hostname answer2.Answer s2 with
              | .error o => o
              | .ok s3 => s3.putRet hostname HostnameClean false

/-- The method `Polluted.IsMatch` (the log line is not modelled). -/
def Polluted.IsMatch (d : Dns) (fuel : Nat) (s : Run) (metadata : Metadata) : Outcome :=
  Polluted.match_ d fuel s metadata.Host 0

def Polluted.RuleType (_pr : Polluted) : RuleType := POLLUTED

def Polluted.Adapter (pr : Polluted) : String := pr.adapter

def Polluted.Payload (pr : Polluted) : String := pr.safeDNS

/-- First segment and remaining segments of a character list cut at every
occurrence of `sep`. -/
def splitAux (sep : Char) : List Char → List Char × List (List Char)
  | [] => ([], [])
  | c :: cs =>
    let r := splitAux sep cs
    if c = sep then ([], r.1 :: r.2) else (c :: r.1, r.2)

/-- The call `strings.Split(s, sep)` for a one-character separator. -/
def Split (s : String) (sep : Char) : List String :=
  let r := splitAux sep s.data
  (r.1 :: r.2).map String.mk

/-- The constructor `NewPOLLUTED`; `none` is the index-out-of-range abort
of `dnsList[2]`. -/
def NewPOLLUTED (dnsHosts : String) (adapter : String) : Option Polluted :=
  let dnsList := Split dnsHosts ';'
  match (if dnsList.length < 2 then some "9.9.9.9:853" else dnsList[2]?) with
  | none => none
  | some safe =>
    match (if dnsList.length < 2 then some "119.29.29.29:53" else dnsList[1]?) with
    | none => none
    | some loc =>
      match (if dnsList.length < 1 then some "198.11.138.248:53" else dnsList[0]?) with
      | none => none
      | some honeypot =>
        some { adapter := adapter
               cache := pollutionCache.empty 1024
               tlsServerName := safe
               safeDNS := safe
               localDNS := loc
               honeypotDNS := honeypot }

/-- The states of a rule built by `NewPOLLUTED` after any number of `IsMatch`
calls, each against an arbitrary resolver behaviour and however it ends: by
returning, by aborting, or cut off at any recursion depth. -/
inductive Reachable : Run → Prop where
  | init (dnsHosts adapter : String) (pr : Polluted)
      (h : NewPOLLUTED dnsHosts adapter = some pr) : Reachable ⟨pr, []⟩
  | call (d : Dns) (fuel : Nat) (s : Run) (metadata : Metadata)
      (hs : Reachable s) : Reachable (Polluted.IsMatch d fuel s metadata).run

/-- A full cache of capacity 2 holding `b` (clean, most recently used) and
`a` (polluted). -/
def exampleCache : pollutionCache :=
  { heap := fun p => if p = 1 then ⟨"a", 1⟩ else ⟨"b", 2⟩
    m := [("a", 1), ("b", 2)]
    q := [2, 1]
    capacity := 2 }

/-- A property of runs that cache operations and the issuing of exchanges
keep. -/
structure Stable (P : Run → Prop) : Prop where
  get : ∀ s h, P s → P (s.withCache (s.pr.cache.Get h).1)
  put : ∀ s h st c, P s → (st = HostnamePolluted ∨ st = HostnameClean) →
    s.pr.cache.Put h st = some c → P (s.withCache c)
  send : ∀ s name server, P s → P (s.send name server)

/-- The rule built from the endpoint list
`1.2.3.4:53;8.8.8.8:53;9.9.9.9:853` and the adapter name `proxy1`. -/
def exampleRule : Polluted :=
  { safeDNS := "9.9.9.9:853"
    honeypotDNS := "1.2.3.4:53"
    localDNS := "8.8.8.8:53"
    adapter := "proxy1"
    cache := pollutionCache.empty 1024
    tlsServerName := "9.9.9.9:853" }

/-- The cache of a run keeps the capacity of the constructor, holds no more
elements than that, and every element has state polluted or clean. -/
def CacheOK (s : Run) : Prop :=
  s.pr.cache.WF ∧ s.pr.cache.capacity = 1024 ∧
  (s.pr.cache.q.length : Int) ≤ s.pr.cache.capacity ∧
  ∀ p ∈ s.pr.cache.q,
    (s.pr.cache.heap p).state = HostnamePolluted ∨ (s.pr.cache.heap p).state = HostnameClean

/-- Do `k` consecutive probing attempts for the question `name`, the first
one starting when `n` exchanges have been issued, each end in a transport
error, at the honeypot probe or (after an empty honeypot answer) at the local
probe? The result is the number of exchanges issued once they are over. -/
def failedAttempts (d : Dns) (pr : Polluted) (name : String) : Nat → Nat → Option Nat
  | 0, n => some n
  | k + 1, n =>
    match d.Exchange n name pr.honeypotDNS with
    | .err => failedAttempts d pr name k (n + 1)
    | .nilMsg => none
    | .msg answer =>
      if answer.Answer ≠ [] then none
      else
        match d.Exchange (n + 1) name pr.localDNS with
        | .err => failedAttempts d pr name k (n + 2)
        | _ => none

/-- A resolver whose every exchange ends in a transport error. -/
def deadDns : Dns :=
  { Fqdn := fun s => s ++ ".", Exchange := fun _ _ _ => .err }

/-- The cache of `exampleRule` after `Put("b", HostnameClean)`. -/
def cleanCache : pollutionCache :=
  { heap := Function.update (fun _ => ⟨"", 0⟩) 1 ⟨"b", HostnameClean⟩
    m := [("b", 1)]
    q := [1]
    capacity := 1024 }

/-- A run of `exampleRule` whose cache holds `b` as clean. -/
def cleanRun : Run :=
  ⟨{ exampleRule with cache := cleanCache }, []⟩

/-- A resolver whose first exchange ends in a transport error and whose later
exchanges all return one address record. -/
def flakyPoisonDns : Dns :=
  { Fqdn := fun s => s ++ "."
    Exchange := fun n _ _ => if n = 0 then .err else .msg ⟨[⟨TypeA, none⟩]⟩ }

/-- The boolean a call returned, if it returned. -/
def Outcome.result : Outcome → Option Bool
  | .ret b _ => some b
  | _ => none

/-- A resolver that answers by the position of the exchange in the run: empty
honeypot answer, then a local answer with CNAME records for `h.` and `u.`,
then empty honeypot and local answers, then one address record. -/
def loopDns : Dns :=
  { Fqdn := fun s => s
    Exchange := fun n _ _ =>
      if n = 1 then .msg ⟨[⟨TypeCNAME, some "h."⟩, ⟨TypeCNAME, some "u."⟩]⟩
      else if n < 4 then .msg ⟨[]⟩
      else .msg ⟨[⟨TypeA, none⟩]⟩ }

/-- A resolver that answers by the position of the exchange in the run: empty
honeypot answer, then a local answer with one CNAME record for `u.`, then
one address record. -/
def chainDns : Dns :=
  { Fqdn := fun s => s
    Exchange := fun n _ _ =>
      if n = 0 then .msg ⟨[]⟩
      else if n = 1 then .msg ⟨[⟨TypeCNAME, some "u."⟩]⟩
      else .msg ⟨[⟨TypeA, none⟩]⟩ }

/-- The initial run of `exampleRule`. -/
def exampleRun : Run := ⟨exampleRule, []⟩

/-- Every entry of the cache of `t` was already an entry of the cache of `s`,
or is recorded clean. -/
def OnlyCleanAdded (s t : Run) : Prop :=
  ∀ e ∈ t.pr.cache.entries, e ∈ s.pr.cache.entries ∨ e.state = HostnameClean

/-- A resolver that answers by the position of the exchange in the run: a local
answer with one CNAME record for `u.` at the second exchange, empty answers
otherwise. -/
def cleanChainDns : Dns :=
  { Fqdn := fun s => s
    Exchange := fun n _ _ =>
      if n = 1 then .msg ⟨[⟨TypeCNAME, some "u."⟩]⟩ else .msg ⟨[]⟩ }

/-- The hostname made of `i / 32 + 1` letters `a`, a dot, `i % 32 + 1` letters
`b` and the final dot. -/
def tname (i : Nat) : String :=
  String.mk (List.replicate (i / 32 + 1) 'a' ++ '.' :: (List.replicate (i % 32 + 1) 'b' ++ ['.']))

/-- The 1024 hostnames `tname 0`, ..., `tname 1023`. -/
def evictTargets : List String :=
  (List.range 1024).map tname

/-- A resolver whose local answer for `h.` holds one CNAME record for each of
the hostnames of `evictTargets`, and whose every other answer is empty. -/
def evictDns : Dns :=
  { Fqdn := fun s => s
    Exchange := fun _ name server =>
      if name = "h." ∧ server = "8.8.8.8:53" then
        .msg ⟨evictTargets.map (fun t => ⟨TypeCNAME, some t⟩)⟩
      else .msg ⟨[]⟩ }

/-- The endpoint list made of the given segments, separated by semicolons. -/
def joinSegments : List String → String
  | [] => ""
  | [s] => s
  | s :: t :: rest => s ++ ";" ++ joinSegments (t :: rest)

/-- The caches reached from the empty cache of capacity `c` by `Get` and `Put`
calls. -/
inductive CacheReachable (c : Int) : pollutionCache → Prop where
  | empty : CacheReachable c (pollutionCache.empty c)
  | get (pc : pollutionCache) (h : String) (hr : CacheReachable c pc) :
      CacheReachable c (pc.Get h).1
  | put (pc pc1 : pollutionCache) (h : String) (st : Int) (hr : CacheReachable c pc)
      (hp : pc.Put h st = some pc1) : CacheReachable c pc1

/-- Did the call abort? -/
def Outcome.aborted : Outcome → Bool
  | .abort _ => true
  | _ => false

/-- Did the call end otherwise than by lack of fuel? -/
def Outcome.finished : Outcome → Bool
  | .outOfFuel _ => false
  | _ => true

/-- A resolver whose every exchange returns no message and no error. -/
def nilDns : Dns :=
  { Fqdn := fun s => s, Exchange := fun _ _ _ => .nilMsg }

/-- A resolver whose first exchange returns an empty answer and whose later
exchanges return no message and no error. -/
def localNilDns : Dns :=
  { Fqdn := fun s => s, Exchange := fun n _ _ => if n = 0 then .msg ⟨[]⟩ else .nilMsg }

/-- A resolver that does not depend on the position of the exchange: the local
endpoint of `exampleRule` answers the question `h.` with one CNAME record
whose target is `h.`; every other answer is empty. -/
def selfDns : Dns :=
  { Fqdn := fun s => s
    Exchange := fun _ name server =>
      if name = "h." ∧ server = "8.8.8.8:53" then .msg ⟨[⟨TypeCNAME, some "h."⟩]⟩
      else .msg ⟨[]⟩ }

/-- A resolver whose first four exchanges end in a transport error and whose
later exchanges return empty answers. -/
def flakyCleanDns : Dns :=
  { Fqdn := fun s => s, Exchange := fun n _ _ => if n < 4 then .err else .msg ⟨[]⟩ }

/-- A resolver that answers by the position of the exchange in the run: empty
honeypot answer, then a local answer with one CNAME record for `u.`, then
transport errors only. -/
def failingTargetDns : Dns :=
  { Fqdn := fun s => s
    Exchange := fun n _ _ =>
      if n = 0 then .msg ⟨[]⟩
      else if n = 1 then .msg ⟨[⟨TypeCNAME, some "u."⟩]⟩
      else .err }

/-- The number of exchanges among `qs`, the first of them issued when `start`
exchanges had been issued, that end in a transport error. -/
def errorsIn (d : Dns) : Nat → List Query → Nat
  | _, [] => 0
  | start, q :: rest =>
    (if d.Exchange start q.name q.server = .err then 1 else 0) + errorsIn d (start + 1) rest

/-- A resolver that answers by the position of the exchange in the run: three
transport errors, an empty honeypot answer, a local answer with one CNAME
record for `u.`, then transport errors only. -/
def retryThenTargetDns : Dns :=
  { Fqdn := fun s => s
    Exchange := fun n _ _ =>
      if n < 3 then .err
      else if n = 3 then .msg ⟨[]⟩
      else if n = 4 then .msg ⟨[⟨TypeCNAME, some "u."⟩]⟩
      else .err }

/-- The answers of the resolver do not depend on the position of the exchange
in the run. -/
def Deterministic (d : Dns) : Prop :=
  ∀ n name server, d.Exchange n name server = d.Exchange 0 name server

/-- The hostname `t` is the target of a CNAME record in the answer of the local
endpoint `loc` for `h`. -/
def cnameTarget (d : Dns) (loc : String) (t h : String) : Prop :=
  ∃ a, d.Exchange 0 (d.Fqdn h) loc = .msg a ∧ (⟨TypeCNAME, some t⟩ : RR) ∈ a.Answer

/-- A resolver that does not depend on the position of the exchange: the local
endpoint of `exampleRule` answers the question `h.` with one CNAME record
whose target is `u.`; every other answer is empty. -/
def oneStepDns : Dns :=
  { Fqdn := fun s => s
    Exchange := fun _ name server =>
      if name = "h." ∧ server = "8.8.8.8:53" then .msg ⟨[⟨TypeCNAME, some "u."⟩]⟩
      else .msg ⟨[]⟩ }

/-- A resolver that does not depend on the position of the exchange: the local
endpoint of `exampleRule` returns no message and no error, every other
endpoint an empty answer. -/
def localRefusingDns : Dns :=
  { Fqdn := fun s => s
    Exchange := fun _ _ server => if server = "8.8.8.8:53" then .nilMsg else .msg ⟨[]⟩ }

/-- The number of records of CNAME type in an answer section. -/
def cnameCount (rrs : List RR) : Nat :=
  rrs.countP (fun rr => decide (rr.Rrtype = TypeCNAME))

/-- The number of records of CNAME type in the answers to the exchanges `qs`,
the first of them issued when `start` exchanges had been issued. -/
def cnamesIn (d : Dns) : Nat → List Query → Nat
  | _, [] => 0
  | start, q :: rest =>
    (match d.Exchange start q.name q.server with
      | .msg a => cnameCount a.Answer
      | _ => 0) + cnamesIn d (start + 1) rest

/-- The number of exchanges among `qs` sent to `server`. -/
def exchangesTo (server : String) (qs : List Query) : Nat :=
  qs.countP (fun q => decide (q.server = server))

/-- The exchanges `qs`, the first one issued at position `n`, stay within `b`
probing attempts plus four attempts for each CNAME record received: at most
one transport error and two exchanges per attempt, and one exchange with the
honeypot endpoint `hp` per attempt when it differs from the local one. -/
def WithinBudget (d : Dns) (hp loc : String) (n : Nat) (qs : List Query) (b : Int) : Prop :=
  (errorsIn d n qs : Int) ≤ b + 4 * cnamesIn d n qs ∧
  (qs.length : Int) ≤ 2 * b + 8 * cnamesIn d n qs ∧
  (hp ≠ loc → (exchangesTo hp qs : Int) ≤ b + 4 * cnamesIn d n qs)


/-- The number of exchanges among `qs` sent to `server` with the question
`name`. -/
def attemptsFor (server name : String) (qs : List Query) : Nat :=
  qs.countP (fun q => decide (q.server = server) && decide (q.name = name))

/-- The number of CNAME records in an answer section whose target has the
question name `name`. -/
def targetCount (fqdn : String → String) (name : String) (rrs : List RR) : Nat :=
  rrs.countP (fun rr => decide (rr.Rrtype = TypeCNAME) &&
    decide (rr.cname.map fqdn = some name))

/-- The number of CNAME records whose target has the question name `name` in
the answers to those exchanges among `qs` that were sent to `loc`, the
first exchange of `qs` issued when `start` exchanges had been issued. -/
def targetsIn (d : Dns) (loc name : String) : Nat → List Query → Nat
  | _, [] => 0
  | start, q :: rest =>
    (if q.server = loc then
      match d.Exchange start q.name q.server with
      | .msg a => targetCount d.Fqdn name a.Answer
      | _ => 0
    else 0) + targetsIn d loc name (start + 1) rest

/-- The number of exchanges among `qs` with the question `name` that end in a
transport error, the first exchange of `qs` issued when `start` exchanges
had been issued. -/
def errorsFor (d : Dns) (name : String) : Nat → List Query → Nat
  | _, [] => 0
  | start, q :: rest =>
    (if q.name = name ∧ d.Exchange start q.name q.server = .err then 1 else 0)
      + errorsFor d name (start + 1) rest

/-- The exchanges `qs`, the first one issued at position `n`, send the honeypot
endpoint `hp` the question `name` at most `b` times plus four times for each
CNAME record for `name` received from the local endpoint `loc`; twice as
often when both endpoints are the same server, which then gets both
exchanges of an attempt. And at most as many exchanges with the question
`name` end in a transport error. -/
def AttemptsWithin (d : Dns) (hp loc name : String) (n : Nat) (qs : List Query)
    (b : Int) : Prop :=
  (attemptsFor hp name qs : Int) ≤
    (if hp = loc then 2 else 1) * (b + 4 * targetsIn d loc name n qs) ∧
  (errorsFor d name n qs : Int) ≤ b + 4 * targetsIn d loc name n qs
/-! ## The map operations -/

theorem mapGet_mapDelete (m : List (String × Nat)) (k key : String) :
    mapGet (mapDelete m k) key = if k = key then none else mapGet m key := by
  induction m with
  | nil => simp [mapDelete, mapGet]
  | cons kv rest ih =>
    obtain ⟨a, v⟩ := kv
    unfold mapDelete at ih ⊢
    by_cases hak : a = k
    · subst hak
      by_cases hk : a = key
      · simp [List.filter, mapGet, hk] at ih ⊢
        simpa [hk] using ih
      · simp [List.filter, mapGet, hk] at ih ⊢
        simpa [hk] using ih
    · by_cases hk : a = key
      · subst hk
        have : ¬ k = a := fun h => hak h.symm
        simp [List.filter, mapGet, hak, this]
      · simp [List.filter, mapGet, hak, hk]
        simpa using ih

theorem mapGet_mapSet (m : List (String × Nat)) (k key : String) (v : Nat) :
    mapGet (mapSet m k v) key = if k = key then some v else mapGet m key := by
  unfold mapSet
  by_cases hk : k = key
  · simp [mapGet, hk]
  · simp [mapGet, hk, mapGet_mapDelete]

theorem mapGet_mem_keys (m : List (String × Nat)) (key : String) (p : Nat)
    (h : mapGet m key = some p) : key ∈ m.map Prod.fst := by
  induction m with
  | nil => simp [mapGet] at h
  | cons kv rest ih =>
    obtain ⟨a, v⟩ := kv
    by_cases hk : a = key
    · simp [hk]
    · simp [mapGet, hk] at h
      simp [ih h]

theorem keys_mapDelete_nodup (m : List (String × Nat)) (k : String)
    (h : (m.map Prod.fst).Nodup) : ((mapDelete m k).map Prod.fst).Nodup := by
  unfold mapDelete
  exact h.sublist ((List.filter_sublist m).map Prod.fst)

theorem not_mem_keys_mapDelete (m : List (String × Nat)) (k : String) :
    k ∉ (mapDelete m k).map Prod.fst := by
  unfold mapDelete
  simp [List.mem_map, List.mem_filter]

theorem keys_mapSet_nodup (m : List (String × Nat)) (k : String) (v : Nat)
    (h : (m.map Prod.fst).Nodup) : ((mapSet m k v).map Prod.fst).Nodup := by
  unfold mapSet
  simp only [List.map_cons, List.nodup_cons]
  exact ⟨not_mem_keys_mapDelete m k, keys_mapDelete_nodup m k h⟩

/-! ## Addresses and the recency list -/

theorem lt_freshAddr (live : List Nat) (x : Nat) (h : x ∈ live) : x < freshAddr live := by
  unfold freshAddr
  induction live with
  | nil => simp at h
  | cons a rest ih =>
    simp only [List.foldr_cons]
    rcases List.mem_cons.1 h with hx | hx
    · subst hx; omega
    · have := ih hx; omega

theorem freshAddr_not_mem (live : List Nat) : freshAddr live ∉ live :=
  fun h => Nat.lt_irrefl _ (lt_freshAddr live _ h)

theorem mem_MoveToFront (q : List Nat) (e x : Nat) : x ∈ MoveToFront q e ↔ x ∈ q := by
  unfold MoveToFront
  split
  · rename_i he
    constructor
    · intro h
      rcases List.mem_cons.1 h with hx | hx
      · subst hx; exact he
      · exact List.mem_of_mem_erase hx
    · intro h
      by_cases hx : x = e
      · simp [hx]
      · exact List.mem_cons_of_mem _ ((List.mem_erase_of_ne hx).2 h)
  · rfl

theorem MoveToFront_perm (q : List Nat) (e : Nat) : (MoveToFront q e).Perm q := by
  unfold MoveToFront
  split
  · rename_i he
    exact (List.perm_cons_erase he).symm
  · exact List.Perm.refl _

theorem MoveToFront_length (q : List Nat) (e : Nat) : (MoveToFront q e).length = q.length :=
  (MoveToFront_perm q e).length_eq

theorem MoveToFront_nodup (q : List Nat) (e : Nat) (h : q.Nodup) : (MoveToFront q e).Nodup :=
  (MoveToFront_perm q e).nodup_iff.2 h

theorem MoveToFront_eq_filter (q : List Nat) (e : Nat) (h : q.Nodup) (he : e ∈ q) :
    MoveToFront q e = e :: q.filter (fun x => decide (x ≠ e)) := by
  unfold MoveToFront
  rw [if_pos he, h.erase_eq_filter]
  congr 1
  apply List.filter_congr
  intro x _
  by_cases hx : x = e <;> simp [hx]

theorem getLast?_eq_some_append (q : List Nat) (e : Nat) (h : q.getLast? = some e) :
    q = q.dropLast ++ [e] := by
  induction q with
  | nil => simp at h
  | cons a rest ih =>
    cases rest with
    | nil => simp at h; simp [h]
    | cons b rest2 =>
      rw [List.getLast?_cons_cons] at h
      have := ih h
      simp only [List.dropLast_cons₂, List.cons_append]
      rw [← this]

theorem MoveToFront_last (q : List Nat) (e : Nat) (hn : q.Nodup) (h : q.getLast? = some e) :
    MoveToFront q e = e :: q.dropLast := by
  have hq := getLast?_eq_some_append q e h
  have he : e ∈ q := by rw [hq]; simp
  have hnot : e ∉ q.dropLast := by
    intro hm
    rw [hq] at hn
    have := List.nodup_append.1 hn
    exact this.2.2 hm (by simp)
  unfold MoveToFront
  rw [if_pos he]
  congr 1
  conv_lhs => rw [hq]
  rw [List.erase_append_right _ hnot]
  simp

/-! ## Well-formed caches -/

theorem entries_length (pc : pollutionCache) : pc.entries.length = pc.q.length := by
  simp [pollutionCache.entries]

theorem WF_heap_inj {pc : pollutionCache} (hw : pc.WF) {p r : Nat} (hp : p ∈ pc.q)
    (hr : r ∈ pc.q) (h : (pc.heap p).hostname = (pc.heap r).hostname) : p = r := by
  have hn := hw.nodupHost
  unfold pollutionCache.hostnames pollutionCache.entries at hn
  rw [List.map_map] at hn
  exact List.inj_on_of_nodup_map hn hp hr h

theorem WF_absent_iff {pc : pollutionCache} (hw : pc.WF) (h : String) :
    mapGet pc.m h = none ↔ h ∉ pc.hostnames := by
  constructor
  · intro hg hm
    unfold pollutionCache.hostnames pollutionCache.entries at hm
    rw [List.map_map] at hm
    obtain ⟨p, hp, hph⟩ := List.mem_map.1 hm
    have := (hw.index h p).2 ⟨hp, hph⟩
    rw [hg] at this
    cases this
  · intro hn
    cases hg : mapGet pc.m h with
    | none => rfl
    | some p =>
      exfalso
      apply hn
      obtain ⟨hp, hph⟩ := (hw.index h p).1 hg
      unfold pollutionCache.hostnames pollutionCache.entries
      rw [List.map_map]
      exact List.mem_map.2 ⟨p, hp, hph⟩

theorem WF_entry_lookup {pc : pollutionCache} (hw : pc.WF) {e : pollutionCacheEntry}
    (he : e ∈ pc.entries) : ∃ p, p ∈ pc.q ∧ pc.heap p = e ∧ mapGet pc.m e.hostname = some p := by
  unfold pollutionCache.entries at he
  obtain ⟨p, hp, hpe⟩ := List.mem_map.1 he
  exact ⟨p, hp, hpe, (hw.index e.hostname p).2 ⟨hp, by rw [hpe]⟩⟩

theorem WF_lookup_entry {pc : pollutionCache} (hw : pc.WF) {h : String} {p : Nat}
    (hg : mapGet pc.m h = some p) : pc.heap p ∈ pc.entries ∧ (pc.heap p).hostname = h := by
  obtain ⟨hp, hph⟩ := (hw.index h p).1 hg
  exact ⟨List.mem_map.2 ⟨p, hp, rfl⟩, hph⟩

/-- In a well-formed cache a hostname has one entry. -/
theorem WF_entry_unique {pc : pollutionCache} (hw : pc.WF) {e f : pollutionCacheEntry}
    (he : e ∈ pc.entries) (hf : f ∈ pc.entries) (h : e.hostname = f.hostname) : e = f := by
  obtain ⟨p, hp, hpe, _⟩ := WF_entry_lookup hw he
  obtain ⟨r, hr, hrf, _⟩ := WF_entry_lookup hw hf
  have : p = r := WF_heap_inj hw hp hr (by rw [hpe, hrf, h])
  rw [← hpe, ← hrf, this]

theorem map_heap_filter_ne {pc : pollutionCache} (hw : pc.WF) {p : Nat} (hp : p ∈ pc.q) :
    (pc.q.filter (fun x => decide (x ≠ p))).map pc.heap
      = pc.entries.filter (fun e => decide (e.hostname ≠ (pc.heap p).hostname)) := by
  unfold pollutionCache.entries
  rw [List.filter_map]
  congr 1
  apply List.filter_congr
  intro x hx
  simp only [Function.comp, decide_eq_decide]
  constructor
  · intro hne heq
    exact hne (WF_heap_inj hw hx hp heq)
  · intro hne heq
    exact hne (by rw [heq])

/-- Moving an element to the front keeps a cache well formed. -/
theorem WF_moveToFront {pc : pollutionCache} (hw : pc.WF) (e : Nat) :
    pollutionCache.WF { pc with q := MoveToFront pc.q e } := by
  refine ⟨MoveToFront_nodup _ _ hw.nodupQ, ?_, hw.nodupKeys, ?_⟩
  · have hp : (pollutionCache.hostnames { pc with q := MoveToFront pc.q e }).Perm pc.hostnames := by
      unfold pollutionCache.hostnames pollutionCache.entries
      exact ((MoveToFront_perm pc.q e).map _).map _
    exact hp.nodup_iff.2 hw.nodupHost
  · intro h p
    simp only [mem_MoveToFront]
    exact hw.index h p

theorem entries_moveToFront {pc : pollutionCache} (hw : pc.WF) {p : Nat} (hp : p ∈ pc.q) :
    pollutionCache.entries { pc with q := MoveToFront pc.q p }
      = pc.heap p :: pc.entries.filter (fun e => decide (e.hostname ≠ (pc.heap p).hostname)) := by
  rw [← map_heap_filter_ne hw hp]
  unfold pollutionCache.entries
  simp only
  rw [MoveToFront_eq_filter _ _ hw.nodupQ hp]
  rfl

/-! ## Get -/

theorem Get_capacity (pc : pollutionCache) (h : String) : (pc.Get h).1.capacity = pc.capacity := by
  unfold pollutionCache.Get
  split <;> rfl

theorem Get_WF {pc : pollutionCache} (hw : pc.WF) (h : String) : (pc.Get h).1.WF := by
  unfold pollutionCache.Get
  split
  · exact WF_moveToFront hw _
  · exact hw

theorem Get_entries_perm (pc : pollutionCache) (h : String) :
    (pc.Get h).1.entries.Perm pc.entries := by
  unfold pollutionCache.Get
  split
  · exact (MoveToFront_perm pc.q _).map _
  · exact List.Perm.refl _

theorem Get_of_mem {pc : pollutionCache} (hw : pc.WF) {e : pollutionCacheEntry}
    (he : e ∈ pc.entries) :
    (pc.Get e.hostname).2 = (e.state, true) ∧
    (pc.Get e.hostname).1.entries
      = e :: pc.entries.filter (fun x => decide (x.hostname ≠ e.hostname)) := by
  obtain ⟨p, hp, hpe, hg⟩ := WF_entry_lookup hw he
  unfold pollutionCache.Get
  rw [hg]
  simp only
  rw [entries_moveToFront hw hp, hpe]
  exact ⟨rfl, rfl⟩

theorem Get_of_not_mem {pc : pollutionCache} (hw : pc.WF) {h : String}
    (hn : h ∉ pc.hostnames) : pc.Get h = (pc, 0, false) := by
  unfold pollutionCache.Get
  rw [(WF_absent_iff hw h).2 hn]

theorem Get_found_iff {pc : pollutionCache} (hw : pc.WF) (h : String) :
    (pc.Get h).2.2 = true ↔ h ∈ pc.hostnames := by
  by_cases hm : h ∈ pc.hostnames
  · obtain ⟨e, he, heh⟩ := List.mem_map.1 hm
    have := (Get_of_mem hw he).1
    rw [heh] at this
    simp [this, hm]
  · simp [Get_of_not_mem hw hm, hm]

/-! ## Put -/

theorem Put_capacity {pc pc1 : pollutionCache} {h : String} {s : Int}
    (hp : pc.Put h s = some pc1) : pc1.capacity = pc.capacity := by
  unfold pollutionCache.Put at hp
  split at hp
  · cases hp; rfl
  · split at hp
    · cases hp; rfl
    · split at hp
      · cases hp
      · cases hp; rfl

theorem Put_of_mem {pc : pollutionCache} (hw : pc.WF) {e : pollutionCacheEntry}
    (he : e ∈ pc.entries) (s : Int) :
    ∃ pc1, pc.Put e.hostname s = some pc1 ∧ pc1.WF ∧
      pc1.entries = e :: pc.entries.filter (fun x => decide (x.hostname ≠ e.hostname)) := by
  obtain ⟨p, hp, hpe, hg⟩ := WF_entry_lookup hw he
  refine ⟨{ pc with q := MoveToFront pc.q p }, ?_, WF_moveToFront hw p, ?_⟩
  · unfold pollutionCache.Put
    rw [hg]
  · rw [entries_moveToFront hw hp, hpe]

theorem Put_insert {pc : pollutionCache} (hw : pc.WF) {h : String} (hn : h ∉ pc.hostnames)
    (hlt : (pc.entries.length : Int) < pc.capacity) (s : Int) :
    ∃ pc1, pc.Put h s = some pc1 ∧ pc1.WF ∧ pc1.entries = ⟨h, s⟩ :: pc.entries := by
  have hg := (WF_absent_iff hw h).2 hn
  rw [entries_length] at hlt
  have hfresh : freshAddr (pc.q ++ pc.m.map Prod.snd) ∉ pc.q := fun hm =>
    freshAddr_not_mem _ (List.mem_append_left _ hm)
  generalize hel : freshAddr (pc.q ++ pc.m.map Prod.snd) = el at hfresh
  have hheap : ∀ x ∈ pc.q, Function.update pc.heap el ⟨h, s⟩ x = pc.heap x := by
    intro x hx
    have hne : x ≠ el := fun hxe => hfresh (by rw [← hxe]; exact hx)
    exact Function.update_noteq hne _ _
  have hent : (el :: pc.q).map (Function.update pc.heap el ⟨h, s⟩) = ⟨h, s⟩ :: pc.entries := by
    simp only [List.map_cons, Function.update_same]
    congr 1
    exact List.map_congr_left hheap
  refine ⟨{ pc with heap := Function.update pc.heap el ⟨h, s⟩, q := el :: pc.q,
                     m := mapSet pc.m h el }, ?_, ?_, hent⟩
  · unfold pollutionCache.Put
    rw [hg]
    simp only [hlt, if_true, hel]
  · refine ⟨List.nodup_cons.2 ⟨hfresh, hw.nodupQ⟩, ?_, keys_mapSet_nodup _ _ _ hw.nodupKeys, ?_⟩
    · unfold pollutionCache.hostnames pollutionCache.entries
      simp only
      rw [hent]
      simp only [List.map_cons, List.nodup_cons]
      exact ⟨hn, hw.nodupHost⟩
    · intro k p
      simp only [mapGet_mapSet, List.mem_cons]
      by_cases hk : h = k
      · subst hk
        simp only [if_true, Option.some.injEq]
        constructor
        · intro hp
          subst hp
          exact ⟨Or.inl rfl, by simp⟩
        · rintro ⟨hp | hp, hh⟩
          · exact hp.symm
          · exfalso
            rw [hheap p hp] at hh
            have := (hw.index h p).2 ⟨hp, hh⟩
            rw [hg] at this
            cases this
      · simp only [hk, if_false]
        constructor
        · intro hp
          obtain ⟨hpq, hph⟩ := (hw.index k p).1 hp
          exact ⟨Or.inr hpq, by rw [hheap p hpq]; exact hph⟩
        · rintro ⟨hp | hp, hh⟩
          · subst hp
            simp at hh
            exact absurd hh hk
          · rw [hheap p hp] at hh
            exact (hw.index k p).2 ⟨hp, hh⟩

theorem Put_evict {pc : pollutionCache} (hw : pc.WF) {h : String} (hn : h ∉ pc.hostnames)
    (hge : ¬ (pc.entries.length : Int) < pc.capacity) (hne : pc.entries ≠ []) (s : Int) :
    ∃ pc1, pc.Put h s = some pc1 ∧ pc1.WF ∧ pc1.entries = ⟨h, s⟩ :: pc.entries.dropLast := by
  have hg := (WF_absent_iff hw h).2 hn
  rw [entries_length] at hge
  have hqne : pc.q ≠ [] := by
    intro hq
    apply hne
    simp [pollutionCache.entries, hq]
  obtain ⟨el, hlast⟩ : ∃ el, pc.q.getLast? = some el := by
    cases hl : pc.q.getLast? with
    | none => exact absurd (List.getLast?_eq_none_iff.1 hl) hqne
    | some el => exact ⟨el, rfl⟩
  have hq := getLast?_eq_some_append pc.q el hlast
  have helq : el ∈ pc.q := by rw [hq]; simp
  have hnot : el ∉ pc.q.dropLast := by
    intro hm
    have hnd := hw.nodupQ
    rw [hq] at hnd
    exact (List.nodup_append.1 hnd).2.2 hm (by simp)
  have hheap : ∀ x ∈ pc.q.dropLast, Function.update pc.heap el ⟨h, s⟩ x = pc.heap x := by
    intro x hx
    have hne : x ≠ el := fun hxe => hnot (by rw [← hxe]; exact hx)
    exact Function.update_noteq hne _ _
  have hmove := MoveToFront_last pc.q el hw.nodupQ hlast
  have hent : (MoveToFront pc.q el).map (Function.update pc.heap el ⟨h, s⟩)
      = ⟨h, s⟩ :: pc.entries.dropLast := by
    rw [hmove]
    simp only [List.map_cons, Function.update_same]
    congr 1
    unfold pollutionCache.entries
    rw [← List.map_dropLast]
    exact List.map_congr_left hheap
  refine ⟨{ pc with m := mapSet (mapDelete pc.m (pc.heap el).hostname) h el,
                     heap := Function.update pc.heap el ⟨h, s⟩,
                     q := MoveToFront pc.q el }, ?_, ?_, hent⟩
  · unfold pollutionCache.Put
    rw [hg]
    simp only [hge, if_false, hlast]
  · refine ⟨MoveToFront_nodup _ _ hw.nodupQ, ?_,
      keys_mapSet_nodup _ _ _ (keys_mapDelete_nodup _ _ hw.nodupKeys), ?_⟩
    · unfold pollutionCache.hostnames pollutionCache.entries
      simp only
      rw [hent]
      simp only [List.map_cons, List.nodup_cons]
      refine ⟨fun hm => hn ?_, ?_⟩
      · exact (List.map_subset _ (List.dropLast_subset _)) hm
      · exact hw.nodupHost.sublist ((List.dropLast_sublist _).map _)
    · intro k p
      simp only [mapGet_mapSet, mapGet_mapDelete, mem_MoveToFront]
      by_cases hk : h = k
      · subst hk
        simp only [if_true, Option.some.injEq]
        constructor
        · intro hp
          subst hp
          exact ⟨helq, by simp⟩
        · rintro ⟨hp, hh⟩
          by_cases hpe : p = el
          · exact hpe.symm
          · exfalso
            rw [Function.update_noteq hpe] at hh
            have := (hw.index h p).2 ⟨hp, hh⟩
            rw [hg] at this
            cases this
      · simp only [hk, if_false]
        by_cases hko : (pc.heap el).hostname = k
        · simp only [hko, if_true]
          constructor
          · intro hp; cases hp
          · rintro ⟨hp, hh⟩
            by_cases hpe : p = el
            · subst hpe
              simp at hh
              exact absurd hh hk
            · rw [Function.update_noteq hpe] at hh
              exact absurd (WF_heap_inj hw hp helq (by rw [hh, hko])) hpe
        · simp only [hko, if_false]
          constructor
          · intro hp
            obtain ⟨hpq, hph⟩ := (hw.index k p).1 hp
            have hpe : p ≠ el := by
              intro hpe
              rw [hpe] at hph
              exact hko hph
            exact ⟨hpq, by rw [Function.update_noteq hpe]; exact hph⟩
          · rintro ⟨hp, hh⟩
            by_cases hpe : p = el
            · subst hpe
              simp at hh
              exact absurd hh hk
            · rw [Function.update_noteq hpe] at hh
              exact (hw.index k p).2 ⟨hp, hh⟩

/-- The three cases of `Put` on a well-formed cache. -/
theorem Put_cases {pc pc1 : pollutionCache} (hw : pc.WF) {h : String} {s : Int}
    (hp : pc.Put h s = some pc1) :
    pc1.WF ∧
    ((∃ e ∈ pc.entries, e.hostname = h ∧
        pc1.entries = e :: pc.entries.filter (fun x => decide (x.hostname ≠ h))) ∨
     (h ∉ pc.hostnames ∧ (pc.entries.length : Int) < pc.capacity ∧
        pc1.entries = ⟨h, s⟩ :: pc.entries) ∨
     (h ∉ pc.hostnames ∧ ¬ (pc.entries.length : Int) < pc.capacity ∧ pc.entries ≠ [] ∧
        pc1.entries = ⟨h, s⟩ :: pc.entries.dropLast)) := by
  by_cases hm : h ∈ pc.hostnames
  · obtain ⟨e, he, heh⟩ := List.mem_map.1 hm
    obtain ⟨pc2, h2, hw2, hent⟩ := Put_of_mem hw he s
    rw [heh] at h2 hent
    rw [hp] at h2
    cases h2
    exact ⟨hw2, Or.inl ⟨e, he, heh, hent⟩⟩
  · by_cases hlt : (pc.entries.length : Int) < pc.capacity
    · obtain ⟨pc2, h2, hw2, hent⟩ := Put_insert hw hm hlt s
      rw [hp] at h2
      cases h2
      exact ⟨hw2, Or.inr (Or.inl ⟨hm, hlt, hent⟩)⟩
    · by_cases hne : pc.entries = []
      · exfalso
        have hg := (WF_absent_iff hw h).2 hm
        have hq : pc.q = [] := by
          unfold pollutionCache.entries at hne
          exact List.map_eq_nil_iff.1 hne
        rw [entries_length] at hlt
        unfold pollutionCache.Put at hp
        rw [hg] at hp
        simp only [hlt, if_false] at hp
        rw [hq] at hp
        simp at hp
      · obtain ⟨pc2, h2, hw2, hent⟩ := Put_evict hw hm hlt hne s
        rw [hp] at h2
        cases h2
        exact ⟨hw2, Or.inr (Or.inr ⟨hm, hlt, hne, hent⟩)⟩

theorem Put_WF {pc pc1 : pollutionCache} (hw : pc.WF) {h : String} {s : Int}
    (hp : pc.Put h s = some pc1) : pc1.WF :=
  (Put_cases hw hp).1

/-- On a well-formed cache of capacity at least one `Put` never aborts. -/
theorem Put_isSome {pc : pollutionCache} (hw : pc.WF) (hc : 1 ≤ pc.capacity) (h : String)
    (s : Int) : ∃ pc1, pc.Put h s = some pc1 := by
  by_cases hm : h ∈ pc.hostnames
  · obtain ⟨e, he, heh⟩ := List.mem_map.1 hm
    obtain ⟨pc2, h2, _⟩ := Put_of_mem hw he s
    exact ⟨pc2, by rw [← heh]; exact h2⟩
  · by_cases hlt : (pc.entries.length : Int) < pc.capacity
    · obtain ⟨pc2, h2, _⟩ := Put_insert hw hm hlt s
      exact ⟨pc2, h2⟩
    · have hne : pc.entries ≠ [] := by
        intro he
        rw [he] at hlt
        simp at hlt
        omega
      obtain ⟨pc2, h2, _⟩ := Put_evict hw hm hlt hne s
      exact ⟨pc2, h2⟩

theorem WF_empty (c : Int) : (pollutionCache.empty c).WF := by
  refine ⟨?_, ?_, ?_, ?_⟩ <;> simp [pollutionCache.empty, pollutionCache.hostnames,
    pollutionCache.entries, mapGet]

/-! ## The cache contract -/

theorem exampleCache_WF : exampleCache.WF := by
  refine ⟨by decide, by decide, by decide, ?_⟩
  intro h p
  simp only [exampleCache, mapGet, List.mem_cons, List.mem_singleton, List.not_mem_nil, or_false]
  constructor
  · intro hg
    split at hg
    · rename_i ha
      cases hg
      exact ⟨Or.inr rfl, by simpa using ha⟩
    · split at hg
      · rename_i hb
        cases hg
        exact ⟨Or.inl rfl, by simpa using hb⟩
      · cases hg
  · rintro ⟨hp | hp, hh⟩
    · subst hp
      simp at hh
      subst hh
      simp
    · subst hp
      simp at hh
      subst hh
      simp

theorem filter_ne_cons_filter (es : List pollutionCacheEntry) (e : pollutionCacheEntry) :
    (e :: es.filter (fun x => decide (x.hostname ≠ e.hostname))).filter
        (fun x => decide (x.hostname ≠ e.hostname))
      = es.filter (fun x => decide (x.hostname ≠ e.hostname)) := by
  rw [List.filter_cons_of_neg (by simp), List.filter_filter]
  apply List.filter_congr
  intro x _
  simp

/-- C1: `Put` on a hostname that is already stored only refreshes recency. On a
well-formed cache holding `h` with state `s`, `Put h s'` returns, leaves map,
heap and capacity as they were, keeps the same entries (a permutation),
`Get h` still gives `(s, true)`, `h` is at the front, and the entries other
than `h` keep their order. -/
theorem C1_put_present_only_refreshes (pc : pollutionCache) (hw : pc.WF) (h : String)
    (s s' : Int) (hs : (⟨h, s⟩ : pollutionCacheEntry) ∈ pc.entries) :
    ∃ pc1, pc.Put h s' = some pc1 ∧
      pc1.m = pc.m ∧ pc1.heap = pc.heap ∧ pc1.capacity = pc.capacity ∧
      pc1.entries.Perm pc.entries ∧
      (pc1.Get h).2 = (s, true) ∧
      pc1.entries.head? = some ⟨h, s⟩ ∧
      pc1.entries.filter (fun e => decide (e.hostname ≠ h))
        = pc.entries.filter (fun e => decide (e.hostname ≠ h)) := by
  obtain ⟨p, hp, hpe, hg⟩ := WF_entry_lookup hw hs
  have hput : pc.Put h s' = some { pc with q := MoveToFront pc.q p } := by
    unfold pollutionCache.Put
    simp only at hg
    rw [hg]
  have hw1 : pollutionCache.WF { pc with q := MoveToFront pc.q p } := WF_moveToFront hw p
  have hent := entries_moveToFront hw hp
  rw [hpe] at hent
  refine ⟨_, hput, rfl, rfl, rfl, (MoveToFront_perm pc.q p).map _, ?_, ?_, ?_⟩
  · have hmem : (⟨h, s⟩ : pollutionCacheEntry) ∈
        pollutionCache.entries { pc with q := MoveToFront pc.q p } := by
      rw [hent]; simp
    exact (Get_of_mem hw1 hmem).1
  · rw [hent]; rfl
  · rw [hent]
    exact filter_ne_cons_filter pc.entries ⟨h, s⟩

theorem C1_put_present_only_refreshes_witness :
    (⟨"a", 1⟩ : pollutionCacheEntry) ∈ exampleCache.entries ∧
    ∃ pc1, exampleCache.Put "a" 2 = some pc1 ∧
      pc1.m = exampleCache.m ∧ pc1.heap = exampleCache.heap ∧
      pc1.capacity = exampleCache.capacity ∧
      pc1.entries.Perm exampleCache.entries ∧
      (pc1.Get "a").2 = (1, true) ∧
      pc1.entries.head? = some ⟨"a", 1⟩ ∧
      pc1.entries.filter (fun e => decide (e.hostname ≠ "a"))
        = exampleCache.entries.filter (fun e => decide (e.hostname ≠ "a")) :=
  ⟨by decide, C1_put_present_only_refreshes exampleCache exampleCache_WF "a" 1 2 (by decide)⟩

/-- C5: `Get` on a well-formed cache. It returns `(s, true)` exactly when `h` is
stored with state `s`, and `found = false` exactly when `h` is not stored;
it never changes map, heap, capacity or the set of entries; on a hit `h`
moves to the front and the other entries keep their order; on a miss the
cache is unchanged. -/
theorem C5_get_contract (pc : pollutionCache) (hw : pc.WF) (h : String) :
    (∀ s, (pc.Get h).2 = (s, true) ↔ (⟨h, s⟩ : pollutionCacheEntry) ∈ pc.entries) ∧
    ((pc.Get h).2.2 = false ↔ h ∉ pc.hostnames) ∧
    ((pc.Get h).1.m = pc.m ∧ (pc.Get h).1.heap = pc.heap ∧
      (pc.Get h).1.capacity = pc.capacity ∧ (pc.Get h).1.entries.Perm pc.entries) ∧
    (∀ s, (⟨h, s⟩ : pollutionCacheEntry) ∈ pc.entries →
      (pc.Get h).1.entries.head? = some ⟨h, s⟩ ∧
      (pc.Get h).1.entries.filter (fun e => decide (e.hostname ≠ h))
        = pc.entries.filter (fun e => decide (e.hostname ≠ h))) ∧
    (h ∉ pc.hostnames → pc.Get h = (pc, 0, false)) := by
  refine ⟨?_, ?_, ⟨?_, ?_, Get_capacity pc h, Get_entries_perm pc h⟩, ?_, fun hn => Get_of_not_mem hw hn⟩
  · intro s
    constructor
    · intro hg
      have hfound : (pc.Get h).2.2 = true := by rw [hg]
      obtain ⟨e, he, heh⟩ := List.mem_map.1 ((Get_found_iff hw h).1 hfound)
      have h1 := (Get_of_mem hw he).1
      rw [heh, hg] at h1
      have hes : e.state = s := by
        have := congrArg Prod.fst h1
        exact this.symm
      have : e = ⟨h, s⟩ := by
        cases e
        simp only at heh hes
        rw [heh, hes]
      rw [← this]
      exact he
    · intro hm
      exact (Get_of_mem hw hm).1
  · rw [← Get_found_iff hw h]
    simp
  · unfold pollutionCache.Get
    split <;> rfl
  · unfold pollutionCache.Get
    split <;> rfl
  · intro s hm
    have h2 := (Get_of_mem hw hm).2
    simp only at h2
    rw [h2]
    exact ⟨rfl, filter_ne_cons_filter pc.entries ⟨h, s⟩⟩

theorem C5_get_contract_witness :
    (∀ s, (exampleCache.Get "a").2 = (s, true) ↔
        (⟨"a", s⟩ : pollutionCacheEntry) ∈ exampleCache.entries) ∧
    ((exampleCache.Get "a").2.2 = false ↔ "a" ∉ exampleCache.hostnames) ∧
    ((exampleCache.Get "a").1.m = exampleCache.m ∧
      (exampleCache.Get "a").1.heap = exampleCache.heap ∧
      (exampleCache.Get "a").1.capacity = exampleCache.capacity ∧
      (exampleCache.Get "a").1.entries.Perm exampleCache.entries) ∧
    (∀ s, (⟨"a", s⟩ : pollutionCacheEntry) ∈ exampleCache.entries →
      (exampleCache.Get "a").1.entries.head? = some ⟨"a", s⟩ ∧
      (exampleCache.Get "a").1.entries.filter (fun e => decide (e.hostname ≠ "a"))
        = exampleCache.entries.filter (fun e => decide (e.hostname ≠ "a"))) ∧
    ("a" ∉ exampleCache.hostnames → exampleCache.Get "a" = (exampleCache, 0, false)) :=
  C5_get_contract exampleCache exampleCache_WF "a"

theorem putAll_append (pc : pollutionCache) (xs ys : List (String × Int)) :
    pc.putAll (xs ++ ys) = (pc.putAll xs).bind (fun pc1 => pc1.putAll ys) := by
  induction xs generalizing pc with
  | nil => simp [pollutionCache.putAll]
  | cons x rest ih =>
    obtain ⟨h, s⟩ := x
    simp only [List.cons_append, pollutionCache.putAll]
    cases pc.Put h s with
    | none => simp
    | some pc1 => simpa using ih pc1

/-- Putting distinct hostnames that are not stored, with room for all of them,
stacks them in front of the entries already there. -/
theorem putAll_fresh (hs : List (String × Int)) :
    ∀ pc : pollutionCache, pc.WF → (hs.map Prod.fst).Nodup →
      (∀ x ∈ hs, x.1 ∉ pc.hostnames) →
      ((pc.entries.length : Int) + hs.length ≤ pc.capacity) →
      ∃ pc2, pc.putAll hs = some pc2 ∧ pc2.WF ∧ pc2.capacity = pc.capacity ∧
        pc2.entries = (hs.map (fun x => (⟨x.1, x.2⟩ : pollutionCacheEntry))).reverse ++ pc.entries := by
  induction hs with
  | nil =>
    intro pc hw _ _ _
    exact ⟨pc, rfl, hw, rfl, by simp⟩
  | cons x rest ih =>
    intro pc hw hnd habs hlen
    obtain ⟨h, s⟩ := x
    simp only [List.map_cons, List.nodup_cons] at hnd
    simp only [List.length_cons, Nat.cast_add, Nat.cast_one] at hlen
    have hn : h ∉ pc.hostnames := habs (h, s) (by simp)
    obtain ⟨pc1, hput, hw1, hent1⟩ := Put_insert hw hn (by omega) s
    have hcap1 := Put_capacity hput
    have habs1 : ∀ x ∈ rest, x.1 ∉ pc1.hostnames := by
      intro x hx hm
      unfold pollutionCache.hostnames at hm
      rw [hent1] at hm
      simp only [List.map_cons, List.mem_cons] at hm
      rcases hm with hm | hm
      · exact hnd.1 (List.mem_map.2 ⟨x, hx, hm⟩)
      · exact habs x (List.mem_cons_of_mem _ hx) hm
    have hlen1 : (pc1.entries.length : Int) + rest.length ≤ pc1.capacity := by
      rw [hent1, hcap1]
      simp only [List.length_cons, Nat.cast_add, Nat.cast_one]
      omega
    obtain ⟨pc2, hall, hw2, hcap2, hent2⟩ := ih pc1 hw1 hnd.2 habs1 hlen1
    refine ⟨pc2, ?_, hw2, by rw [hcap2, hcap1], ?_⟩
    · simp only [pollutionCache.putAll, hput]
      exact hall
    · rw [hent2, hent1]
      simp

/-- C2: `Put` of a hostname that is not stored, on a well-formed cache of
capacity at least one. The call returns, `Get h` then gives `(s, true)` and
`h` is at the front; below capacity every earlier entry is kept behind it;
at capacity exactly the last (least recently used) entry is dropped and the
size stays the same. Consequently `c + 1` distinct hostnames put into an
empty cache of capacity `c` leave `c` entries: all but the first one put,
most recent first. -/
theorem C2_put_absent_inserts_or_evicts (pc : pollutionCache) (hw : pc.WF)
    (hc : 1 ≤ pc.capacity) (h : String) (s : Int) (hn : h ∉ pc.hostnames) :
    (∃ pc1, pc.Put h s = some pc1 ∧
      (pc1.Get h).2 = (s, true) ∧
      pc1.entries.head? = some ⟨h, s⟩ ∧
      ((pc.entries.length : Int) < pc.capacity → pc1.entries = ⟨h, s⟩ :: pc.entries) ∧
      ((pc.entries.length : Int) = pc.capacity →
        pc1.entries = ⟨h, s⟩ :: pc.entries.dropLast ∧
        pc1.entries.length = pc.entries.length)) ∧
    (∀ (c : Int) (hs : List (String × Int)), 1 ≤ c → (hs.map Prod.fst).Nodup →
      (hs.length : Int) = c + 1 →
      ∃ pc2, (pollutionCache.empty c).putAll hs = some pc2 ∧
        (pc2.entries.length : Int) = c ∧
        pc2.entries = (hs.tail.map (fun x => (⟨x.1, x.2⟩ : pollutionCacheEntry))).reverse ∧
        (∀ x, hs.head? = some x → x.1 ∉ pc2.hostnames)) := by
  constructor
  · obtain ⟨pc1, hput⟩ := Put_isSome hw hc h s
    obtain ⟨hw1, hcases⟩ := Put_cases hw hput
    have hhead : pc1.entries.head? = some ⟨h, s⟩ := by
      rcases hcases with ⟨e, he, heh, _⟩ | ⟨_, _, hent⟩ | ⟨_, _, _, hent⟩
      · exact absurd (List.mem_map.2 ⟨e, he, heh⟩) hn
      · rw [hent]; rfl
      · rw [hent]; rfl
    have hmem : (⟨h, s⟩ : pollutionCacheEntry) ∈ pc1.entries := by
      cases hl : pc1.entries with
      | nil => rw [hl] at hhead; cases hhead
      | cons a rest =>
        rw [hl] at hhead
        simp only [List.head?_cons, Option.some.injEq] at hhead
        rw [hhead]; simp
    refine ⟨pc1, hput, (Get_of_mem hw1 hmem).1, hhead, ?_, ?_⟩
    · intro hlt
      rcases hcases with ⟨e, he, heh, _⟩ | ⟨_, _, hent⟩ | ⟨_, hge, _, _⟩
      · exact absurd (List.mem_map.2 ⟨e, he, heh⟩) hn
      · exact hent
      · exact absurd hlt hge
    · intro heq
      rcases hcases with ⟨e, he, heh, _⟩ | ⟨_, hlt, _⟩ | ⟨_, _, hne, hent⟩
      · exact absurd (List.mem_map.2 ⟨e, he, heh⟩) hn
      · omega
      · refine ⟨hent, ?_⟩
        rw [hent]
        have : pc.entries.length ≠ 0 := fun h0 => hne (List.length_eq_zero.1 h0)
        simp only [List.length_cons, List.length_dropLast]
        omega
  · intro c hs hc1 hnd hlen
    cases hs with
    | nil => simp at hlen; omega
    | cons first tl =>
      have htl : tl ≠ [] := by
        intro ht
        rw [ht] at hlen
        simp at hlen
        omega
      have hsplit := List.dropLast_append_getLast htl
      generalize tl.dropLast = mid at hsplit
      generalize tl.getLast htl = last at hsplit
      subst hsplit
      simp only [List.length_cons, List.length_append, List.length_nil, Nat.cast_add,
        Nat.cast_one, Nat.cast_zero] at hlen
      have hnd0 : (((first :: mid) ++ [last]).map Prod.fst).Nodup := by simpa using hnd
      rw [List.map_append] at hnd0
      obtain ⟨hndInit, _, hdisj⟩ := List.nodup_append.1 hnd0
      obtain ⟨pcA, hA, hwA, hcapA, hentA⟩ := putAll_fresh (first :: mid) (pollutionCache.empty c)
        (WF_empty c) hndInit (by simp [pollutionCache.empty, pollutionCache.hostnames,
          pollutionCache.entries]) (by
          simp only [pollutionCache.empty, pollutionCache.entries, List.map_nil, List.length_nil,
            List.length_cons, Nat.cast_add, Nat.cast_one, Nat.cast_zero]
          omega)
      have hentA2 : pcA.entries
          = (mid.map (fun x => (⟨x.1, x.2⟩ : pollutionCacheEntry))).reverse ++ [⟨first.1, first.2⟩] := by
        rw [hentA]
        simp [pollutionCache.empty, pollutionCache.entries]
      have hcapA2 : pcA.capacity = c := by rw [hcapA]; rfl
      have hnlast : last.1 ∉ pcA.hostnames := by
        intro hm
        unfold pollutionCache.hostnames at hm
        rw [hentA] at hm
        simp only [pollutionCache.empty, pollutionCache.entries, List.map_nil, List.append_nil,
          List.map_reverse, List.map_map, List.mem_reverse] at hm
        have hm2 : last.1 ∈ (first :: mid).map Prod.fst := by
          obtain ⟨x, hx, hxe⟩ := List.mem_map.1 hm
          exact List.mem_map.2 ⟨x, hx, hxe⟩
        exact hdisj hm2 (by simp)
      have hge : ¬ (pcA.entries.length : Int) < pcA.capacity := by
        rw [hentA2, hcapA2]
        simp only [List.length_append, List.length_reverse, List.length_map, List.length_cons,
          List.length_nil, Nat.cast_add, Nat.cast_one, Nat.cast_zero]
        omega
      have hne : pcA.entries ≠ [] := by rw [hentA2]; simp
      obtain ⟨pc2, hput, hw2, hent2⟩ := Put_evict hwA hnlast hge hne last.2
      rw [hentA2, List.dropLast_concat] at hent2
      have hfinal : pc2.entries
          = ((mid ++ [last]).map (fun x => (⟨x.1, x.2⟩ : pollutionCacheEntry))).reverse := by
        rw [hent2]; simp
      refine ⟨pc2, ?_, ?_, ?_, ?_⟩
      · have := putAll_append (pollutionCache.empty c) (first :: mid) [last]
        rw [List.cons_append] at this
        rw [this, hA]
        simp [pollutionCache.putAll, hput]
      · rw [hfinal]
        simp only [List.length_reverse, List.length_map, List.length_append, List.length_cons,
          List.length_nil, Nat.cast_add, Nat.cast_one, Nat.cast_zero]
        omega
      · rw [hfinal]; rfl
      · intro x hx
        simp only [List.head?_cons, Option.some.injEq] at hx
        subst hx
        intro hm
        unfold pollutionCache.hostnames at hm
        rw [hfinal] at hm
        simp only [List.map_reverse, List.map_map, List.mem_reverse] at hm
        obtain ⟨y, hy, hye⟩ := List.mem_map.1 hm
        have hnd1 := hnd
        simp only [List.map_cons, List.nodup_cons] at hnd1
        exact hnd1.1 (List.mem_map.2 ⟨y, hy, hye⟩)

theorem C2_put_absent_inserts_or_evicts_witness :
    (1 ≤ exampleCache.capacity ∧ "c" ∉ exampleCache.hostnames) ∧
    (∃ pc1, exampleCache.Put "c" 1 = some pc1 ∧
      (pc1.Get "c").2 = (1, true) ∧
      pc1.entries.head? = some ⟨"c", 1⟩ ∧
      ((exampleCache.entries.length : Int) < exampleCache.capacity →
        pc1.entries = ⟨"c", 1⟩ :: exampleCache.entries) ∧
      ((exampleCache.entries.length : Int) = exampleCache.capacity →
        pc1.entries = ⟨"c", 1⟩ :: exampleCache.entries.dropLast ∧
        pc1.entries.length = exampleCache.entries.length)) ∧
    (∀ (c : Int) (hs : List (String × Int)), 1 ≤ c → (hs.map Prod.fst).Nodup →
      (hs.length : Int) = c + 1 →
      ∃ pc2, (pollutionCache.empty c).putAll hs = some pc2 ∧
        (pc2.entries.length : Int) = c ∧
        pc2.entries = (hs.tail.map (fun x => (⟨x.1, x.2⟩ : pollutionCacheEntry))).reverse ∧
        (∀ x, hs.head? = some x → x.1 ∉ pc2.hostnames)) :=
  ⟨⟨by decide, by decide⟩,
    C2_put_absent_inserts_or_evicts exampleCache exampleCache_WF (by decide) "c" 1 (by decide)⟩

/-- C4: recency protection. In a full well-formed cache of capacity at least
two, after a stored hostname `h` is touched by `Get h` or by a repeat
`Put h _`, putting a hostname that is not stored evicts the least recently
used of the other entries, not `h`: `h` is still stored with its state. -/
theorem C4_recency_protection (pc : pollutionCache) (hw : pc.WF) (hc : 2 ≤ pc.capacity)
    (hfull : (pc.entries.length : Int) = pc.capacity) (h : String) (s : Int)
    (hs : (⟨h, s⟩ : pollutionCacheEntry) ∈ pc.entries) (pc1 : pollutionCache) (s' : Int)
    (htouch : pc1 = (pc.Get h).1 ∨ pc.Put h s' = some pc1)
    (h2 : String) (s2 : Int) (hn : h2 ∉ pc.hostnames) :
    ∃ pc2 evicted, pc1.Put h2 s2 = some pc2 ∧
      (pc.entries.filter (fun e => decide (e.hostname ≠ h))).getLast? = some evicted ∧
      evicted.hostname ≠ h ∧
      evicted.hostname ∉ pc2.hostnames ∧
      pc2.entries = ⟨h2, s2⟩ :: ⟨h, s⟩ ::
        (pc.entries.filter (fun e => decide (e.hostname ≠ h))).dropLast ∧
      (⟨h, s⟩ : pollutionCacheEntry) ∈ pc2.entries ∧
      (pc2.Get h).2 = (s, true) := by
  -- the touched cache
  have h1 : pc1.WF ∧ pc1.capacity = pc.capacity ∧
      pc1.entries = ⟨h, s⟩ :: pc.entries.filter (fun e => decide (e.hostname ≠ h)) := by
    rcases htouch with ht | ht
    · subst ht
      exact ⟨Get_WF hw h, Get_capacity pc h, (Get_of_mem hw hs).2⟩
    · obtain ⟨pcx, hx, hwx, hentx⟩ := Put_of_mem hw hs s'
      simp only at hx hentx
      rw [ht] at hx
      cases hx
      exact ⟨hwx, Put_capacity ht, hentx⟩
  obtain ⟨hw1, hcap1, hent1⟩ := h1
  generalize hF : pc.entries.filter (fun e => decide (e.hostname ≠ h)) = F at hent1 ⊢
  have hperm : pc1.entries.Perm pc.entries := by
    rcases htouch with ht | ht
    · subst ht; exact Get_entries_perm pc h
    · obtain ⟨p, hp, hpe, hg⟩ := WF_entry_lookup hw hs
      have : pc.Put h s' = some { pc with q := MoveToFront pc.q p } := by
        unfold pollutionCache.Put
        simp only at hg
        rw [hg]
      rw [ht] at this
      cases this
      exact (MoveToFront_perm pc.q p).map _
  have hlen1 : pc1.entries.length = pc.entries.length := hperm.length_eq
  have hFlen : (F.length : Int) + 1 = pc.capacity := by
    rw [← hfull, ← hlen1, hent1]
    simp
  have hFne : F ≠ [] := by
    intro hF0
    rw [hF0] at hFlen
    simp at hFlen
    omega
  have hn1 : h2 ∉ pc1.hostnames := by
    intro hm
    apply hn
    unfold pollutionCache.hostnames at hm ⊢
    exact (hperm.map _).subset hm
  have hge : ¬ (pc1.entries.length : Int) < pc1.capacity := by
    rw [hlen1, hcap1, hfull]
    omega
  have hne1 : pc1.entries ≠ [] := by rw [hent1]; simp
  obtain ⟨pc2, hput, hw2, hent2⟩ := Put_evict hw1 hn1 hge hne1 s2
  rw [hent1, List.dropLast_cons_of_ne_nil hFne] at hent2
  have hsplit := List.dropLast_append_getLast hFne
  have hFsub : F.Sublist pc.entries := by rw [← hF]; exact List.filter_sublist _
  have hev : F.getLast hFne ∈ F := List.getLast_mem hFne
  have hlast : F.getLast? = some (F.getLast hFne) := List.getLast?_eq_getLast _ hFne
  generalize F.getLast hFne = ev at hsplit hev hlast
  have hevF : ev.hostname ≠ h := by
    have hmemF : ev ∈ pc.entries.filter (fun e => decide (e.hostname ≠ h)) := by
      rw [hF]; exact hev
    simpa using (List.mem_filter.1 hmemF).2
  have hmem2 : (⟨h, s⟩ : pollutionCacheEntry) ∈ pc2.entries := by rw [hent2]; simp
  refine ⟨pc2, ev, hput, hlast, hevF, ?_, hent2, hmem2,
    (Get_of_mem hw2 hmem2).1⟩
  intro hm
  unfold pollutionCache.hostnames at hm
  rw [hent2] at hm
  simp only [List.map_cons, List.mem_cons] at hm
  rcases hm with hm | hm | hm
  · apply hn
    rw [← hm]
    exact List.mem_map.2 ⟨_, hFsub.subset hev, rfl⟩
  · exact hevF hm
  · have hnodF : (F.map pollutionCacheEntry.hostname).Nodup :=
      hw.nodupHost.sublist (hFsub.map _)
    rw [← hsplit, List.map_append] at hnodF
    exact (List.nodup_append.1 hnodF).2.2 hm (by simp)

theorem C4_recency_protection_witness :
    (2 ≤ exampleCache.capacity ∧
      (exampleCache.entries.length : Int) = exampleCache.capacity ∧
      (⟨"a", 1⟩ : pollutionCacheEntry) ∈ exampleCache.entries ∧
      ((exampleCache.Get "a").1 = (exampleCache.Get "a").1 ∨
        exampleCache.Put "a" 2 = some (exampleCache.Get "a").1) ∧
      "c" ∉ exampleCache.hostnames) ∧
    ∃ pc2 evicted, (exampleCache.Get "a").1.Put "c" 2 = some pc2 ∧
      (exampleCache.entries.filter (fun e => decide (e.hostname ≠ "a"))).getLast?
        = some evicted ∧
      evicted.hostname ≠ "a" ∧
      evicted.hostname ∉ pc2.hostnames ∧
      pc2.entries = ⟨"c", 2⟩ :: ⟨"a", 1⟩ ::
        (exampleCache.entries.filter (fun e => decide (e.hostname ≠ "a"))).dropLast ∧
      (⟨"a", 1⟩ : pollutionCacheEntry) ∈ pc2.entries ∧
      (pc2.Get "a").2 = (1, true) :=
  ⟨⟨by decide, by decide, by decide, Or.inl rfl, by decide⟩,
    C4_recency_protection exampleCache exampleCache_WF (by decide) (by decide) "a" 1 (by decide)
      (exampleCache.Get "a").1 2 (Or.inl rfl) "c" 2 (by decide)⟩

/-! ## The classifier: what every call preserves -/

theorem putRet_stable {P : Run → Prop} (hP : Stable P) (s : Run) (h : String) (st : Int)
    (b : Bool) (hst : st = HostnamePolluted ∨ st = HostnameClean) (hs : P s) :
    P (s.putRet h st b).run := by
  unfold Run.putRet
  cases hp : s.pr.cache.Put h st with
  | none => exact hs
  | some c => exact hP.put s h st c hs hst hp

theorem scanAnswer_stable {P : Run → Prop} (hP : Stable P) (classify : Run → String → Outcome)
    (hc : ∀ s t, P s → P (classify s t).run) (hostname : String) :
    ∀ (rrs : List RR) (s : Run), P s → P (scanEnd (scanAnswer classify hostname rrs s)) := by
  intro rrs
  induction rrs with
  | nil => intro s hs; exact hs
  | cons rr rest ih =>
    intro s hs
    unfold scanAnswer
    split
    · cases hcn : rr.cname with
      | none => exact hs
      | some target =>
        simp only
        have hcl := hc s target hs
        cases hres : classify s target with
        | ret b s1 =>
          rw [hres] at hcl
          cases b with
          | true =>
            simp only
            cases hp : s1.pr.cache.Put target HostnamePolluted with
            | none => exact hcl
            | some c =>
              exact putRet_stable hP _ _ _ _ (Or.inl rfl)
                (hP.put s1 target _ c hcl (Or.inl rfl) hp)
          | false =>
            simp only
            cases hp : s1.pr.cache.Put target HostnameClean with
            | none => exact hcl
            | some c => exact ih _ (hP.put s1 target _ c hcl (Or.inr rfl) hp)
        | abort s1 => rw [hres] at hcl; exact hcl
        | outOfFuel s1 => rw [hres] at hcl; exact hcl
    · exact ih s hs

/-- Every call of `match` keeps a stable property, however it ends. -/
theorem match_stable (d : Dns) {P : Run → Prop} (hP : Stable P) :
    ∀ (fuel : Nat) (s : Run) (h : String) (r : Int), P s →
      P (Polluted.match_ d fuel s h r).run := by
  intro fuel
  induction fuel with
  | zero => intro s h r hs; exact hs
  | succ fuel ih =>
    intro s h r hs
    rw [Polluted.match_]
    split
    · exact hs
    · simp only
      have h0 := hP.get s h hs
      split
      · exact h0
      · have h1 := hP.send _ (d.Fqdn h) (s.withCache (s.pr.cache.Get h).1).pr.honeypotDNS h0
        split
        · exact ih _ _ _ h1
        · exact h1
        · split
          · exact putRet_stable hP _ _ _ _ (Or.inl rfl) h1
          · have h2 := hP.send _ (d.Fqdn h)
              ((s.withCache (s.pr.cache.Get h).1).send (d.Fqdn h)
                (s.withCache (s.pr.cache.Get h).1).pr.honeypotDNS).pr.localDNS h1
            split
            · exact ih _ _ _ h2
            · exact putRet_stable hP _ _ _ _ (Or.inl rfl) h2
            · rename_i answer2 _
              have hscan := scanAnswer_stable hP
                (fun t target => Polluted.match_ d fuel t target 0)
                (fun t target ht => ih t target 0 ht) h answer2.Answer _ h2
              split
              · rename_i o heq
                rw [heq] at hscan
                exact hscan
              · rename_i s3 heq
                rw [heq] at hscan
                exact putRet_stable hP _ _ _ _ (Or.inr rfl) hscan

theorem exampleRule_built :
    NewPOLLUTED "1.2.3.4:53;8.8.8.8:53;9.9.9.9:853" "proxy1" = some exampleRule := by
  rfl

theorem NewPOLLUTED_cache {dnsHosts adapter : String} {pr : Polluted}
    (h : NewPOLLUTED dnsHosts adapter = some pr) : pr.cache = pollutionCache.empty 1024 := by
  unfold NewPOLLUTED at h
  simp only at h
  split at h
  · cases h
  · split at h
    · cases h
    · split at h
      · cases h
      · cases h
        rfl

theorem Put_length_le {pc pc1 : pollutionCache} {h : String} {s : Int}
    (hp : pc.Put h s = some pc1) (hl : (pc.q.length : Int) ≤ pc.capacity) :
    (pc1.q.length : Int) ≤ pc1.capacity := by
  unfold pollutionCache.Put at hp
  split at hp
  · cases hp
    simp only [MoveToFront_length]
    exact hl
  · split at hp
    · rename_i hlt
      cases hp
      simp only [List.length_cons, Nat.cast_add, Nat.cast_one]
      omega
    · split at hp
      · cases hp
      · cases hp
        simp only [MoveToFront_length]
        exact hl

theorem Put_states {pc pc1 : pollutionCache} {h : String} {s : Int}
    (hp : pc.Put h s = some pc1) (hs : s = HostnamePolluted ∨ s = HostnameClean)
    (hall : ∀ p ∈ pc.q,
      (pc.heap p).state = HostnamePolluted ∨ (pc.heap p).state = HostnameClean) :
    ∀ p ∈ pc1.q,
      (pc1.heap p).state = HostnamePolluted ∨ (pc1.heap p).state = HostnameClean := by
  unfold pollutionCache.Put at hp
  split at hp
  · cases hp
    intro p hp
    exact hall p ((mem_MoveToFront _ _ _).1 hp)
  · split at hp
    · cases hp
      intro p hp
      simp only at hp ⊢
      by_cases hpe : p = freshAddr (pc.q ++ List.map Prod.snd pc.m)
      · rw [hpe, Function.update_same]
        exact hs
      · rw [Function.update_noteq hpe]
        rcases List.mem_cons.1 hp with h1 | h1
        · exact absurd h1 hpe
        · exact hall p h1
    · split at hp
      · cases hp
      · rename_i el _
        cases hp
        intro p hp
        simp only at hp ⊢
        by_cases hpe : p = el
        · rw [hpe, Function.update_same]
          exact hs
        · rw [Function.update_noteq hpe]
          exact hall p ((mem_MoveToFront _ _ _).1 hp)

theorem cacheOK_stable : Stable CacheOK := by
  refine ⟨?_, ?_, ?_⟩
  · rintro s h ⟨hw, hcap, hlen, hst⟩
    refine ⟨Get_WF hw h, ?_, ?_, ?_⟩
    · simp only [Run.withCache, Get_capacity]
      exact hcap
    · simp only [Run.withCache, Get_capacity]
      unfold pollutionCache.Get
      split
      · simp only [MoveToFront_length]; exact hlen
      · exact hlen
    · simp only [Run.withCache]
      unfold pollutionCache.Get
      split
      · intro p hp
        exact hst p ((mem_MoveToFront _ _ _).1 hp)
      · exact hst
  · rintro s h st c ⟨hw, hcap, hlen, hst⟩ hval hp
    refine ⟨Put_WF hw hp, ?_, Put_length_le hp hlen, Put_states hp hval hst⟩
    simp only [Run.withCache, Put_capacity hp]
    exact hcap
  · rintro s name server hs
    exact hs

theorem reachable_cacheOK {s : Run} (hr : Reachable s) : CacheOK s := by
  induction hr with
  | init dnsHosts adapter pr h =>
    have hc := NewPOLLUTED_cache h
    refine ⟨?_, ?_, ?_, ?_⟩
    · simp only [hc]; exact WF_empty 1024
    · simp only [hc]; rfl
    · simp only [hc]; decide
    · simp only [hc]
      intro p hp
      simp [pollutionCache.empty] at hp
  | call d fuel s metadata _ ih =>
    exact match_stable d cacheOK_stable fuel s metadata.Host 0 ih

theorem mem_keys_mapGet (m : List (String × Nat)) (key : String)
    (h : key ∈ m.map Prod.fst) : ∃ p, mapGet m key = some p := by
  induction m with
  | nil => simp at h
  | cons kv rest ih =>
    obtain ⟨a, v⟩ := kv
    by_cases hk : a = key
    · exact ⟨v, by simp [mapGet, hk]⟩
    · simp only [List.map_cons, List.mem_cons] at h
      rcases h with h | h
      · exact absurd h.symm hk
      · obtain ⟨p, hp⟩ := ih h
        exact ⟨p, by simp [mapGet, hk, hp]⟩

/-- In a well-formed cache the keys of the map are the hostnames of the list. -/
theorem WF_keys_perm {pc : pollutionCache} (hw : pc.WF) :
    (pc.m.map Prod.fst).Perm pc.hostnames := by
  rw [List.perm_ext_iff_of_nodup hw.nodupKeys hw.nodupHost]
  intro k
  constructor
  · intro hk
    obtain ⟨p, hp⟩ := mem_keys_mapGet _ _ hk
    by_contra hn
    rw [(WF_absent_iff hw k).2 hn] at hp
    cases hp
  · intro hk
    cases hg : mapGet pc.m k with
    | none => exact absurd hk ((WF_absent_iff hw k).1 hg)
    | some p => exact mapGet_mem_keys _ _ _ hg

theorem WF_map_length {pc : pollutionCache} (hw : pc.WF) : pc.m.length = pc.q.length := by
  have := (WF_keys_perm hw).length_eq
  simpa [pollutionCache.hostnames, pollutionCache.entries] using this

/-- C3: cache invariant. In every state reached from the rule built by
`NewPOLLUTED` through `IsMatch` calls, whatever the resolver answers and
however each call ends, the cache holds at most 1024 entries (in the list
and in the map) and every stored state is `HostnamePolluted` or
`HostnameClean`. -/
theorem C3_cache_invariant (s : Run) (hr : Reachable s) :
    s.pr.cache.entries.length ≤ 1024 ∧ s.pr.cache.m.length ≤ 1024 ∧
    ∀ e ∈ s.pr.cache.entries, e.state = HostnamePolluted ∨ e.state = HostnameClean := by
  obtain ⟨hw, hcap, hlen, hst⟩ := reachable_cacheOK hr
  rw [hcap] at hlen
  have hq : s.pr.cache.q.length ≤ 1024 := by omega
  refine ⟨by rw [entries_length]; exact hq, by rw [WF_map_length hw]; exact hq, ?_⟩
  intro e he
  obtain ⟨p, hp, hpe⟩ := List.mem_map.1 he
  rw [← hpe]
  exact hst p hp

theorem C3_cache_invariant_witness :
    Reachable (Polluted.IsMatch flakyPoisonDns 2 ⟨exampleRule, []⟩ ⟨"h"⟩).run ∧
    ((Polluted.IsMatch flakyPoisonDns 2 ⟨exampleRule, []⟩ ⟨"h"⟩).run.pr.cache.entries.length
        ≤ 1024 ∧
      (Polluted.IsMatch flakyPoisonDns 2 ⟨exampleRule, []⟩ ⟨"h"⟩).run.pr.cache.m.length ≤ 1024 ∧
      ∀ e ∈ (Polluted.IsMatch flakyPoisonDns 2 ⟨exampleRule, []⟩ ⟨"h"⟩).run.pr.cache.entries,
        e.state = HostnamePolluted ∨ e.state = HostnameClean) :=
  ⟨Reachable.call _ _ _ _ (Reachable.init _ _ _ exampleRule_built),
    C3_cache_invariant _ (Reachable.call _ _ _ _ (Reachable.init _ _ _ exampleRule_built))⟩

/-! ## The classifier: cache check and retries -/

theorem Get_miss {pc : pollutionCache} {h : String} (hm : (pc.Get h).2.2 = false) :
    mapGet pc.m h = none ∧ pc.Get h = (pc, 0, false) := by
  unfold pollutionCache.Get at hm ⊢
  cases hg : mapGet pc.m h with
  | none => exact ⟨rfl, rfl⟩
  | some p => rw [hg] at hm; simp at hm

theorem withCache_self (s : Run) : s.withCache s.pr.cache = s := rfl

theorem cleanCache_built :
    (pollutionCache.empty 1024).Put "b" HostnameClean = some cleanCache := rfl

/-- C6 as stated fails: with `b` cached clean and retry count 4 the call returns
polluted, because the retry bound is tested before the cache. -/
theorem C6_counterexample :
    (cleanRun.pr.cache.Get "b").2 = (HostnameClean, true) ∧
    Polluted.match_ deadDns 5 cleanRun "b" 4 = .ret true cleanRun ∧
    decide (HostnameClean = HostnamePolluted) = false := by
  refine ⟨by decide, rfl, by decide⟩

/-- C6 (amended): for every retry count `r ≤ 3`, if the cache holds `h` with state
`st` then `match(h, r)` returns `st == HostnamePolluted`, issues no exchange
and only moves `h` to the front of the cache; for a retry count above 3 it
returns polluted without looking at the cache. -/
theorem C6_cache_hit_within_retry_bound (d : Dns) (fuel : Nat) (s : Run) (h : String)
    (r : Int) (st : Int) (hr : r ≤ 3) (hhit : (s.pr.cache.Get h).2 = (st, true)) :
    Polluted.match_ d (fuel + 1) s h r
      = .ret (decide (st = HostnamePolluted)) (s.withCache (s.pr.cache.Get h).1) ∧
    (Polluted.match_ d (fuel + 1) s h r).run.sent = s.sent ∧
    (∀ r2 : Int, 3 < r2 → Polluted.match_ d (fuel + 1) s h r2 = .ret true s) := by
  have h1 : (s.pr.cache.Get h).2.1 = st := by rw [hhit]
  have h2 : (s.pr.cache.Get h).2.2 = true := by rw [hhit]
  have hnot : ¬ r > 3 := by omega
  have heq : Polluted.match_ d (fuel + 1) s h r
      = .ret (decide (st = HostnamePolluted)) (s.withCache (s.pr.cache.Get h).1) := by
    rw [Polluted.match_]
    simp only [hnot, if_false, h2, if_true, h1]
  refine ⟨heq, by rw [heq]; rfl, ?_⟩
  intro r2 hr2
  have hgt : r2 > 3 := hr2
  rw [Polluted.match_]
  simp only [hgt, if_true]

theorem C6_cache_hit_within_retry_bound_witness :
    ((3 : Int) ≤ 3 ∧ (cleanRun.pr.cache.Get "b").2 = (HostnameClean, true)) ∧
    (Polluted.match_ deadDns (0 + 1) cleanRun "b" 3
      = .ret (decide (HostnameClean = HostnamePolluted))
          (cleanRun.withCache (cleanRun.pr.cache.Get "b").1) ∧
    (Polluted.match_ deadDns (0 + 1) cleanRun "b" 3).run.sent = cleanRun.sent ∧
    (∀ r2 : Int, 3 < r2 → Polluted.match_ deadDns (0 + 1) cleanRun "b" r2 = .ret true cleanRun)) :=
  ⟨⟨by decide, by decide⟩,
    C6_cache_hit_within_retry_bound deadDns 0 cleanRun "b" 3 HostnameClean (by decide) (by decide)⟩

theorem send_pr (s : Run) (name server : String) : (s.send name server).pr = s.pr := rfl

theorem send_sent_length (s : Run) (name server : String) :
    (s.send name server).sent.length = s.sent.length + 1 := by
  simp [Run.send]

theorem send_sent_extends (s : Run) (name server : String) :
    s.sent <+: (s.send name server).sent := by
  simp [Run.send]

/-- After `k` failed attempts the call stands at retry count `r + k`, with the
same rule and cache and a longer list of issued exchanges. -/
theorem match_after_failures (d : Dns) (h : String) :
    ∀ (k fuel : Nat) (s : Run) (r : Int) (n : Nat),
      (s.pr.cache.Get h).2.2 = false → r + k ≤ 4 →
      failedAttempts d s.pr (d.Fqdn h) k s.sent.length = some n →
      ∃ t, t.pr = s.pr ∧ t.sent.length = n ∧ s.sent <+: t.sent ∧
        Polluted.match_ d (fuel + k) s h r = Polluted.match_ d fuel t h (r + k) := by
  intro k
  induction k with
  | zero =>
    intro fuel s r n _ _ hf
    simp only [failedAttempts, Option.some.injEq] at hf
    exact ⟨s, rfl, hf, List.prefix_refl _, by simp⟩
  | succ k ih =>
    intro fuel s r n hmiss hr hf
    obtain ⟨_, hget⟩ := Get_miss hmiss
    have hnot : ¬ r > 3 := by push_cast at hr; omega
    have hstep : fuel + (k + 1) = (fuel + k) + 1 := by omega
    rw [hstep, Polluted.match_]
    simp only [hnot, if_false, hget, withCache_self, Bool.false_eq_true]
    unfold failedAttempts at hf
    unfold Run.exchange
    cases hx : d.Exchange s.sent.length (d.Fqdn h) s.pr.honeypotDNS with
    | err =>
      rw [hx] at hf
      simp only at hf ⊢
      have hmiss1 : ((s.send (d.Fqdn h) s.pr.honeypotDNS).pr.cache.Get h).2.2 = false := hmiss
      obtain ⟨t, ht1, ht2, ht3, ht4⟩ := ih fuel (s.send (d.Fqdn h) s.pr.honeypotDNS) (r + 1) n
        hmiss1 (by push_cast at hr ⊢; omega) (by rw [send_sent_length]; exact hf)
      refine ⟨t, ht1, ht2, (send_sent_extends _ _ _).trans ht3, ?_⟩
      rw [ht4]
      congr 1
      push_cast
      ring
    | nilMsg =>
      rw [hx] at hf
      cases hf
    | msg answer =>
      rw [hx] at hf
      simp only at hf ⊢
      by_cases hans : answer.Answer ≠ []
      · rw [if_pos hans] at hf
        cases hf
      · rw [if_neg hans] at hf
        rw [if_neg hans]
        simp only [send_pr, send_sent_length]
        cases hy : d.Exchange (s.sent.length + 1) (d.Fqdn h) s.pr.localDNS with
        | err =>
          rw [hy] at hf
          simp only at hf ⊢
          have hmiss2 : (((s.send (d.Fqdn h) s.pr.honeypotDNS).send (d.Fqdn h)
              s.pr.localDNS).pr.cache.Get h).2.2 = false := hmiss
          obtain ⟨t, ht1, ht2, ht3, ht4⟩ := ih fuel
            ((s.send (d.Fqdn h) s.pr.honeypotDNS).send (d.Fqdn h) s.pr.localDNS) (r + 1) n
            hmiss2 (by push_cast at hr ⊢; omega)
            (by rw [send_sent_length, send_sent_length]; exact hf)
          refine ⟨t, ht1, ht2,
            ((send_sent_extends _ _ _).trans (send_sent_extends _ _ _)).trans ht3, ?_⟩
          rw [ht4]
          congr 1
          push_cast
          ring
        | nilMsg => rw [hy] at hf; cases hf
        | msg a2 => rw [hy] at hf; cases hf

/-- On a cache miss within the retry bound the honeypot exchange is issued, and
whatever is stable from there on holds where the call ends. -/
theorem match_miss_stable (d : Dns) {P : Run → Prop} (hP : Stable P) (fuel : Nat) (s : Run)
    (h : String) (r : Int) (hmiss : (s.pr.cache.Get h).2.2 = false) (hr : r ≤ 3)
    (h1 : P (s.send (d.Fqdn h) s.pr.honeypotDNS)) :
    P (Polluted.match_ d (fuel + 1) s h r).run := by
  obtain ⟨_, hget⟩ := Get_miss hmiss
  have hnot : ¬ r > 3 := by omega
  rw [Polluted.match_]
  simp only [hnot, if_false, hget, withCache_self, Bool.false_eq_true]
  split
  · exact match_stable d hP _ _ _ _ h1
  · exact h1
  · split
    · exact putRet_stable hP _ _ _ _ (Or.inl rfl) h1
    · have h2 := hP.send _ (d.Fqdn h) (s.send (d.Fqdn h) s.pr.honeypotDNS).pr.localDNS h1
      split
      · exact match_stable d hP _ _ _ _ h2
      · exact putRet_stable hP _ _ _ _ (Or.inl rfl) h2
      · rename_i answer2 _
        have hscan := scanAnswer_stable hP
          (fun t target => Polluted.match_ d fuel t target 0)
          (fun t target ht => match_stable d hP fuel t target 0 ht) h answer2.Answer _ h2
        split
        · rename_i o heq
          rw [heq] at hscan
          exact hscan
        · rename_i s3 heq
          rw [heq] at hscan
          exact putRet_stable hP _ _ _ _ (Or.inr rfl) hscan

theorem sentExtends_stable (l : List Query) : Stable (fun u => l <+: u.sent) := by
  refine ⟨fun s h hs => hs, fun s h st c hs _ _ => hs, fun s name server hs => ?_⟩
  exact hs.trans (send_sent_extends s name server)

/-- A miss within the retry bound issues the honeypot exchange first. -/
theorem match_miss_sends (d : Dns) (fuel : Nat) (s : Run) (h : String) (r : Int)
    (hmiss : (s.pr.cache.Get h).2.2 = false) (hr : r ≤ 3) :
    ∃ rest, (Polluted.match_ d (fuel + 1) s h r).run.sent
      = s.sent ++ ⟨s.pr.honeypotDNS, d.Fqdn h⟩ :: rest := by
  have := match_miss_stable d (sentExtends_stable (s.sent ++ [⟨s.pr.honeypotDNS, d.Fqdn h⟩]))
    fuel s h r hmiss hr (List.prefix_refl _)
  obtain ⟨rest, hrest⟩ := this
  exact ⟨rest, by rw [← hrest]; simp⟩

/-- On a miss, in a cache of capacity at least one, `Put` stores the hostname
with the state given. -/
theorem Put_absent_Get {pc : pollutionCache} {h : String} (hg : mapGet pc.m h = none)
    (hc : 1 ≤ pc.capacity) (st : Int) :
    ∃ pc1, pc.Put h st = some pc1 ∧ (pc1.Get h).2 = (st, true) := by
  unfold pollutionCache.Put
  rw [hg]
  simp only
  by_cases hlt : (pc.q.length : Int) < pc.capacity
  · rw [if_pos hlt]
    refine ⟨_, rfl, ?_⟩
    unfold pollutionCache.Get
    simp only [mapGet_mapSet, if_true, Function.update_same]
  · rw [if_neg hlt]
    have hne : pc.q ≠ [] := by
      intro hq
      rw [hq] at hlt
      simp at hlt
      omega
    cases hl : pc.q.getLast? with
    | none => exact absurd (List.getLast?_eq_none_iff.1 hl) hne
    | some el =>
      refine ⟨_, rfl, ?_⟩
      unfold pollutionCache.Get
      simp only [mapGet_mapSet, if_true, Function.update_same]

/-- C7: retry exhaustion. If `h` is not cached and each of the four probing
attempts (retry counts 0 to 3) ends in a transport error, at the honeypot
probe or at the local probe, then `IsMatch` returns polluted (with fuel for
the five nested calls), the rule and its cache are exactly as before, `h` is
still not cached, and the next `IsMatch` for `h` issues the honeypot
exchange again, whatever the resolver then does. -/
theorem C7_retry_exhaustion (d : Dns) (s : Run) (metadata : Metadata) (n : Nat)
    (habs : (s.pr.cache.Get metadata.Host).2.2 = false)
    (hfail : failedAttempts d s.pr (d.Fqdn metadata.Host) 4 s.sent.length = some n)
    (fuel : Nat) (hfuel : 5 ≤ fuel) :
    ∃ t, Polluted.IsMatch d fuel s metadata = .ret true t ∧
      t.pr = s.pr ∧ t.pr.cache = s.pr.cache ∧
      s.sent <+: t.sent ∧ t.sent.length = n ∧
      (t.pr.cache.Get metadata.Host).2.2 = false ∧
      ∀ (d2 : Dns) (fuel2 : Nat), 1 ≤ fuel2 →
        ∃ rest, (Polluted.IsMatch d2 fuel2 t metadata).run.sent
          = t.sent ++ ⟨t.pr.honeypotDNS, d2.Fqdn metadata.Host⟩ :: rest := by
  obtain ⟨f, rfl⟩ : ∃ f, fuel = (f + 1) + 4 := ⟨fuel - 5, by omega⟩
  obtain ⟨t, ht1, ht2, ht3, ht4⟩ := match_after_failures d metadata.Host 4 (f + 1) s 0 n habs
    (by norm_num) hfail
  have hret : Polluted.match_ d (f + 1) t metadata.Host (0 + ((4 : Nat) : Int)) = .ret true t := by
    rw [Polluted.match_]
    simp
  refine ⟨t, ?_, ht1, by rw [ht1], ht3, ht2, by rw [ht1]; exact habs, ?_⟩
  · unfold Polluted.IsMatch
    rw [ht4, hret]
  · intro d2 fuel2 hf2
    obtain ⟨f2, rfl⟩ : ∃ f2, fuel2 = f2 + 1 := ⟨fuel2 - 1, by omega⟩
    unfold Polluted.IsMatch
    exact match_miss_sends d2 f2 t metadata.Host 0 (by rw [ht1]; exact habs) (by norm_num)

theorem C7_retry_exhaustion_witness :
    ((⟨exampleRule, []⟩ : Run).pr.cache.Get (⟨"h"⟩ : Metadata).Host).2.2 = false ∧
    failedAttempts deadDns (⟨exampleRule, []⟩ : Run).pr (deadDns.Fqdn (⟨"h"⟩ : Metadata).Host) 4
      (⟨exampleRule, []⟩ : Run).sent.length = some 4 ∧
    5 ≤ 5 ∧
    ∃ t, Polluted.IsMatch deadDns 5 ⟨exampleRule, []⟩ ⟨"h"⟩ = .ret true t ∧
      t.pr = (⟨exampleRule, []⟩ : Run).pr ∧ t.pr.cache = (⟨exampleRule, []⟩ : Run).pr.cache ∧
      (⟨exampleRule, []⟩ : Run).sent <+: t.sent ∧ t.sent.length = 4 ∧
      (t.pr.cache.Get (⟨"h"⟩ : Metadata).Host).2.2 = false ∧
      ∀ (d2 : Dns) (fuel2 : Nat), 1 ≤ fuel2 →
        ∃ rest, (Polluted.IsMatch d2 fuel2 t ⟨"h"⟩).run.sent
          = t.sent ++ ⟨t.pr.honeypotDNS, d2.Fqdn (⟨"h"⟩ : Metadata).Host⟩ :: rest :=
  ⟨by decide, by decide, by decide,
    C7_retry_exhaustion deadDns ⟨exampleRule, []⟩ ⟨"h"⟩ 4 (by decide) (by decide) 5 (by decide)⟩

/-- C8: honeypot signal. If `h` is not cached, the cache has capacity at least
one, the first `k ≤ 3` attempts end in transport errors and the honeypot
exchange of the next attempt returns a message with a non-empty answer
section, then `IsMatch` returns polluted, that attempt issues the honeypot
exchange and nothing else, and afterwards `Get h` gives
`(HostnamePolluted, true)`. -/
theorem C8_honeypot_signal (d : Dns) (s : Run) (metadata : Metadata) (k n : Nat)
    (answer : Msg) (habs : (s.pr.cache.Get metadata.Host).2.2 = false)
    (hcap : 1 ≤ s.pr.cache.capacity) (hk : k ≤ 3)
    (hfail : failedAttempts d s.pr (d.Fqdn metadata.Host) k s.sent.length = some n)
    (hhp : d.Exchange n (d.Fqdn metadata.Host) s.pr.honeypotDNS = .msg answer)
    (hne : answer.Answer ≠ []) (fuel : Nat) (hfuel : k + 1 ≤ fuel) :
    ∃ t0 t : Run, Polluted.IsMatch d fuel s metadata = .ret true t ∧
      s.sent <+: t0.sent ∧ t0.sent.length = n ∧
      t.sent = t0.sent ++ [⟨s.pr.honeypotDNS, d.Fqdn metadata.Host⟩] ∧
      (t.pr.cache.Get metadata.Host).2 = (HostnamePolluted, true) := by
  obtain ⟨f, rfl⟩ : ∃ f, fuel = (f + 1) + k := ⟨fuel - (k + 1), by omega⟩
  obtain ⟨t0, ht1, ht2, ht3, ht4⟩ := match_after_failures d metadata.Host k (f + 1) s 0 n habs
    (by omega) hfail
  have hmiss0 : (t0.pr.cache.Get metadata.Host).2.2 = false := by rw [ht1]; exact habs
  obtain ⟨hg, hget⟩ := Get_miss hmiss0
  obtain ⟨pc1, hput, hget1⟩ := Put_absent_Get hg (by rw [ht1]; exact hcap) HostnamePolluted
  have hnot : ¬ (0 + (k : Int)) > 3 := by omega
  refine ⟨t0, (t0.send (d.Fqdn metadata.Host) t0.pr.honeypotDNS).withCache pc1, ?_, ht3, ht2,
    by rw [ht1]; rfl, hget1⟩
  unfold Polluted.IsMatch
  rw [ht4, Polluted.match_]
  simp only [hnot, if_false, hget, withCache_self, Bool.false_eq_true]
  unfold Run.exchange
  rw [ht2, ht1, hhp]
  simp only
  rw [if_pos hne]
  unfold Run.putRet
  have hput1 : (t0.send (d.Fqdn metadata.Host) s.pr.honeypotDNS).pr.cache.Put metadata.Host
      HostnamePolluted = some pc1 := hput
  rw [hput1]


theorem C8_honeypot_signal_witness :
    (((⟨exampleRule, []⟩ : Run).pr.cache.Get (⟨"h"⟩ : Metadata).Host).2.2 = false ∧
      1 ≤ (⟨exampleRule, []⟩ : Run).pr.cache.capacity ∧ 1 ≤ 3 ∧
      failedAttempts flakyPoisonDns (⟨exampleRule, []⟩ : Run).pr
        (flakyPoisonDns.Fqdn (⟨"h"⟩ : Metadata).Host) 1
        (⟨exampleRule, []⟩ : Run).sent.length = some 1 ∧
      flakyPoisonDns.Exchange 1 (flakyPoisonDns.Fqdn (⟨"h"⟩ : Metadata).Host)
        (⟨exampleRule, []⟩ : Run).pr.honeypotDNS = .msg ⟨[⟨TypeA, none⟩]⟩ ∧
      (⟨[⟨TypeA, none⟩]⟩ : Msg).Answer ≠ [] ∧ 1 + 1 ≤ 2) ∧
    ∃ t0 t : Run, Polluted.IsMatch flakyPoisonDns 2 ⟨exampleRule, []⟩ ⟨"h"⟩ = .ret true t ∧
      (⟨exampleRule, []⟩ : Run).sent <+: t0.sent ∧ t0.sent.length = 1 ∧
      t.sent = t0.sent ++ [⟨(⟨exampleRule, []⟩ : Run).pr.honeypotDNS,
        flakyPoisonDns.Fqdn (⟨"h"⟩ : Metadata).Host⟩] ∧
      (t.pr.cache.Get (⟨"h"⟩ : Metadata).Host).2 = (HostnamePolluted, true) :=
  ⟨⟨by decide, by decide, by decide, by decide, by decide, by decide, by decide⟩,
    C8_honeypot_signal flakyPoisonDns ⟨exampleRule, []⟩ ⟨"h"⟩ 1 1 ⟨[⟨TypeA, none⟩]⟩
      (by decide) (by decide) (by decide) (by decide) (by decide) (by decide) 2 (by decide)⟩

/-! ## The classifier: CNAME records -/

theorem scanAnswer_append (classify : Run → String → Outcome) (hostname : String)
    (pre rest : List RR) :
    ∀ s : Run, scanAnswer classify hostname (pre ++ rest) s
      = match scanAnswer classify hostname pre s with
        | .ok s1 => scanAnswer classify hostname rest s1
        | .error o => .error o := by
  induction pre with
  | nil => intro s; rfl
  | cons rr tl ih =>
    intro s
    simp only [List.cons_append]
    rw [scanAnswer, scanAnswer]
    split
    · cases rr.cname with
      | none => rfl
      | some target =>
        simp only
        cases classify s target with
        | ret b s1 =>
          cases b with
          | true =>
            simp only
            cases s1.pr.cache.Put target HostnamePolluted <;> rfl
          | false =>
            simp only
            cases s1.pr.cache.Put target HostnameClean with
            | none => rfl
            | some c => exact ih _
        | abort s1 => rfl
        | outOfFuel s1 => rfl
    · exact ih s

theorem Get_hit_mem {pc : pollutionCache} (hw : pc.WF) {h : String} {st : Int}
    (hg : (pc.Get h).2 = (st, true)) : (⟨h, st⟩ : pollutionCacheEntry) ∈ pc.entries := by
  have hfound : (pc.Get h).2.2 = true := by rw [hg]
  obtain ⟨e, he, heh⟩ := List.mem_map.1 ((Get_found_iff hw h).1 hfound)
  have h1 := (Get_of_mem hw he).1
  rw [heh, hg] at h1
  have hes : e.state = st := (congrArg Prod.fst h1).symm
  have : e = ⟨h, st⟩ := by
    cases e
    simp only at heh hes
    rw [heh, hes]
  rw [← this]
  exact he

/-- After `Put` the hostname put is at the front: with its old entry, or with
the state given; the entries behind it were there before. -/
theorem Put_head {pc pc1 : pollutionCache} (hw : pc.WF) {x : String} {st : Int}
    (hp : pc.Put x st = some pc1) :
    ∃ e rest, pc1.entries = e :: rest ∧ e.hostname = x ∧
      (e ∈ pc.entries ∨ e.state = st) ∧ ∀ f ∈ rest, f ∈ pc.entries := by
  rcases (Put_cases hw hp).2 with ⟨e, he, heh, hent⟩ | ⟨_, _, hent⟩ | ⟨_, _, _, hent⟩
  · exact ⟨e, _, hent, heh, Or.inl he, fun f hf => (List.mem_filter.1 hf).1⟩
  · exact ⟨_, _, hent, rfl, Or.inr rfl, fun f hf => hf⟩
  · exact ⟨_, _, hent, rfl, Or.inr rfl, fun f hf => List.mem_of_mem_dropLast hf⟩

/-- With capacity at least two, `Put` never evicts the entry at the front. -/
theorem Put_keeps_front {pc pc1 : pollutionCache} (hw : pc.WF) (hc : 2 ≤ pc.capacity)
    {e : pollutionCacheEntry} {rest : List pollutionCacheEntry}
    (hent : pc.entries = e :: rest) {x : String} {st : Int}
    (hp : pc.Put x st = some pc1) : e ∈ pc1.entries := by
  have hmem : e ∈ pc.entries := by rw [hent]; simp
  rcases (Put_cases hw hp).2 with ⟨f, hf, hfh, h1⟩ | ⟨_, _, h1⟩ | ⟨_, hge, _, h1⟩
  · rw [h1]
    by_cases hx : e.hostname = x
    · have : e = f := WF_entry_unique hw hmem hf (by rw [hx, hfh])
      rw [this]; simp
    · exact List.mem_cons_of_mem _ (List.mem_filter.2 ⟨hmem, by simpa using hx⟩)
  · rw [h1]
    exact List.mem_cons_of_mem _ hmem
  · rw [h1, hent]
    have hrest : rest ≠ [] := by
      intro hr
      rw [hent, hr] at hge
      simp at hge
      omega
    rw [List.dropLast_cons_of_ne_nil hrest]
    simp

theorem CacheOK_entry_state {s : Run} (hok : CacheOK s) {e : pollutionCacheEntry}
    (he : e ∈ s.pr.cache.entries) : e.state = HostnamePolluted ∨ e.state = HostnameClean := by
  obtain ⟨p, hp, hpe⟩ := List.mem_map.1 he
  rw [← hpe]
  exact hok.2.2.2 p hp

theorem CacheOK_send {s : Run} (hok : CacheOK s) (name server : String) :
    CacheOK (s.send name server) := hok

/-- An entry of a well-formed cache with valid states that `Get` does not
report as clean is polluted. -/
theorem entry_polluted_of_not_clean {s : Run} (hok : CacheOK s) {e : pollutionCacheEntry}
    (he : e ∈ s.pr.cache.entries)
    (hn : (s.pr.cache.Get e.hostname).2 ≠ (HostnameClean, true)) :
    e.state = HostnamePolluted := by
  rcases CacheOK_entry_state hok he with h1 | h1
  · exact h1
  · exfalso
    apply hn
    rw [(Get_of_mem hok.1 he).1, h1]

/-- The step of `match` on a miss with an empty honeypot answer and a local
answer: the records are scanned. -/
theorem match_scan_step (d : Dns) (fuel : Nat) (s : Run) (h : String) (r : Int)
    (a1 a2 : Msg) (hr : r ≤ 3) (habs : (s.pr.cache.Get h).2.2 = false)
    (hhp : d.Exchange s.sent.length (d.Fqdn h) s.pr.honeypotDNS = .msg a1)
    (hempty : a1.Answer = [])
    (hloc : d.Exchange (s.sent.length + 1) (d.Fqdn h) s.pr.localDNS = .msg a2) :
    Polluted.match_ d (fuel + 1) s h r
      = match scanAnswer (fun t target => Polluted.match_ d fuel t target 0) h a2.Answer
            ((s.send (d.Fqdn h) s.pr.honeypotDNS).send (d.Fqdn h) s.pr.localDNS) with
        | .error o => o
        | .ok s3 => s3.putRet h HostnameClean false := by
  obtain ⟨_, hget⟩ := Get_miss habs
  have hnot : ¬ r > 3 := by omega
  have hne : ¬ a1.Answer ≠ [] := by simp [hempty]
  rw [Polluted.match_]
  simp only [hnot, if_false, hget, withCache_self, Bool.false_eq_true]
  unfold Run.exchange
  rw [hhp]
  simp only
  rw [if_neg hne]
  simp only [send_pr, send_sent_length]
  rw [hloc]

/-- C9 (amended): polluted CNAME propagation. For a run whose cache is well
formed with capacity 1024 and valid states: if `h` is not cached, the
honeypot answer for `h` is empty, the local answer holds a CNAME record for
`target` before which the scan ran through (no earlier CNAME target was
classified polluted), and `target` classifies polluted, then `match(h, 0)`
returns polluted without any further exchange, whatever records follow;
afterwards both `target` and `h` are cached, and each of them is recorded
polluted unless it was cached clean when the classification of `target`
returned (`Put` does not overwrite). -/
theorem C9_polluted_cname_propagation (d : Dns) (fuel : Nat) (s : Run) (h target : String)
    (a1 a2 : Msg) (pre post : List RR) (s3 s4 : Run)
    (hok : CacheOK s) (habs : (s.pr.cache.Get h).2.2 = false)
    (hhp : d.Exchange s.sent.length (d.Fqdn h) s.pr.honeypotDNS = .msg a1)
    (hempty : a1.Answer = [])
    (hloc : d.Exchange (s.sent.length + 1) (d.Fqdn h) s.pr.localDNS = .msg a2)
    (hans : a2.Answer = pre ++ ⟨TypeCNAME, some target⟩ :: post)
    (hpre : scanAnswer (fun t x => Polluted.match_ d fuel t x 0) h pre
      ((s.send (d.Fqdn h) s.pr.honeypotDNS).send (d.Fqdn h) s.pr.localDNS) = .ok s3)
    (htarget : Polluted.match_ d fuel s3 target 0 = .ret true s4) :
    ∃ t : Run, Polluted.match_ d (fuel + 1) s h 0 = .ret true t ∧ t.sent = s4.sent ∧
      (t.pr.cache.Get target).2.2 = true ∧ (t.pr.cache.Get h).2.2 = true ∧
      ((s4.pr.cache.Get target).2 ≠ (HostnameClean, true) →
        (t.pr.cache.Get target).2 = (HostnamePolluted, true)) ∧
      ((s4.pr.cache.Get h).2 ≠ (HostnameClean, true) →
        (t.pr.cache.Get h).2 = (HostnamePolluted, true)) := by
  -- the invariant travels to the state in which `target` has been classified
  have hok2 : CacheOK ((s.send (d.Fqdn h) s.pr.honeypotDNS).send (d.Fqdn h) s.pr.localDNS) := hok
  have hok3 : CacheOK s3 := by
    have := scanAnswer_stable cacheOK_stable (fun t x => Polluted.match_ d fuel t x 0)
      (fun t x ht => match_stable d cacheOK_stable fuel t x 0 ht) h pre _ hok2
    rw [hpre] at this
    exact this
  have hok4 : CacheOK s4 := by
    have := match_stable d cacheOK_stable fuel s3 target 0 hok3
    rw [htarget] at this
    exact this
  have hw4 := hok4.1
  have hcap4 := hok4.2.1
  -- the two Puts
  obtain ⟨c5, hput5⟩ := Put_isSome hw4 (by rw [hcap4]; norm_num) target HostnamePolluted
  have hw5 := Put_WF hw4 hput5
  have hcap5 : c5.capacity = 1024 := by rw [Put_capacity hput5, hcap4]
  obtain ⟨c6, hput6⟩ := Put_isSome hw5 (by rw [hcap5]; norm_num) h HostnamePolluted
  have hw6 := Put_WF hw5 hput6
  obtain ⟨e5, rest5, hent5, hhost5, hfrom5, hrest5⟩ := Put_head hw4 hput5
  obtain ⟨e6, rest6, hent6, hhost6, hfrom6, hrest6⟩ := Put_head hw5 hput6
  have he5 : e5 ∈ c6.entries := Put_keeps_front hw5 (by rw [hcap5]; norm_num) hent5 hput6
  have he6 : e6 ∈ c6.entries := by rw [hent6]; simp
  have hg5 := (Get_of_mem hw6 he5).1
  have hg6 := (Get_of_mem hw6 he6).1
  rw [hhost5] at hg5
  rw [hhost6] at hg6
  have hp5 : (s4.pr.cache.Get target).2 ≠ (HostnameClean, true) → e5.state = HostnamePolluted := by
    intro hn
    rcases hfrom5 with h1 | h1
    · exact entry_polluted_of_not_clean hok4 h1 (by rw [hhost5]; exact hn)
    · exact h1
  have hcache : ((s4.withCache c5).withCache c6).pr.cache = c6 := rfl
  refine ⟨(s4.withCache c5).withCache c6, ?_, rfl, by rw [hcache, hg5], by rw [hcache, hg6],
    ?_, ?_⟩
  · rw [match_scan_step d fuel s h 0 a1 a2 (by norm_num) habs hhp hempty hloc, hans,
      scanAnswer_append, hpre]
    simp only
    rw [scanAnswer]
    simp only [if_true, htarget, hput5]
    unfold Run.putRet
    have : (s4.withCache c5).pr.cache.Put h HostnamePolluted = some c6 := hput6
    rw [this]
  · intro hn
    rw [hcache, hg5, hp5 hn]
  · intro hn
    rw [hcache, hg6]
    rcases hfrom6 with h1 | h1
    · rw [hent5] at h1
      rcases List.mem_cons.1 h1 with h2 | h2
      · have hht : h = target := by rw [← hhost6, h2, hhost5]
        rw [h2, hp5 (by rw [← hht]; exact hn)]
      · have := entry_polluted_of_not_clean hok4 (hrest5 e6 h2) (by rw [hhost6]; exact hn)
        rw [this]
    · rw [h1]

/-- C9 as stated fails. From the initial run of `exampleRule`: the honeypot
answer for `h.` is empty and the local answer holds CNAME records for `h.`
and `u.`; the first target classifies clean (empty answers), the second one
polluted (the honeypot answers). `match` returns polluted and `u.` is
recorded polluted, but `h.` is recorded clean. -/
theorem C9_counterexample :
    (exampleRun.pr.cache.Get "h.").2.2 = false ∧
    loopDns.Exchange 0 (loopDns.Fqdn "h.") exampleRun.pr.honeypotDNS = .msg ⟨[]⟩ ∧
    loopDns.Exchange 1 (loopDns.Fqdn "h.") exampleRun.pr.localDNS
      = .msg ⟨[⟨TypeCNAME, some "h."⟩, ⟨TypeCNAME, some "u."⟩]⟩ ∧
    (Polluted.match_ loopDns 4
      ((exampleRun.send "h." "1.2.3.4:53").send "h." "8.8.8.8:53") "h." 0).result = some false ∧
    (Polluted.match_ loopDns 4
      (scanEnd (scanAnswer (fun t x => Polluted.match_ loopDns 4 t x 0) "h."
        [⟨TypeCNAME, some "h."⟩] ((exampleRun.send "h." "1.2.3.4:53").send "h." "8.8.8.8:53")))
      "u." 0).result = some true ∧
    (Polluted.match_ loopDns 5 exampleRun "h." 0).result = some true ∧
    ((Polluted.match_ loopDns 5 exampleRun "h." 0).run.pr.cache.Get "u.").2
      = (HostnamePolluted, true) ∧
    ((Polluted.match_ loopDns 5 exampleRun "h." 0).run.pr.cache.Get "h.").2
      = (HostnameClean, true) := by
  refine ⟨by decide, by decide, by decide, by decide, by decide, by decide, by decide, by decide⟩

theorem exampleRun_cacheOK : CacheOK exampleRun :=
  reachable_cacheOK (Reachable.init _ _ _ exampleRule_built)

theorem C9_polluted_cname_propagation_witness :
    (CacheOK exampleRun ∧ (exampleRun.pr.cache.Get "h.").2.2 = false ∧
      chainDns.Exchange exampleRun.sent.length (chainDns.Fqdn "h.") exampleRun.pr.honeypotDNS
        = .msg ⟨[]⟩ ∧
      (⟨[]⟩ : Msg).Answer = [] ∧
      chainDns.Exchange (exampleRun.sent.length + 1) (chainDns.Fqdn "h.")
        exampleRun.pr.localDNS = .msg ⟨[⟨TypeCNAME, some "u."⟩]⟩ ∧
      (⟨[⟨TypeCNAME, some "u."⟩]⟩ : Msg).Answer = [] ++ ⟨TypeCNAME, some "u."⟩ :: [] ∧
      scanAnswer (fun t x => Polluted.match_ chainDns 1 t x 0) "h." []
          ((exampleRun.send (chainDns.Fqdn "h.") exampleRun.pr.honeypotDNS).send
            (chainDns.Fqdn "h.") exampleRun.pr.localDNS)
        = .ok ((exampleRun.send (chainDns.Fqdn "h.") exampleRun.pr.honeypotDNS).send
            (chainDns.Fqdn "h.") exampleRun.pr.localDNS) ∧
      Polluted.match_ chainDns 1
          ((exampleRun.send (chainDns.Fqdn "h.") exampleRun.pr.honeypotDNS).send
            (chainDns.Fqdn "h.") exampleRun.pr.localDNS) "u." 0
        = .ret true (Polluted.match_ chainDns 1
          ((exampleRun.send (chainDns.Fqdn "h.") exampleRun.pr.honeypotDNS).send
            (chainDns.Fqdn "h.") exampleRun.pr.localDNS) "u." 0).run) ∧
    ∃ t : Run, Polluted.match_ chainDns (1 + 1) exampleRun "h." 0 = .ret true t ∧
      t.sent = (Polluted.match_ chainDns 1
          ((exampleRun.send (chainDns.Fqdn "h.") exampleRun.pr.honeypotDNS).send
            (chainDns.Fqdn "h.") exampleRun.pr.localDNS) "u." 0).run.sent ∧
      (t.pr.cache.Get "u.").2.2 = true ∧ (t.pr.cache.Get "h.").2.2 = true ∧
      (((Polluted.match_ chainDns 1
          ((exampleRun.send (chainDns.Fqdn "h.") exampleRun.pr.honeypotDNS).send
            (chainDns.Fqdn "h.") exampleRun.pr.localDNS) "u." 0).run.pr.cache.Get "u.").2
          ≠ (HostnameClean, true) →
        (t.pr.cache.Get "u.").2 = (HostnamePolluted, true)) ∧
      (((Polluted.match_ chainDns 1
          ((exampleRun.send (chainDns.Fqdn "h.") exampleRun.pr.honeypotDNS).send
            (chainDns.Fqdn "h.") exampleRun.pr.localDNS) "u." 0).run.pr.cache.Get "h.").2
          ≠ (HostnameClean, true) →
        (t.pr.cache.Get "h.").2 = (HostnamePolluted, true)) :=
  ⟨⟨exampleRun_cacheOK, by decide, by decide, rfl, by decide, rfl, rfl, rfl⟩,
    C9_polluted_cname_propagation chainDns 1 exampleRun "h." "u." ⟨[]⟩
      ⟨[⟨TypeCNAME, some "u."⟩]⟩ [] [] _ _ exampleRun_cacheOK (by decide) (by decide) rfl
      (by decide) rfl rfl rfl⟩

theorem onlyCleanAdded_refl (s : Run) : OnlyCleanAdded s s := fun _ he => Or.inl he

theorem onlyCleanAdded_trans {s t u : Run} (h1 : OnlyCleanAdded s t) (h2 : OnlyCleanAdded t u) :
    OnlyCleanAdded s u := by
  intro e he
  rcases h2 e he with h | h
  · exact h1 e h
  · exact Or.inr h

theorem onlyCleanAdded_get (s : Run) (h : String) :
    OnlyCleanAdded s (s.withCache (s.pr.cache.Get h).1) := by
  intro e he
  exact Or.inl ((Get_entries_perm s.pr.cache h).subset he)

theorem onlyCleanAdded_put {s : Run} (hw : s.pr.cache.WF) {h : String} {c : pollutionCache}
    (hp : s.pr.cache.Put h HostnameClean = some c) : OnlyCleanAdded s (s.withCache c) := by
  obtain ⟨e, rest, hent, _, hfrom, hrest⟩ := Put_head hw hp
  intro f hf
  have hf2 : f ∈ c.entries := hf
  rw [hent] at hf2
  rcases List.mem_cons.1 hf2 with h1 | h1
  · rw [h1]; exact hfrom
  · exact Or.inl (hrest f h1)

theorem putRet_true_ne (s t : Run) (h : String) (st : Int) :
    s.putRet h st true ≠ .ret false t := by
  unfold Run.putRet
  cases s.pr.cache.Put h st with
  | none => intro hc; cases hc
  | some c => intro hc; cases hc

/-- Leaving `match` from inside the loop never returns clean. -/
theorem scanAnswer_error_ne (classify : Run → String → Outcome) (hostname : String) :
    ∀ (rrs : List RR) (s t : Run),
      scanAnswer classify hostname rrs s ≠ .error (.ret false t) := by
  intro rrs
  induction rrs with
  | nil => intro s t hc; cases hc
  | cons rr rest ih =>
    intro s t
    rw [scanAnswer]
    split
    · cases rr.cname with
      | none => intro hc; cases hc
      | some target =>
        simp only
        cases classify s target with
        | ret b s1 =>
          cases b with
          | true =>
            simp only
            cases s1.pr.cache.Put target HostnamePolluted with
            | none => intro hc; cases hc
            | some c =>
              simp only
              intro hc
              exact putRet_true_ne _ t _ _ (Except.error.inj hc)
          | false =>
            simp only
            cases s1.pr.cache.Put target HostnameClean with
            | none => intro hc; cases hc
            | some c => exact ih _ t
        | abort s1 => intro hc; cases hc
        | outOfFuel s1 => intro hc; cases hc
    · exact ih s t

/-- A scan over `rr :: post` that runs to its end, when `rr` is a CNAME record
for `target`: the target classified clean, was `Put` as clean, and the scan
of `post` ran to its end. -/
theorem scanAnswer_cons_ok {classify : Run → String → Outcome} {hostname : String}
    {rr : RR} {post : List RR} {s t : Run} {target : String}
    (h : scanAnswer classify hostname (rr :: post) s = .ok t)
    (hty : rr.Rrtype = TypeCNAME) (hcn : rr.cname = some target) :
    ∃ s1 c, classify s target = .ret false s1 ∧
      s1.pr.cache.Put target HostnameClean = some c ∧
      scanAnswer classify hostname post (s1.withCache c) = .ok t := by
  rw [scanAnswer, if_pos hty, hcn] at h
  simp only at h
  cases hcl : classify s target with
  | ret b s1 =>
    rw [hcl] at h
    cases b with
    | true =>
      simp only at h
      cases hp : s1.pr.cache.Put target HostnamePolluted with
      | none => rw [hp] at h; cases h
      | some c => rw [hp] at h; cases h
    | false =>
      simp only at h
      cases hp : s1.pr.cache.Put target HostnameClean with
      | none => rw [hp] at h; cases h
      | some c =>
        rw [hp] at h
        exact ⟨s1, c, rfl, hp, h⟩
  | abort s1 => rw [hcl] at h; cases h
  | outOfFuel s1 => rw [hcl] at h; cases h

theorem scanAnswer_append_ok {classify : Run → String → Outcome} {hostname : String}
    {pre rest : List RR} {s t : Run}
    (h : scanAnswer classify hostname (pre ++ rest) s = .ok t) :
    ∃ u, scanAnswer classify hostname pre s = .ok u ∧
      scanAnswer classify hostname rest u = .ok t := by
  rw [scanAnswer_append] at h
  cases hp : scanAnswer classify hostname pre s with
  | error o => rw [hp] at h; cases h
  | ok u => rw [hp] at h; exact ⟨u, rfl, h⟩

theorem scanAnswer_no_cname (classify : Run → String → Outcome) (hostname : String) :
    ∀ (rrs : List RR) (s : Run), (∀ rr ∈ rrs, rr.Rrtype ≠ TypeCNAME) →
      scanAnswer classify hostname rrs s = .ok s := by
  intro rrs
  induction rrs with
  | nil => intro s _; rfl
  | cons rr rest ih =>
    intro s hno
    rw [scanAnswer, if_neg (hno rr (by simp))]
    exact ih s (fun x hx => hno x (List.mem_cons_of_mem _ hx))

/-- A scan that runs to its end only adds clean entries, when that is so for
every classification that returns clean. -/
theorem scanAnswer_ok_onlyClean (classify : Run → String → Outcome)
    (hc : ∀ s x, CacheOK s → CacheOK (classify s x).run)
    (hrel : ∀ s x t, CacheOK s → classify s x = .ret false t → OnlyCleanAdded s t)
    (hostname : String) :
    ∀ (rrs : List RR) (s t : Run), CacheOK s →
      scanAnswer classify hostname rrs s = .ok t → OnlyCleanAdded s t := by
  intro rrs
  induction rrs with
  | nil =>
    intro s t _ h
    cases h
    exact onlyCleanAdded_refl s
  | cons rr rest ih =>
    intro s t hok h
    by_cases hty : rr.Rrtype = TypeCNAME
    · cases hcn : rr.cname with
      | none =>
        rw [scanAnswer, if_pos hty, hcn] at h
        cases h
      | some target =>
        obtain ⟨s1, c, hcl, hp, hrest⟩ := scanAnswer_cons_ok h hty hcn
        have hok1 : CacheOK s1 := by
          have := hc s target hok
          rw [hcl] at this
          exact this
        have hok2 : CacheOK (s1.withCache c) :=
          cacheOK_stable.put s1 target _ c hok1 (Or.inr rfl) hp
        exact onlyCleanAdded_trans (hrel s target s1 hok hcl)
          (onlyCleanAdded_trans (onlyCleanAdded_put hok1.1 hp) (ih _ t hok2 hrest))
    · rw [scanAnswer, if_neg hty] at h
      exact ih s t hok h

theorem putRet_false_eq {s t : Run} {h : String} {st : Int}
    (heq : s.putRet h st false = .ret false t) :
    ∃ c, s.pr.cache.Put h st = some c ∧ t = s.withCache c := by
  unfold Run.putRet at heq
  cases hp : s.pr.cache.Put h st with
  | none => rw [hp] at heq; cases heq
  | some c =>
    rw [hp] at heq
    simp only [Outcome.ret.injEq, true_and] at heq
    exact ⟨c, rfl, heq.symm⟩

/-- A call of `match` that returns clean only adds clean entries to the
cache. -/
theorem match_false_onlyClean (d : Dns) :
    ∀ (fuel : Nat) (s : Run) (x : String) (r : Int) (t : Run), CacheOK s →
      Polluted.match_ d fuel s x r = .ret false t → OnlyCleanAdded s t := by
  intro fuel
  induction fuel with
  | zero =>
    intro s x r t _ heq
    rw [Polluted.match_] at heq
    cases heq
  | succ fuel ih =>
    intro s x r t hok heq
    rw [Polluted.match_] at heq
    split at heq
    · cases heq
    · simp only at heq
      have hok0 : CacheOK (s.withCache (s.pr.cache.Get x).1) := cacheOK_stable.get s x hok
      have hrel0 := onlyCleanAdded_get s x
      split at heq
      · simp only [Outcome.ret.injEq] at heq
        rw [← heq.2]
        exact hrel0
      · have hok1 := cacheOK_stable.send _ (d.Fqdn x)
          (s.withCache (s.pr.cache.Get x).1).pr.honeypotDNS hok0
        split at heq
        · have hrel1 := ih _ _ _ t hok1 heq
          exact onlyCleanAdded_trans hrel0 hrel1
        · cases heq
        · split at heq
          · exact absurd heq (putRet_true_ne _ _ _ _)
          · have hok2 := cacheOK_stable.send _ (d.Fqdn x)
              ((s.withCache (s.pr.cache.Get x).1).send (d.Fqdn x)
                (s.withCache (s.pr.cache.Get x).1).pr.honeypotDNS).pr.localDNS hok1
            split at heq
            · have hrel2 := ih _ _ _ t hok2 heq
              exact onlyCleanAdded_trans hrel0 hrel2
            · exact absurd heq (putRet_true_ne _ _ _ _)
            · rename_i answer2 _
              split at heq
              · rename_i o hscan
                rw [heq] at hscan
                exact absurd hscan (scanAnswer_error_ne _ _ _ _ _)
              · rename_i s3 hscan
                obtain ⟨c, hp, ht⟩ := putRet_false_eq heq
                have hrel3 := scanAnswer_ok_onlyClean
                  (fun u y => Polluted.match_ d fuel u y 0)
                  (fun u y hu => match_stable d cacheOK_stable fuel u y 0 hu)
                  (fun u y v hu hv => ih u y 0 v hu hv) x answer2.Answer _ s3 hok2 hscan
                have hok3 : CacheOK s3 := by
                  have := scanAnswer_stable cacheOK_stable
                    (fun u y => Polluted.match_ d fuel u y 0)
                    (fun u y hu => match_stable d cacheOK_stable fuel u y 0 hu)
                    x answer2.Answer _ hok2
                  rw [hscan] at this
                  exact this
                rw [ht]
                exact onlyCleanAdded_trans hrel0
                  (onlyCleanAdded_trans hrel3 (onlyCleanAdded_put hok3.1 hp))

/-- When `match(x, 0)` returns clean, an entry the cache held for `x` at the
call was not polluted. -/
theorem match_false_hit (d : Dns) (fuel : Nat) (s t : Run) (x : String) (hw : s.pr.cache.WF)
    (heq : Polluted.match_ d fuel s x 0 = .ret false t) {e : pollutionCacheEntry}
    (he : e ∈ s.pr.cache.entries) (hx : e.hostname = x) : e.state ≠ HostnamePolluted := by
  cases fuel with
  | zero => rw [Polluted.match_] at heq; cases heq
  | succ fuel =>
    have hg := (Get_of_mem hw he).1
    rw [hx] at hg
    have h1 : (s.pr.cache.Get x).2.1 = e.state := by rw [hg]
    have h2 : (s.pr.cache.Get x).2.2 = true := by rw [hg]
    rw [Polluted.match_] at heq
    simp only [show ¬ ((0 : Int) > 3) by norm_num, if_false, h2, if_true, h1,
      Outcome.ret.injEq, decide_eq_false_iff_not] at heq
    exact heq.1

/-- The entry found at the front after a scanned CNAME target was `Put` as
clean is clean, and it is the only entry of that hostname. -/
theorem scanned_target_clean (d : Dns) (fuel : Nat) (s s1 : Run) (target : String)
    (c : pollutionCache) (hok : CacheOK s)
    (hcl : Polluted.match_ d fuel s target 0 = .ret false s1)
    (hp : s1.pr.cache.Put target HostnameClean = some c) :
    ∃ e rest, c.entries = e :: rest ∧ e.hostname = target ∧ e.state = HostnameClean ∧
      ∀ f ∈ c.entries, f.hostname = target → f = e := by
  have hok1 : CacheOK s1 := by
    have := match_stable d cacheOK_stable fuel s target 0 hok
    rw [hcl] at this
    exact this
  have hwc := Put_WF hok1.1 hp
  obtain ⟨e, rest, hent, hhost, hfrom, _⟩ := Put_head hok1.1 hp
  have hmem : e ∈ c.entries := by rw [hent]; simp
  refine ⟨e, rest, hent, hhost, ?_, fun f hf hfh => WF_entry_unique hwc hf hmem (by rw [hfh, hhost])⟩
  rcases hfrom with h1 | h1
  · rcases match_false_onlyClean d fuel s target 0 s1 hok hcl e h1 with h2 | h2
    · rcases CacheOK_entry_state hok h2 with h3 | h3
      · exact absurd h3 (match_false_hit d fuel s s1 target hok.1 hcl h2 hhost)
      · exact h3
    · exact h2
  · exact h1

/-- C10 (amended): clean CNAME chain. For a run whose cache is well formed with
capacity 1024 and valid states: if `h` is not cached, the honeypot answer for
`h` is empty and the scan of the local answer runs to its end (every CNAME
target in it classified clean; no CNAME record at all is such a case), then
`match(h, 0)` returns clean and afterwards `h` is recorded clean. A scanned
CNAME target is afterwards either recorded clean or no longer stored (the
later insertions may have evicted it), never recorded polluted; the target
of the last CNAME record is still recorded clean. -/
theorem C10_clean_cname_chain (d : Dns) (fuel : Nat) (s : Run) (h : String) (a1 a2 : Msg)
    (s3 : Run) (hok : CacheOK s) (habs : (s.pr.cache.Get h).2.2 = false)
    (hhp : d.Exchange s.sent.length (d.Fqdn h) s.pr.honeypotDNS = .msg a1)
    (hempty : a1.Answer = [])
    (hloc : d.Exchange (s.sent.length + 1) (d.Fqdn h) s.pr.localDNS = .msg a2)
    (hscan : scanAnswer (fun t x => Polluted.match_ d fuel t x 0) h a2.Answer
      ((s.send (d.Fqdn h) s.pr.honeypotDNS).send (d.Fqdn h) s.pr.localDNS) = .ok s3) :
    ∃ t : Run, Polluted.match_ d (fuel + 1) s h 0 = .ret false t ∧ t.sent = s3.sent ∧
      (t.pr.cache.Get h).2 = (HostnameClean, true) ∧
      (∀ rr ∈ a2.Answer, rr.Rrtype = TypeCNAME → ∀ target, rr.cname = some target →
        (t.pr.cache.Get target).2 = (HostnameClean, true) ∨
        (t.pr.cache.Get target).2.2 = false) ∧
      (∀ (pre post : List RR) (target : String),
        a2.Answer = pre ++ ⟨TypeCNAME, some target⟩ :: post →
        (∀ rr ∈ post, rr.Rrtype ≠ TypeCNAME) →
        (t.pr.cache.Get target).2 = (HostnameClean, true)) := by
  have hclassOK : ∀ (u : Run) (y : String), CacheOK u →
      CacheOK ((fun t x => Polluted.match_ d fuel t x 0) u y).run :=
    fun u y hu => match_stable d cacheOK_stable fuel u y 0 hu
  have hclassRel : ∀ (u : Run) (y : String) (v : Run), CacheOK u →
      (fun t x => Polluted.match_ d fuel t x 0) u y = .ret false v → OnlyCleanAdded u v :=
    fun u y v hu hv => match_false_onlyClean d fuel u y 0 v hu hv
  have hscanOK : ∀ (rrs : List RR) (u v : Run), CacheOK u →
      scanAnswer (fun t x => Polluted.match_ d fuel t x 0) h rrs u = .ok v → CacheOK v := by
    intro rrs u v hu hv
    have := scanAnswer_stable cacheOK_stable _ hclassOK h rrs u hu
    rw [hv] at this
    exact this
  have hok2 : CacheOK ((s.send (d.Fqdn h) s.pr.honeypotDNS).send (d.Fqdn h) s.pr.localDNS) := hok
  have hok3 : CacheOK s3 := hscanOK _ _ _ hok2 hscan
  have hrel3 : OnlyCleanAdded s s3 := by
    have hrel2 : OnlyCleanAdded
        ((s.send (d.Fqdn h) s.pr.honeypotDNS).send (d.Fqdn h) s.pr.localDNS) s3 :=
      scanAnswer_ok_onlyClean _ hclassOK hclassRel h a2.Answer _ s3 hok2 hscan
    exact hrel2
  obtain ⟨c4, hput4⟩ := Put_isSome hok3.1 (by rw [hok3.2.1]; norm_num) h HostnameClean
  have hok4 : CacheOK (s3.withCache c4) := cacheOK_stable.put s3 h _ c4 hok3 (Or.inr rfl) hput4
  have hw4 : c4.WF := hok4.1
  have hrel4 : OnlyCleanAdded s3 (s3.withCache c4) := onlyCleanAdded_put hok3.1 hput4
  have hcache : (s3.withCache c4).pr.cache = c4 := rfl
  have hnoth : h ∉ s.pr.cache.hostnames := by
    intro hm
    have := (Get_found_iff hok.1 h).2 hm
    rw [habs] at this
    cases this
  refine ⟨s3.withCache c4, ?_, rfl, ?_, ?_, ?_⟩
  · rw [match_scan_step d fuel s h 0 a1 a2 (by norm_num) habs hhp hempty hloc, hscan]
    simp only
    unfold Run.putRet
    rw [hput4]
  · obtain ⟨e, rest, hent, hhost, hfrom, _⟩ := Put_head hok3.1 hput4
    have hmem : e ∈ c4.entries := by rw [hent]; simp
    have hg := (Get_of_mem hw4 hmem).1
    rw [hhost] at hg
    rw [hcache, hg]
    have hst : e.state = HostnameClean := by
      rcases hfrom with h1 | h1
      · rcases hrel3 e h1 with h2 | h2
        · exact absurd (List.mem_map.2 ⟨e, h2, hhost⟩) hnoth
        · exact h2
      · exact h1
    rw [hst]
  · intro rr hrr hty target hcn
    obtain ⟨pre, post, hsplit⟩ := List.append_of_mem hrr
    rw [hsplit] at hscan
    obtain ⟨u1, hpre, hrest⟩ := scanAnswer_append_ok hscan
    obtain ⟨u2, c, hcl, hp, hpost⟩ := scanAnswer_cons_ok hrest hty hcn
    have hoku1 : CacheOK u1 := hscanOK _ _ _ hok2 hpre
    have hoku2 : CacheOK u2 := by
      have := hclassOK u1 target hoku1
      simp only at this hcl
      rw [hcl] at this
      exact this
    have hoku3 : CacheOK (u2.withCache c) := cacheOK_stable.put u2 target _ c hoku2 (Or.inr rfl) hp
    obtain ⟨e, rest, hent, hhost, hst, huniq⟩ :=
      scanned_target_clean d fuel u1 u2 target c hoku1 hcl hp
    have hrelpost : OnlyCleanAdded (u2.withCache c) s3 :=
      scanAnswer_ok_onlyClean _ hclassOK hclassRel h post _ s3 hoku3 hpost
    have hrel := onlyCleanAdded_trans hrelpost hrel4
    rw [hcache]
    by_cases hm : target ∈ c4.hostnames
    · left
      obtain ⟨f, hf, hfh⟩ := List.mem_map.1 hm
      have hg := (Get_of_mem hw4 hf).1
      rw [hfh] at hg
      rw [hg]
      have hfst : f.state = HostnameClean := by
        rcases hrel f hf with h1 | h1
        · rw [huniq f h1 hfh]; exact hst
        · exact h1
      rw [hfst]
    · right
      rw [Get_of_not_mem hw4 hm]
  · intro pre post target hsplit hno
    rw [hsplit] at hscan
    obtain ⟨u1, hpre, hrest⟩ := scanAnswer_append_ok hscan
    obtain ⟨u2, c, hcl, hp, hpost⟩ := scanAnswer_cons_ok hrest rfl rfl
    have hoku1 : CacheOK u1 := hscanOK _ _ _ hok2 hpre
    obtain ⟨e, rest, hent, hhost, hst, _⟩ :=
      scanned_target_clean d fuel u1 u2 target c hoku1 hcl hp
    rw [scanAnswer_no_cname _ _ post _ hno] at hpost
    have hs3 : s3 = u2.withCache c := by cases hpost; rfl
    have hput4c : c.Put h HostnameClean = some c4 := by
      have : s3.pr.cache = c := by rw [hs3]; rfl
      rw [← this]; exact hput4
    have hwc : c.WF := by
      have := hok3.1
      rw [hs3] at this
      exact this
    have hcapc : c.capacity = 1024 := by
      have := hok3.2.1
      rw [hs3] at this
      exact this
    have hmem : e ∈ c4.entries :=
      Put_keeps_front hwc (by rw [hcapc]; norm_num) hent hput4c
    have hg := (Get_of_mem hw4 hmem).1
    rw [hhost, hst] at hg
    rw [hcache, hg]

/-! ## Eviction of scanned CNAME targets -/

theorem replicate_sep_inj (c sep : Char) (hne : c ≠ sep) :
    ∀ (m k : Nat) (x y : List Char),
      List.replicate m c ++ sep :: x = List.replicate k c ++ sep :: y → m = k ∧ x = y := by
  intro m
  induction m with
  | zero =>
    intro k x y h
    cases k with
    | zero => simpa using h
    | succ k =>
      simp only [List.replicate_zero, List.nil_append, List.replicate_succ, List.cons_append,
        List.cons.injEq] at h
      exact absurd h.1.symm hne
  | succ m ih =>
    intro k x y h
    cases k with
    | zero =>
      simp only [List.replicate_zero, List.nil_append, List.replicate_succ, List.cons_append,
        List.cons.injEq] at h
      exact absurd h.1 hne
    | succ k =>
      simp only [List.replicate_succ, List.cons_append, List.cons.injEq, true_and] at h
      obtain ⟨h1, h2⟩ := ih k x y h
      exact ⟨by rw [h1], h2⟩

theorem tname_injective : Function.Injective tname := by
  intro i j h
  unfold tname at h
  have hd := congrArg String.data h
  simp only at hd
  obtain ⟨h1, h2⟩ := replicate_sep_inj 'a' '.' (by decide) _ _ _ _ hd
  have h3 : i % 32 + 1 = j % 32 + 1 := by
    have := congrArg List.length h2
    simpa using this
  have hi := Nat.div_add_mod i 32
  have hj := Nat.div_add_mod j 32
  omega

theorem tname_ne_h (i : Nat) : tname i ≠ "h." := by
  intro h
  unfold tname at h
  have hd := congrArg String.data h
  simp only [List.replicate_succ, List.cons_append] at hd
  have h0 := congrArg List.head? hd
  simp at h0

theorem evictTargets_length : evictTargets.length = 1024 := by
  simp [evictTargets]

theorem evictTargets_nodup : evictTargets.Nodup :=
  (List.nodup_range 1024).map tname_injective

theorem evictTargets_ne_h : ∀ t ∈ evictTargets, t ≠ "h." := by
  intro t ht
  obtain ⟨i, _, hi⟩ := List.mem_map.1 ht
  rw [← hi]
  exact tname_ne_h i

theorem evictTargets_cons :
    evictTargets = tname 0 :: (List.range 1023).map (fun i => tname (i + 1)) := by
  unfold evictTargets
  rw [show 1024 = 1023 + 1 from rfl, List.range_succ_eq_map]
  simp [List.map_map, Function.comp]

theorem evictDns_empty (n : Nat) (name server : String) (h : name ≠ "h.") :
    evictDns.Exchange n name server = .msg ⟨[]⟩ := by
  simp [evictDns, h]

/-- Classifying a hostname that is not cached, with room in the cache, when both
probes return empty answers: clean, and stored in front. -/
theorem match_clean_fresh (d : Dns) (fuel : Nat) (s : Run) (x : String)
    (hw : s.pr.cache.WF) (hn : x ∉ s.pr.cache.hostnames)
    (hlt : (s.pr.cache.entries.length : Int) < s.pr.cache.capacity)
    (hhp : d.Exchange s.sent.length (d.Fqdn x) s.pr.honeypotDNS = .msg ⟨[]⟩)
    (hloc : d.Exchange (s.sent.length + 1) (d.Fqdn x) s.pr.localDNS = .msg ⟨[]⟩) :
    ∃ t : Run, Polluted.match_ d (fuel + 1) s x 0 = .ret false t ∧ t.pr.cache.WF ∧
      t.pr.cache.capacity = s.pr.cache.capacity ∧
      t.pr.honeypotDNS = s.pr.honeypotDNS ∧ t.pr.localDNS = s.pr.localDNS ∧
      t.pr.cache.entries = ⟨x, HostnameClean⟩ :: s.pr.cache.entries := by
  have habs : (s.pr.cache.Get x).2.2 = false := by rw [Get_of_not_mem hw hn]
  obtain ⟨c, hput, hwc, hent⟩ := Put_insert hw hn hlt HostnameClean
  refine ⟨((s.send (d.Fqdn x) s.pr.honeypotDNS).send (d.Fqdn x) s.pr.localDNS).withCache c,
    ?_, hwc, Put_capacity hput, rfl, rfl, hent⟩
  rw [match_scan_step d fuel s x 0 ⟨[]⟩ ⟨[]⟩ (by norm_num) habs hhp rfl hloc]
  simp only [scanAnswer]
  unfold Run.putRet
  have : ((s.send (d.Fqdn x) s.pr.honeypotDNS).send (d.Fqdn x) s.pr.localDNS).pr.cache.Put x
      HostnameClean = some c := hput
  rw [this]

/-- Scanning CNAME records for distinct hostnames that are not cached, with
room for all of them and empty answers for each: the scan runs to its end
and stacks them, clean, in front of the entries already there. -/
theorem scan_clean_fresh (d : Dns) (fuel : Nat) (hp loc h : String) :
    ∀ (ts : List String) (s : Run), s.pr.cache.WF →
      s.pr.honeypotDNS = hp → s.pr.localDNS = loc →
      (∀ n, ∀ t ∈ ts, d.Exchange n (d.Fqdn t) hp = .msg ⟨[]⟩ ∧
        d.Exchange n (d.Fqdn t) loc = .msg ⟨[]⟩) →
      ts.Nodup → (∀ t ∈ ts, t ∉ s.pr.cache.hostnames) →
      ((s.pr.cache.entries.length : Int) + ts.length ≤ s.pr.cache.capacity) →
      ∃ u : Run,
        scanAnswer (fun t x => Polluted.match_ d (fuel + 1) t x 0) h
          (ts.map (fun t => (⟨TypeCNAME, some t⟩ : RR))) s = .ok u ∧
        u.pr.cache.WF ∧ u.pr.cache.capacity = s.pr.cache.capacity ∧
        u.pr.cache.entries
          = (ts.map (fun t => (⟨t, HostnameClean⟩ : pollutionCacheEntry))).reverse
            ++ s.pr.cache.entries := by
  intro ts
  induction ts with
  | nil =>
    intro s hw _ _ _ _ _ _
    exact ⟨s, rfl, hw, rfl, by simp⟩
  | cons x rest ih =>
    intro s hw hhp hloc hd hnd habs hlen
    simp only [List.length_cons, Nat.cast_add, Nat.cast_one] at hlen
    have hx : x ∉ s.pr.cache.hostnames := habs x (by simp)
    obtain ⟨hdx1, hdx2⟩ := hd s.sent.length x (by simp)
    obtain ⟨_, hdx3⟩ := hd (s.sent.length + 1) x (by simp)
    obtain ⟨s1, hcl, hw1, hcap1, hhp1, hloc1, hent1⟩ := match_clean_fresh d fuel s x hw hx
      (by omega) (by rw [hhp]; exact hdx1) (by rw [hloc]; exact hdx3)
    have hmem1 : (⟨x, HostnameClean⟩ : pollutionCacheEntry) ∈ s1.pr.cache.entries := by
      rw [hent1]; simp
    obtain ⟨c, hput, hwc, hentc⟩ := Put_of_mem hw1 hmem1 HostnameClean
    simp only at hput hentc
    have hfilter : s.pr.cache.entries.filter (fun e => decide (e.hostname ≠ x))
        = s.pr.cache.entries := by
      apply List.filter_eq_self.2
      intro e he
      simp only [decide_eq_true_eq]
      intro hex
      exact hx (List.mem_map.2 ⟨e, he, hex⟩)
    have hentc2 : c.entries = ⟨x, HostnameClean⟩ :: s.pr.cache.entries := by
      rw [hentc, hent1, List.filter_cons_of_neg (by simp), hfilter]
    have hcapc : c.capacity = s.pr.cache.capacity := by rw [Put_capacity hput, hcap1]
    simp only [List.nodup_cons] at hnd
    have habs2 : ∀ t ∈ rest, t ∉ (s1.withCache c).pr.cache.hostnames := by
      intro t ht hm
      have hm2 : t ∈ c.entries.map pollutionCacheEntry.hostname := hm
      rw [hentc2] at hm2
      simp only [List.map_cons, List.mem_cons] at hm2
      rcases hm2 with h1 | h1
      · rw [h1] at ht
        exact hnd.1 ht
      · exact habs t (List.mem_cons_of_mem _ ht) h1
    have hlen2 : (((s1.withCache c).pr.cache.entries.length : Nat) : Int) + rest.length
        ≤ (s1.withCache c).pr.cache.capacity := by
      have h1 : (s1.withCache c).pr.cache.entries = ⟨x, HostnameClean⟩ :: s.pr.cache.entries :=
        hentc2
      have h2 : (s1.withCache c).pr.cache.capacity = s.pr.cache.capacity := hcapc
      rw [h1, h2]
      simp only [List.length_cons, Nat.cast_add, Nat.cast_one]
      omega
    obtain ⟨u, hscan, hwu, hcapu, hentu⟩ := ih (s1.withCache c) hwc
      (by show s1.pr.honeypotDNS = hp; rw [hhp1]; exact hhp)
      (by show s1.pr.localDNS = loc; rw [hloc1]; exact hloc)
      (fun n t ht => hd n t (List.mem_cons_of_mem _ ht)) hnd.2 habs2 hlen2
    refine ⟨u, ?_, hwu, by rw [hcapu]; exact hcapc, ?_⟩
    · simp only [List.map_cons]
      rw [scanAnswer]
      simp only [if_true, hcl, hput]
      exact hscan
    · rw [hentu]
      have h1 : (s1.withCache c).pr.cache.entries = ⟨x, HostnameClean⟩ :: s.pr.cache.entries :=
        hentc2
      rw [h1]
      simp

/-- On a miss with an empty honeypot answer, a scan of the local answer that
runs to its end and a `Put` that returns: `match` returns clean. -/
theorem match_clean_of_scan (d : Dns) (fuel : Nat) (s : Run) (h : String) (rrs : List RR)
    (s3 : Run) (c : pollutionCache) (habs : (s.pr.cache.Get h).2.2 = false)
    (hhp : d.Exchange s.sent.length (d.Fqdn h) s.pr.honeypotDNS = .msg ⟨[]⟩)
    (hloc : d.Exchange (s.sent.length + 1) (d.Fqdn h) s.pr.localDNS = .msg ⟨rrs⟩)
    (hscan : scanAnswer (fun t x => Polluted.match_ d fuel t x 0) h rrs
      ((s.send (d.Fqdn h) s.pr.honeypotDNS).send (d.Fqdn h) s.pr.localDNS) = .ok s3)
    (hput : s3.pr.cache.Put h HostnameClean = some c) :
    Polluted.match_ d (fuel + 1) s h 0 = .ret false (s3.withCache c) := by
  rw [match_scan_step d fuel s h 0 ⟨[]⟩ ⟨rrs⟩ (by norm_num) habs hhp rfl hloc]
  simp only
  rw [hscan]
  simp only
  unfold Run.putRet
  rw [hput]

/-- C10 as stated fails. From the initial run of `exampleRule` (capacity 1024):
the honeypot answer for `h.` is empty and the local answer holds 1024 CNAME
records for distinct hostnames, each with empty honeypot and local answers.
The scan runs to its end (every target classifies clean) and `match` returns
clean, but storing `h.` evicts the first target scanned: `tname 0` is not in
the cache afterwards. -/
theorem C10_counterexample :
    (exampleRun.pr.cache.Get "h.").2.2 = false ∧
    evictDns.Exchange 0 (evictDns.Fqdn "h.") exampleRun.pr.honeypotDNS = .msg ⟨[]⟩ ∧
    evictDns.Exchange 1 (evictDns.Fqdn "h.") exampleRun.pr.localDNS
      = .msg ⟨evictTargets.map (fun t => ⟨TypeCNAME, some t⟩)⟩ ∧
    tname 0 ∈ evictTargets ∧
    (scanAnswer (fun t x => Polluted.match_ evictDns 1 t x 0) "h."
      (evictTargets.map (fun t => (⟨TypeCNAME, some t⟩ : RR)))
      ((exampleRun.send "h." "1.2.3.4:53").send "h." "8.8.8.8:53")).toBool = true ∧
    (Polluted.match_ evictDns 2 exampleRun "h." 0).result = some false ∧
    ((Polluted.match_ evictDns 2 exampleRun "h." 0).run.pr.cache.Get (tname 0)).2.2 = false := by
  have hhp : evictDns.Exchange exampleRun.sent.length (evictDns.Fqdn "h.")
      exampleRun.pr.honeypotDNS = .msg ⟨[]⟩ := rfl
  have hloc : evictDns.Exchange (exampleRun.sent.length + 1) (evictDns.Fqdn "h.")
      exampleRun.pr.localDNS = .msg ⟨evictTargets.map (fun t => ⟨TypeCNAME, some t⟩)⟩ := rfl
  have habs : (exampleRun.pr.cache.Get "h.").2.2 = false := by decide
  have hw0 := exampleRun_cacheOK.1
  obtain ⟨u, hscan, hwu, hcapu, hentu⟩ := scan_clean_fresh evictDns 0 "1.2.3.4:53" "8.8.8.8:53"
    "h." evictTargets ((exampleRun.send (evictDns.Fqdn "h.") exampleRun.pr.honeypotDNS).send
      (evictDns.Fqdn "h.") exampleRun.pr.localDNS) hw0 rfl rfl
    (fun n t ht => ⟨evictDns_empty n t _ (evictTargets_ne_h t ht),
      evictDns_empty n t _ (evictTargets_ne_h t ht)⟩)
    evictTargets_nodup (by intro t _ hm; cases hm)
    (by rw [evictTargets_length]; decide)
  have hentu2 : u.pr.cache.entries
      = (evictTargets.map (fun t => (⟨t, HostnameClean⟩ : pollutionCacheEntry))).reverse := by
    rw [hentu]
    exact List.append_nil _
  have hcapu2 : u.pr.cache.capacity = 1024 := hcapu
  have hnh : "h." ∉ u.pr.cache.hostnames := by
    intro hm
    unfold pollutionCache.hostnames at hm
    rw [hentu2] at hm
    simp only [List.map_reverse, List.map_map, List.mem_reverse, List.mem_map,
      Function.comp] at hm
    obtain ⟨t, ht, hth⟩ := hm
    exact evictTargets_ne_h t ht hth
  have hge : ¬ (u.pr.cache.entries.length : Int) < u.pr.cache.capacity := by
    rw [hentu2, hcapu2]
    simp only [List.length_reverse, List.length_map, evictTargets_length]
    decide
  have hne : u.pr.cache.entries ≠ [] := by
    rw [hentu2, evictTargets_cons]
    simp
  obtain ⟨c4, hput4, hw4, hent4⟩ := Put_evict hwu hnh hge hne HostnameClean
  have hmatch := match_clean_of_scan evictDns (0 + 1) exampleRun "h."
    (evictTargets.map (fun t => (⟨TypeCNAME, some t⟩ : RR))) u c4 habs hhp hloc hscan hput4
  have hgone : tname 0 ∉ c4.hostnames := by
    unfold pollutionCache.hostnames
    rw [hent4, hentu2, evictTargets_cons]
    simp only [List.map_cons, List.reverse_cons, List.dropLast_concat, List.mem_cons,
      List.map_reverse, List.map_map, List.mem_reverse, List.mem_map, Function.comp]
    rintro (h1 | ⟨i, _, hi⟩)
    · exact tname_ne_h 0 h1
    · have := tname_injective hi
      omega
  refine ⟨habs, rfl, rfl, ?_, ?_, ?_, ?_⟩
  · rw [evictTargets_cons]; simp
  · have hscan2 : scanAnswer (fun t x => Polluted.match_ evictDns 1 t x 0) "h."
        (evictTargets.map (fun t => (⟨TypeCNAME, some t⟩ : RR)))
        ((exampleRun.send "h." "1.2.3.4:53").send "h." "8.8.8.8:53") = .ok u := hscan
    rw [hscan2]; rfl
  · have hmatch2 : Polluted.match_ evictDns 2 exampleRun "h." 0
        = .ret false (u.withCache c4) := hmatch
    rw [hmatch2]; rfl
  · have hmatch2 : Polluted.match_ evictDns 2 exampleRun "h." 0
        = .ret false (u.withCache c4) := hmatch
    rw [hmatch2]
    show (c4.Get (tname 0)).2.2 = false
    rw [Get_of_not_mem hw4 hgone]

theorem C10_clean_cname_chain_witness :
    (CacheOK exampleRun ∧ (exampleRun.pr.cache.Get "h.").2.2 = false ∧
      cleanChainDns.Exchange exampleRun.sent.length (cleanChainDns.Fqdn "h.")
        exampleRun.pr.honeypotDNS = .msg ⟨[]⟩ ∧
      (⟨[]⟩ : Msg).Answer = [] ∧
      cleanChainDns.Exchange (exampleRun.sent.length + 1) (cleanChainDns.Fqdn "h.")
        exampleRun.pr.localDNS = .msg ⟨[⟨TypeCNAME, some "u."⟩]⟩ ∧
      scanAnswer (fun t x => Polluted.match_ cleanChainDns 1 t x 0) "h."
          (⟨[⟨TypeCNAME, some "u."⟩]⟩ : Msg).Answer
          ((exampleRun.send (cleanChainDns.Fqdn "h.") exampleRun.pr.honeypotDNS).send
            (cleanChainDns.Fqdn "h.") exampleRun.pr.localDNS)
        = .ok (scanEnd (scanAnswer (fun t x => Polluted.match_ cleanChainDns 1 t x 0) "h."
          (⟨[⟨TypeCNAME, some "u."⟩]⟩ : Msg).Answer
          ((exampleRun.send (cleanChainDns.Fqdn "h.") exampleRun.pr.honeypotDNS).send
            (cleanChainDns.Fqdn "h.") exampleRun.pr.localDNS)))) ∧
    ∃ t : Run, Polluted.match_ cleanChainDns (1 + 1) exampleRun "h." 0 = .ret false t ∧
      t.sent = (scanEnd (scanAnswer (fun t x => Polluted.match_ cleanChainDns 1 t x 0) "h."
          (⟨[⟨TypeCNAME, some "u."⟩]⟩ : Msg).Answer
          ((exampleRun.send (cleanChainDns.Fqdn "h.") exampleRun.pr.honeypotDNS).send
            (cleanChainDns.Fqdn "h.") exampleRun.pr.localDNS))).sent ∧
      (t.pr.cache.Get "h.").2 = (HostnameClean, true) ∧
      (∀ rr ∈ (⟨[⟨TypeCNAME, some "u."⟩]⟩ : Msg).Answer, rr.Rrtype = TypeCNAME →
        ∀ target, rr.cname = some target →
        (t.pr.cache.Get target).2 = (HostnameClean, true) ∨
        (t.pr.cache.Get target).2.2 = false) ∧
      (∀ (pre post : List RR) (target : String),
        (⟨[⟨TypeCNAME, some "u."⟩]⟩ : Msg).Answer = pre ++ ⟨TypeCNAME, some target⟩ :: post →
        (∀ rr ∈ post, rr.Rrtype ≠ TypeCNAME) →
        (t.pr.cache.Get target).2 = (HostnameClean, true)) :=
  ⟨⟨exampleRun_cacheOK, by decide, by decide, rfl, by decide, rfl⟩,
    C10_clean_cname_chain cleanChainDns 1 exampleRun "h." ⟨[]⟩ ⟨[⟨TypeCNAME, some "u."⟩]⟩ _
      exampleRun_cacheOK (by decide) (by decide) rfl (by decide) rfl⟩

/-! ## The constructor -/

theorem splitAux_no_sep (sep : Char) :
    ∀ w : List Char, sep ∉ w → splitAux sep w = (w, []) := by
  intro w
  induction w with
  | nil => intro _; rfl
  | cons c cs ih =>
    intro h
    have hc : c ≠ sep := fun hc => h (by rw [hc]; simp)
    have hcs : sep ∉ cs := fun hm => h (List.mem_cons_of_mem _ hm)
    simp only [splitAux, hc, if_false, ih hcs]

theorem splitAux_append_sep (sep : Char) (tl : List Char) :
    ∀ w : List Char, sep ∉ w →
      splitAux sep (w ++ sep :: tl) = (w, (splitAux sep tl).1 :: (splitAux sep tl).2) := by
  intro w
  induction w with
  | nil =>
    intro _
    simp only [List.nil_append, splitAux, if_true]
  | cons c cs ih =>
    intro h
    have hc : c ≠ sep := fun hc => h (by rw [hc]; simp)
    have hcs : sep ∉ cs := fun hm => h (List.mem_cons_of_mem _ hm)
    have hih := ih hcs
    rw [List.cons_append, splitAux]
    simp only [hc, if_false, hih]

theorem Split_length_pos (s : String) (sep : Char) : 1 ≤ (Split s sep).length := by
  simp [Split]

/-- Splitting a string without separator gives the string itself. -/
theorem Split_no_sep (s : String) (sep : Char) (h : sep ∉ s.data) : Split s sep = [s] := by
  simp [Split, splitAux_no_sep sep s.data h]

/-- Splitting the join of segments without semicolon gives the segments back. -/
theorem Split_joinSegments :
    ∀ (s : String) (rest : List String), (∀ seg ∈ s :: rest, ';' ∉ seg.data) →
      Split (joinSegments (s :: rest)) ';' = s :: rest := by
  intro s rest
  induction rest generalizing s with
  | nil =>
    intro h
    exact Split_no_sep s ';' (h s (by simp))
  | cons t rest ih =>
    intro h
    have hs : ';' ∉ s.data := h s (by simp)
    have ht := ih t (fun seg hseg => h seg (List.mem_cons_of_mem _ hseg))
    have hdata : (joinSegments (s :: t :: rest)).data
        = s.data ++ ';' :: (joinSegments (t :: rest)).data := by
      simp [joinSegments, String.data_append]
    unfold Split at ht ⊢
    simp only [hdata, splitAux_append_sep ';' _ s.data hs, List.map_cons] at ht ⊢
    rw [ht]

/-- C12: full configuration is taken positionally. For segments without
semicolon, at least three of them, `NewPOLLUTED` on their join returns a rule
with `honeypotDNS` the first, `localDNS` the second, `safeDNS` (and the TLS
server name, and `Payload()`) the third, `Adapter()` the adapter name and
`RuleType()` equal to `POLLUTED`; in particular for the list
`1.2.3.4:53;8.8.8.8:53;9.9.9.9:853` with adapter `proxy1`. -/
theorem C12_full_configuration (s0 s1 s2 : String) (rest : List String) (adapter : String)
    (hno : ∀ seg ∈ s0 :: s1 :: s2 :: rest, ';' ∉ seg.data) :
    (∃ pr, NewPOLLUTED (joinSegments (s0 :: s1 :: s2 :: rest)) adapter = some pr ∧
      pr.honeypotDNS = s0 ∧ pr.localDNS = s1 ∧ pr.safeDNS = s2 ∧ pr.tlsServerName = s2 ∧
      pr.Payload = s2 ∧ pr.Adapter = adapter ∧ pr.RuleType = POLLUTED) ∧
    (∃ pr, NewPOLLUTED "1.2.3.4:53;8.8.8.8:53;9.9.9.9:853" "proxy1" = some pr ∧
      pr.honeypotDNS = "1.2.3.4:53" ∧ pr.localDNS = "8.8.8.8:53" ∧
      pr.safeDNS = "9.9.9.9:853" ∧ pr.Payload = "9.9.9.9:853" ∧ pr.Adapter = "proxy1" ∧
      pr.RuleType = POLLUTED) := by
  constructor
  · have hsplit := Split_joinSegments s0 (s1 :: s2 :: rest) hno
    refine ⟨{ adapter := adapter, cache := pollutionCache.empty 1024, tlsServerName := s2,
              safeDNS := s2, localDNS := s1, honeypotDNS := s0 }, ?_, rfl, rfl, rfl, rfl, rfl,
      rfl, rfl⟩
    have hlen : ¬ rest.length + 1 + 1 + 1 < 2 := by omega
    unfold NewPOLLUTED
    simp [hsplit, hlen]
  · exact ⟨exampleRule, exampleRule_built, rfl, rfl, rfl, rfl, rfl, rfl⟩

theorem C12_full_configuration_witness :
    (∀ seg ∈ ["1.2.3.4:53", "8.8.8.8:53", "9.9.9.9:853", "extra"], ';' ∉ seg.data) ∧
    ((∃ pr, NewPOLLUTED (joinSegments ["1.2.3.4:53", "8.8.8.8:53", "9.9.9.9:853", "extra"])
        "proxy1" = some pr ∧
      pr.honeypotDNS = "1.2.3.4:53" ∧ pr.localDNS = "8.8.8.8:53" ∧ pr.safeDNS = "9.9.9.9:853" ∧
      pr.tlsServerName = "9.9.9.9:853" ∧ pr.Payload = "9.9.9.9:853" ∧ pr.Adapter = "proxy1" ∧
      pr.RuleType = POLLUTED) ∧
    (∃ pr, NewPOLLUTED "1.2.3.4:53;8.8.8.8:53;9.9.9.9:853" "proxy1" = some pr ∧
      pr.honeypotDNS = "1.2.3.4:53" ∧ pr.localDNS = "8.8.8.8:53" ∧
      pr.safeDNS = "9.9.9.9:853" ∧ pr.Payload = "9.9.9.9:853" ∧ pr.Adapter = "proxy1" ∧
      pr.RuleType = POLLUTED)) :=
  ⟨by decide, C12_full_configuration "1.2.3.4:53" "8.8.8.8:53" "9.9.9.9:853" ["extra"] "proxy1"
    (by decide)⟩

/-- C13 fails on the code: an endpoint list of exactly two segments splits into
two strings, and the constructor aborts on `dnsList[2]` (the guard tests
`len(dnsList) < 2`) where the claim has the safe endpoint defaulted. -/
theorem C13_two_segments_abort :
    Split "1.2.3.4:53;8.8.8.8:53" ';' = ["1.2.3.4:53", "8.8.8.8:53"] ∧
    NewPOLLUTED "1.2.3.4:53;8.8.8.8:53" "proxy1" = none := by
  exact ⟨by decide, rfl⟩

/-- C19: single-segment endpoint list. For a string `s` without semicolon (the
empty string included) `NewPOLLUTED` returns a rule with `honeypotDNS = s`,
the default local endpoint and the default safe endpoint (also as TLS server
name and `Payload()`). For every input the split has at least one segment
and a rule that is built has the first segment as `honeypotDNS`: the honeypot
default is never applied. -/
theorem C19_single_segment (s adapter : String) (hno : ';' ∉ s.data) :
    (∃ pr, NewPOLLUTED s adapter = some pr ∧ pr.honeypotDNS = s ∧
      pr.localDNS = "119.29.29.29:53" ∧ pr.safeDNS = "9.9.9.9:853" ∧
      pr.tlsServerName = "9.9.9.9:853" ∧ pr.Payload = "9.9.9.9:853" ∧
      pr.Adapter = adapter) ∧
    (∀ (dnsHosts a : String) (pr : Polluted), NewPOLLUTED dnsHosts a = some pr →
      ¬ (Split dnsHosts ';').length < 1 ∧
      (Split dnsHosts ';').head? = some pr.honeypotDNS) := by
  constructor
  · refine ⟨{ adapter := adapter, cache := pollutionCache.empty 1024,
              tlsServerName := "9.9.9.9:853", safeDNS := "9.9.9.9:853",
              localDNS := "119.29.29.29:53", honeypotDNS := s }, ?_, rfl, rfl, rfl, rfl, rfl,
      rfl⟩
    unfold NewPOLLUTED
    simp [Split_no_sep s ';' hno]
  · intro dnsHosts a pr h
    have hlen := Split_length_pos dnsHosts ';'
    refine ⟨by omega, ?_⟩
    unfold NewPOLLUTED at h
    simp only at h
    split at h
    · cases h
    · split at h
      · cases h
      · split at h
        · cases h
        · rename_i honeypot hh
          cases h
          simp only
          have hnot : ¬ (Split dnsHosts ';').length < 1 := by omega
          rw [if_neg hnot] at hh
          cases hl : Split dnsHosts ';' with
          | nil => rw [hl] at hlen; simp at hlen
          | cons x xs =>
            rw [hl] at hh
            simp only [List.getElem?_cons_zero, Option.some.injEq] at hh
            rw [hh]
            rfl

theorem C19_single_segment_witness :
    ';' ∉ "".data ∧
    ((∃ pr, NewPOLLUTED "" "proxy1" = some pr ∧ pr.honeypotDNS = "" ∧
      pr.localDNS = "119.29.29.29:53" ∧ pr.safeDNS = "9.9.9.9:853" ∧
      pr.tlsServerName = "9.9.9.9:853" ∧ pr.Payload = "9.9.9.9:853" ∧
      pr.Adapter = "proxy1") ∧
    (∀ (dnsHosts a : String) (pr : Polluted), NewPOLLUTED dnsHosts a = some pr →
      ¬ (Split dnsHosts ';').length < 1 ∧
      (Split dnsHosts ';').head? = some pr.honeypotDNS)) :=
  ⟨by decide, C19_single_segment "" "proxy1" (by decide)⟩

/-! ## Consistency of the cache index -/

theorem cacheReachable_WF {c : Int} {pc : pollutionCache} (hr : CacheReachable c pc) :
    pc.WF ∧ pc.capacity = c := by
  induction hr with
  | empty => exact ⟨WF_empty c, rfl⟩
  | get pc h _ ih => exact ⟨Get_WF ih.1 h, by rw [Get_capacity]; exact ih.2⟩
  | put pc pc1 h st _ hp ih => exact ⟨Put_WF ih.1 hp, by rw [Put_capacity hp]; exact ih.2⟩

/-- C20: index and order consistency. In every cache reached from the empty
cache of capacity `c ≥ 1` by `Get` and `Put` calls, no hostname occurs twice
in the recency list (nor an element, nor a key of the map), the keys of the
map are exactly the hostnames of the list, the map and the list have the
same size, the map binds `h` to `p` exactly when `p` is an element of the
list whose entry has hostname `h`, and `Put` does not abort. -/
theorem C20_index_order_consistency (c : Int) (hc : 1 ≤ c) (pc : pollutionCache)
    (hr : CacheReachable c pc) :
    pc.hostnames.Nodup ∧ pc.q.Nodup ∧ (pc.m.map Prod.fst).Nodup ∧
    (∀ h, h ∈ pc.m.map Prod.fst ↔ h ∈ pc.hostnames) ∧
    pc.m.length = pc.q.length ∧
    (∀ h p, mapGet pc.m h = some p ↔ (p ∈ pc.q ∧ (pc.heap p).hostname = h)) ∧
    (∀ h st, ∃ pc1, pc.Put h st = some pc1) := by
  obtain ⟨hw, hcap⟩ := cacheReachable_WF hr
  refine ⟨hw.nodupHost, hw.nodupQ, hw.nodupKeys, fun h => (WF_keys_perm hw).mem_iff,
    WF_map_length hw, hw.index, fun h st => Put_isSome hw (by rw [hcap]; exact hc) h st⟩

theorem C20_index_order_consistency_witness :
    ((1 : Int) ≤ 1024 ∧ CacheReachable 1024 (cleanCache.Get "b").1) ∧
    ((cleanCache.Get "b").1.hostnames.Nodup ∧ (cleanCache.Get "b").1.q.Nodup ∧
    ((cleanCache.Get "b").1.m.map Prod.fst).Nodup ∧
    (∀ h, h ∈ (cleanCache.Get "b").1.m.map Prod.fst ↔ h ∈ (cleanCache.Get "b").1.hostnames) ∧
    (cleanCache.Get "b").1.m.length = (cleanCache.Get "b").1.q.length ∧
    (∀ h p, mapGet (cleanCache.Get "b").1.m h = some p ↔
      (p ∈ (cleanCache.Get "b").1.q ∧ ((cleanCache.Get "b").1.heap p).hostname = h)) ∧
    (∀ h st, ∃ pc1, (cleanCache.Get "b").1.Put h st = some pc1)) :=
  ⟨⟨by decide, CacheReachable.get _ _
      (CacheReachable.put _ _ _ _ CacheReachable.empty cleanCache_built)⟩,
    C20_index_order_consistency 1024 (by decide) _ (CacheReachable.get _ _
      (CacheReachable.put _ _ _ _ CacheReachable.empty cleanCache_built))⟩

/-! ## Cyclic CNAME records and aborts -/

theorem selfDns_never_returns :
    ∀ (fuel : Nat) (s : Run), s.pr = exampleRun.pr →
      ∃ t, Polluted.match_ selfDns fuel s "h." 0 = .outOfFuel t ∧ t.pr = exampleRun.pr := by
  intro fuel
  induction fuel with
  | zero =>
    intro s hs
    exact ⟨s, rfl, hs⟩
  | succ fuel ih =>
    intro s hs
    have habs : (s.pr.cache.Get "h.").2.2 = false := by rw [hs]; decide
    have hhp : selfDns.Exchange s.sent.length (selfDns.Fqdn "h.") s.pr.honeypotDNS
        = .msg ⟨[]⟩ := by rw [hs]; rfl
    have hloc : selfDns.Exchange (s.sent.length + 1) (selfDns.Fqdn "h.") s.pr.localDNS
        = .msg ⟨[⟨TypeCNAME, some "h."⟩]⟩ := by rw [hs]; rfl
    obtain ⟨t, ht, htpr⟩ := ih
      ((s.send (selfDns.Fqdn "h.") s.pr.honeypotDNS).send (selfDns.Fqdn "h.") s.pr.localDNS) hs
    refine ⟨t, ?_, htpr⟩
    rw [match_scan_step selfDns fuel s "h." 0 ⟨[]⟩ ⟨[⟨TypeCNAME, some "h."⟩]⟩ (by norm_num)
      habs hhp rfl hloc]
    simp only [scanAnswer, if_true, ht]

/-- C18: no guard against cyclic CNAME chains. The resolver `selfDns` does not
depend on the position of the exchange; its honeypot answer for `h.` is
empty and its local answer for `h.` is one CNAME record with target `h.`;
`h.` is not cached in the initial run of `exampleRule`. For every fuel the
classifier runs out of fuel, with the rule and its cache unchanged. -/
theorem C18_cyclic_cname_never_returns :
    (exampleRun.pr.cache.Get "h.").2.2 = false ∧
    (∀ n, selfDns.Exchange n (selfDns.Fqdn "h.") exampleRun.pr.honeypotDNS = .msg ⟨[]⟩) ∧
    (∀ n, selfDns.Exchange n (selfDns.Fqdn "h.") exampleRun.pr.localDNS
      = .msg ⟨[⟨TypeCNAME, some "h."⟩]⟩) ∧
    ∀ fuel, ∃ t, Polluted.match_ selfDns fuel exampleRun "h." 0 = .outOfFuel t ∧
      t.pr = exampleRun.pr ∧
      (Polluted.match_ selfDns fuel exampleRun "h." 0).finished = false := by
  refine ⟨by decide, fun _ => rfl, fun _ => rfl, fun fuel => ?_⟩
  obtain ⟨t, ht, htpr⟩ := selfDns_never_returns fuel exampleRun rfl
  exact ⟨t, ht, htpr, by rw [ht]; rfl⟩

/-- C14 as stated fails: when the honeypot exchange returns no message and no
error, `answer.Answer` dereferences nil and `match` aborts; the same outcome
at the local probe is tested (`answer != nil`) and classified polluted. -/
theorem C14_counterexample :
    nilDns.Exchange 0 (nilDns.Fqdn "h.") exampleRun.pr.honeypotDNS = .nilMsg ∧
    (Polluted.match_ nilDns 1 exampleRun "h." 0).aborted = true ∧
    localNilDns.Exchange 1 (localNilDns.Fqdn "h.") exampleRun.pr.localDNS = .nilMsg ∧
    (Polluted.match_ localNilDns 1 exampleRun "h." 0).result = some true := by
  refine ⟨by decide, by decide, by decide, by decide⟩

/-! ## A second call after a first one -/

theorem put_clean_records {s s3 : Run} {h : String} {c : pollutionCache}
    (hw : s.pr.cache.WF) (habs : (s.pr.cache.Get h).2.2 = false)
    (hrel : OnlyCleanAdded s s3) (hw3 : s3.pr.cache.WF)
    (hp : s3.pr.cache.Put h HostnameClean = some c) :
    (c.Get h).2 = (HostnameClean, true) := by
  have hnoth : h ∉ s.pr.cache.hostnames := by
    intro hm
    have := (Get_found_iff hw h).2 hm
    rw [habs] at this
    cases this
  obtain ⟨e, rest, hent, hhost, hfrom, _⟩ := Put_head hw3 hp
  have hmem : e ∈ c.entries := by rw [hent]; simp
  have hg := (Get_of_mem (Put_WF hw3 hp) hmem).1
  rw [hhost] at hg
  rw [hg]
  have hst : e.state = HostnameClean := by
    rcases hfrom with h1 | h1
    · rcases hrel e h1 with h2 | h2
      · exact absurd (List.mem_map.2 ⟨e, h2, hhost⟩) hnoth
      · exact h2
    · exact h1
  rw [hst]

/-- A call of `match` that returns clean leaves the hostname recorded clean. -/
theorem match_false_records_clean (d : Dns) :
    ∀ (fuel : Nat) (s : Run) (x : String) (r : Int) (t : Run), CacheOK s →
      Polluted.match_ d fuel s x r = .ret false t →
      (t.pr.cache.Get x).2 = (HostnameClean, true) := by
  intro fuel
  induction fuel with
  | zero =>
    intro s x r t _ heq
    rw [Polluted.match_] at heq
    cases heq
  | succ fuel ih =>
    intro s x r t hok heq
    rw [Polluted.match_] at heq
    split at heq
    · cases heq
    · simp only at heq
      by_cases hfound : (s.pr.cache.Get x).2.2 = true
      · rw [if_pos hfound] at heq
        simp only [Outcome.ret.injEq, decide_eq_false_iff_not] at heq
        obtain ⟨hne, ht⟩ := heq
        obtain ⟨e, he, heh⟩ := List.mem_map.1 ((Get_found_iff hok.1 x).1 hfound)
        have hg := (Get_of_mem hok.1 he).1
        rw [heh] at hg
        have hst : e.state = HostnameClean := by
          rcases CacheOK_entry_state hok he with h1 | h1
          · exfalso
            apply hne
            rw [hg]
            exact h1
          · exact h1
        have hmem : e ∈ t.pr.cache.entries := by
          rw [← ht]
          exact (Get_entries_perm s.pr.cache x).symm.subset he
        have hwt : t.pr.cache.WF := by
          rw [← ht]
          exact Get_WF hok.1 x
        have hg2 := (Get_of_mem hwt hmem).1
        rw [heh, hst] at hg2
        exact hg2
      · have hmiss : (s.pr.cache.Get x).2.2 = false := by
          cases hb : (s.pr.cache.Get x).2.2 with
          | true => exact absurd hb hfound
          | false => rfl
        obtain ⟨_, hget⟩ := Get_miss hmiss
        rw [if_neg hfound] at heq
        simp only [hget, withCache_self] at heq
        have hok1 : CacheOK (s.send (d.Fqdn x) s.pr.honeypotDNS) := hok
        split at heq
        · exact ih _ _ _ t hok1 heq
        · cases heq
        · split at heq
          · exact absurd heq (putRet_true_ne _ _ _ _)
          · have hok2 : CacheOK ((s.send (d.Fqdn x) s.pr.honeypotDNS).send (d.Fqdn x)
                (s.send (d.Fqdn x) s.pr.honeypotDNS).pr.localDNS) := hok
            split at heq
            · exact ih _ _ _ t hok2 heq
            · exact absurd heq (putRet_true_ne _ _ _ _)
            · rename_i answer2 _
              split at heq
              · rename_i o hscan
                rw [heq] at hscan
                exact absurd hscan (scanAnswer_error_ne _ _ _ _ _)
              · rename_i s3 hscan
                obtain ⟨c, hp, ht⟩ := putRet_false_eq heq
                have hrel3 := scanAnswer_ok_onlyClean
                  (fun u y => Polluted.match_ d fuel u y 0)
                  (fun u y hu => match_stable d cacheOK_stable fuel u y 0 hu)
                  (fun u y v hu hv => match_false_onlyClean d fuel u y 0 v hu hv)
                  x answer2.Answer _ s3 hok2 hscan
                have hok3 : CacheOK s3 := by
                  have := scanAnswer_stable cacheOK_stable
                    (fun u y => Polluted.match_ d fuel u y 0)
                    (fun u y hu => match_stable d cacheOK_stable fuel u y 0 hu)
                    x answer2.Answer _ hok2
                  rw [hscan] at this
                  exact this
                rw [ht]
                exact put_clean_records hok.1 hmiss hrel3 hok3.1 hp

/-- A `Put` for another hostname does not bring `h` into the index. -/
theorem Put_other_absent {pc c : pollutionCache} {x h : String} {st : Int}
    (hp : pc.Put x st = some c) (hne : x ≠ h) (habs : mapGet pc.m h = none) :
    mapGet c.m h = none := by
  unfold pollutionCache.Put at hp
  split at hp
  · cases hp
    exact habs
  · split at hp
    · cases hp
      simp only [mapGet_mapSet, if_neg hne, habs]
    · split at hp
      · cases hp
      · cases hp
        simp only [mapGet_mapSet, if_neg hne, mapGet_mapDelete, habs]
        split <;> rfl

theorem putRet_other_absent {u : Run} {x h : String} (st : Int) (b : Bool) (hne : x ≠ h)
    (habs : mapGet u.pr.cache.m h = none) :
    mapGet (u.putRet x st b).run.pr.cache.m h = none := by
  unfold Run.putRet
  cases hp : u.pr.cache.Put x st with
  | none => exact habs
  | some c => exact Put_other_absent hp hne habs

theorem Get_keeps_index (pc : pollutionCache) (x : String) : (pc.Get x).1.m = pc.m := by
  unfold pollutionCache.Get
  split <;> rfl

/-- A scan for another hostname, of records none of which is a CNAME record for
`h`, does not bring `h` into the index when the classification of each
other hostname does not. -/
theorem scanAnswer_keeps_absent (classify : Run → String → Outcome) (x h : String)
    (hne : x ≠ h)
    (hcl : ∀ u t, t ≠ h → mapGet u.pr.cache.m h = none →
      mapGet (classify u t).run.pr.cache.m h = none) :
    ∀ (rrs : List RR) (s : Run), (⟨TypeCNAME, some h⟩ : RR) ∉ rrs →
      mapGet s.pr.cache.m h = none →
      mapGet (scanEnd (scanAnswer classify x rrs s)).pr.cache.m h = none := by
  intro rrs
  induction rrs with
  | nil => intro s _ hs; exact hs
  | cons rr rest ih =>
    intro s hno hs
    have hno2 : (⟨TypeCNAME, some h⟩ : RR) ∉ rest := fun hm => hno (List.mem_cons_of_mem _ hm)
    rw [scanAnswer]
    split
    · rename_i hty
      cases hcn : rr.cname with
      | none => exact hs
      | some target =>
        simp only
        have hth : target ≠ h := by
          intro heq
          apply hno
          have : rr = ⟨TypeCNAME, some h⟩ := by
            cases rr
            simp only at hty hcn
            rw [hty, hcn, heq]
          rw [this]
          exact List.mem_cons_self _ _
        have hc := hcl s target hth hs
        cases hres : classify s target with
        | ret b s1 =>
          rw [hres] at hc
          cases b with
          | true =>
            simp only
            cases hp : s1.pr.cache.Put target HostnamePolluted with
            | none => exact hc
            | some c =>
              exact putRet_other_absent _ _ hne (Put_other_absent hp hth hc)
          | false =>
            simp only
            cases hp : s1.pr.cache.Put target HostnameClean with
            | none => exact hc
            | some c => exact ih _ hno2 (Put_other_absent hp hth hc)
        | abort s1 => rw [hres] at hc; exact hc
        | outOfFuel s1 => rw [hres] at hc; exact hc
    · exact ih s hno2 hs

/-- When no answer of the resolver holds a CNAME record for `h`, a call of
`match` for another hostname does not bring `h` into the index. -/
theorem match_keeps_absent (d : Dns) (h : String)
    (hno : ∀ n name server a, d.Exchange n name server = .msg a →
      (⟨TypeCNAME, some h⟩ : RR) ∉ a.Answer) :
    ∀ (fuel : Nat) (s : Run) (x : String) (r : Int), x ≠ h →
      mapGet s.pr.cache.m h = none →
      mapGet (Polluted.match_ d fuel s x r).run.pr.cache.m h = none := by
  intro fuel
  induction fuel with
  | zero => intro s x r _ hs; exact hs
  | succ fuel ih =>
    intro s x r hne hs
    rw [Polluted.match_]
    split
    · exact hs
    · simp only
      have h0 : mapGet (s.withCache (s.pr.cache.Get x).1).pr.cache.m h = none := by
        show mapGet (s.pr.cache.Get x).1.m h = none
        rw [Get_keeps_index]
        exact hs
      split
      · exact h0
      · generalize s.withCache (s.pr.cache.Get x).1 = s0 at h0 ⊢
        have h1 : mapGet (s0.send (d.Fqdn x) s0.pr.honeypotDNS).pr.cache.m h = none := h0
        split
        · exact ih _ _ _ hne h1
        · exact h1
        · split
          · exact putRet_other_absent _ _ hne h1
          · generalize s0.send (d.Fqdn x) s0.pr.honeypotDNS = s1 at h1 ⊢
            have h2 : mapGet (s1.send (d.Fqdn x) s1.pr.localDNS).pr.cache.m h = none := h1
            split
            · exact ih _ _ _ hne h2
            · exact putRet_other_absent _ _ hne h2
            · rename_i answer2 hy
              have hscan := scanAnswer_keeps_absent
                (fun t target => Polluted.match_ d fuel t target 0) x h hne
                (fun u t ht hu => ih u t 0 ht hu) answer2.Answer _
                (hno _ _ _ _ hy) h2
              split
              · rename_i o heq
                rw [heq] at hscan
                exact hscan
              · rename_i s3 heq
                rw [heq] at hscan
                exact putRet_other_absent _ _ hne hscan

theorem putRet_bool {u t : Run} {h : String} {st : Int} {b b2 : Bool}
    (heq : u.putRet h st b = .ret b2 t) : b2 = b := by
  unfold Run.putRet at heq
  split at heq
  · cases heq
  · simp only [Outcome.ret.injEq] at heq
    exact heq.1.symm

/-- After `Put(h, st)` the hostname is in the cache, with state `st` when it was
not there before. -/
theorem putRet_records {u t : Run} {h : String} {st : Int} {b b2 : Bool}
    (hc : 1 ≤ u.pr.cache.capacity) (heq : u.putRet h st b = .ret b2 t) :
    (t.pr.cache.Get h).2.2 = true ∧
    (mapGet u.pr.cache.m h = none → (t.pr.cache.Get h).2 = (st, true)) := by
  cases hg : mapGet u.pr.cache.m h with
  | none =>
    obtain ⟨pc1, hp, hget⟩ := Put_absent_Get hg hc st
    unfold Run.putRet at heq
    rw [hp] at heq
    simp only [Outcome.ret.injEq] at heq
    rw [← heq.2]
    exact ⟨by show (pc1.Get h).2.2 = true; rw [hget], fun _ => hget⟩
  | some p =>
    have hp : u.pr.cache.Put h st = some { u.pr.cache with q := MoveToFront u.pr.cache.q p } := by
      unfold pollutionCache.Put
      rw [hg]
    unfold Run.putRet at heq
    rw [hp] at heq
    simp only [Outcome.ret.injEq] at heq
    rw [← heq.2]
    refine ⟨?_, fun h0 => by cases h0⟩
    show (pollutionCache.Get { u.pr.cache with q := MoveToFront u.pr.cache.q p } h).2.2 = true
    unfold pollutionCache.Get
    simp only [hg]

/-- A hostname found in a cache with valid states is polluted or clean. -/
theorem Get_found_state {s : Run} (hok : CacheOK s) {x : String}
    (hf : (s.pr.cache.Get x).2.2 = true) :
    (s.pr.cache.Get x).2 = (HostnamePolluted, true) ∨
    (s.pr.cache.Get x).2 = (HostnameClean, true) := by
  obtain ⟨e, he, heh⟩ := List.mem_map.1 ((Get_found_iff hok.1 x).1 hf)
  have hg := (Get_of_mem hok.1 he).1
  rw [heh] at hg
  rw [hg]
  rcases CacheOK_entry_state hok he with h1 | h1
  · exact Or.inl (by rw [h1])
  · exact Or.inr (by rw [h1])

/-- A second lookup of a hostname reports what the first one did. -/
theorem Get_Get (pc : pollutionCache) (x : String) :
    ((pc.Get x).1.Get x).2 = (pc.Get x).2 := by
  unfold pollutionCache.Get
  cases hg : mapGet pc.m x with
  | none => simp only [hg]
  | some p => simp only [hg]

/-- A scan for `x` that leaves `match` with the result polluted leaves `x` in the
cache; as polluted, when `x` was not cached before, no record scanned is a
CNAME record for `x` and no classification of another hostname brings `x`
into the cache. -/
theorem scanAnswer_true_recorded (classify : Run → String → Outcome) (x : String)
    (hok : ∀ u t, CacheOK u → CacheOK (classify u t).run) :
    ∀ (rrs : List RR) (s t : Run), CacheOK s →
      scanAnswer classify x rrs s = .error (.ret true t) →
      (t.pr.cache.Get x).2.2 = true ∧
      ((∀ u y, y ≠ x → mapGet u.pr.cache.m x = none →
          mapGet (classify u y).run.pr.cache.m x = none) →
        (⟨TypeCNAME, some x⟩ : RR) ∉ rrs → mapGet s.pr.cache.m x = none →
        (t.pr.cache.Get x).2 = (HostnamePolluted, true)) := by
  intro rrs
  induction rrs with
  | nil =>
    intro s t _ heq
    rw [scanAnswer] at heq
    cases heq
  | cons rr rest ih =>
    intro s t hs heq
    rw [scanAnswer] at heq
    split at heq
    · rename_i hty
      cases hcn : rr.cname with
      | none =>
        rw [hcn] at heq
        cases heq
      | some target =>
        rw [hcn] at heq
        simp only at heq
        have hth : (⟨TypeCNAME, some x⟩ : RR) ∉ rr :: rest → target ≠ x := by
          intro hno heq2
          apply hno
          have : rr = ⟨TypeCNAME, some x⟩ := by
            cases rr
            simp only at hty hcn
            rw [hty, hcn, heq2]
          rw [this]
          exact List.mem_cons_self _ _
        have hc := hok s target hs
        cases hres : classify s target with
        | ret b s1 =>
          rw [hres] at heq hc
          simp only [Outcome.run] at hc
          cases b with
          | true =>
            simp only at heq
            cases hp : s1.pr.cache.Put target HostnamePolluted with
            | none => rw [hp] at heq; cases heq
            | some c =>
              rw [hp] at heq
              have heq2 := Except.error.inj heq
              have hokc : CacheOK (s1.withCache c) :=
                cacheOK_stable.put s1 target _ c hc (Or.inl rfl) hp
              have hcap : 1 ≤ (s1.withCache c).pr.cache.capacity := by
                rw [hokc.2.1]
                norm_num
              obtain ⟨hfound, hst⟩ := putRet_records (by exact hcap) heq2
              refine ⟨hfound, fun habs hno hsabs => hst ?_⟩
              have h1 := habs s target (hth hno) hsabs
              rw [hres] at h1
              exact Put_other_absent hp (hth hno) h1
          | false =>
            simp only at heq
            cases hp : s1.pr.cache.Put target HostnameClean with
            | none => rw [hp] at heq; cases heq
            | some c =>
              rw [hp] at heq
              have hokc : CacheOK (s1.withCache c) :=
                cacheOK_stable.put s1 target _ c hc (Or.inr rfl) hp
              obtain ⟨hfound, hst⟩ := ih (s1.withCache c) t hokc heq
              refine ⟨hfound, fun habs hno hsabs => hst habs
                (fun hm => hno (List.mem_cons_of_mem _ hm)) ?_⟩
              have h1 := habs s target (hth hno) hsabs
              rw [hres] at h1
              exact Put_other_absent hp (hth hno) h1
        | abort s1 => rw [hres] at heq; cases heq
        | outOfFuel s1 => rw [hres] at heq; cases heq
    · obtain ⟨hfound, hst⟩ := ih s t hs heq
      exact ⟨hfound, fun habs hno hsabs => hst habs
        (fun hm => hno (List.mem_cons_of_mem _ hm)) hsabs⟩

/-- A call of `match` for a hostname that is not cached, when it returns
polluted, either leaves the hostname in the cache (as polluted, when no
answer of the resolver holds a CNAME record for it), or it made the attempts
left up to the retry bound, each ended in a transport error, and the rule
and its cache are as before. -/
theorem match_true_cases (d : Dns) :
    ∀ (fuel : Nat) (s : Run) (x : String) (r : Int) (t : Run), CacheOK s →
      (s.pr.cache.Get x).2.2 = false → r ≤ 4 →
      Polluted.match_ d fuel s x r = .ret true t →
      ((t.pr.cache.Get x).2.2 = true ∧
        ((∀ n name server a, d.Exchange n name server = .msg a →
            (⟨TypeCNAME, some x⟩ : RR) ∉ a.Answer) →
          (t.pr.cache.Get x).2 = (HostnamePolluted, true))) ∨
      (∃ k : Nat, r + k = 4 ∧
        failedAttempts d s.pr (d.Fqdn x) k s.sent.length = some t.sent.length ∧
        t.pr = s.pr) := by
  intro fuel
  induction fuel with
  | zero =>
    intro s x r t _ _ _ heq
    rw [Polluted.match_] at heq
    cases heq
  | succ fuel ih =>
    intro s x r t hok hmiss hr4 heq
    obtain ⟨habs, hget⟩ := Get_miss hmiss
    have hcap : 1 ≤ s.pr.cache.capacity := by
      rw [hok.2.1]
      norm_num
    rw [Polluted.match_] at heq
    split at heq
    · rename_i hgt
      simp only [Outcome.ret.injEq, true_and] at heq
      refine Or.inr ⟨0, by push_cast; omega, ?_, by rw [heq]⟩
      rw [← heq]
      rfl
    · rename_i hgt
      simp only [hmiss, Bool.false_eq_true, if_false, hget, withCache_self] at heq
      have hok1 : CacheOK (s.send (d.Fqdn x) s.pr.honeypotDNS) := hok
      split at heq
      · rename_i hx
        rcases ih _ x (r + 1) t hok1 hmiss (by omega) heq with h1 | ⟨k, hk1, hk2, hk3⟩
        · exact Or.inl h1
        · refine Or.inr ⟨k + 1, by push_cast; omega, ?_, hk3⟩
          unfold Run.exchange at hx
          rw [failedAttempts, hx]
          have hlen : (s.send (d.Fqdn x) s.pr.honeypotDNS).sent.length = s.sent.length + 1 := by
            simp [Run.send]
          rw [hlen] at hk2
          exact hk2
      · cases heq
      · rename_i answer hx
        split at heq
        · obtain ⟨hfound, hst⟩ := putRet_records (by exact hcap) heq
          exact Or.inl ⟨hfound, fun _ => hst habs⟩
        · rename_i hempty
          have hok2 : CacheOK ((s.send (d.Fqdn x) s.pr.honeypotDNS).send (d.Fqdn x)
              (s.send (d.Fqdn x) s.pr.honeypotDNS).pr.localDNS) := hok
          split at heq
          · rename_i hy
            rcases ih _ x (r + 1) t hok2 hmiss (by omega) heq with h1 | ⟨k, hk1, hk2, hk3⟩
            · exact Or.inl h1
            · refine Or.inr ⟨k + 1, by push_cast; omega, ?_, hk3⟩
              unfold Run.exchange at hx hy
              rw [failedAttempts, hx]
              simp only [hempty, if_false]
              have hy2 : d.Exchange (s.sent.length + 1) (d.Fqdn x) s.pr.localDNS = .err := by
                rw [← hy]
                simp [Run.send]
              rw [hy2]
              have hlen : ((s.send (d.Fqdn x) s.pr.honeypotDNS).send (d.Fqdn x)
                  (s.send (d.Fqdn x) s.pr.honeypotDNS).pr.localDNS).sent.length
                  = s.sent.length + 2 := by
                simp [Run.send]
              rw [hlen] at hk2
              exact hk2
          · obtain ⟨hfound, hst⟩ := putRet_records (by exact hcap) heq
            exact Or.inl ⟨hfound, fun _ => hst habs⟩
          · rename_i answer2 hy
            split at heq
            · rename_i o hscan
              rw [heq] at hscan
              obtain ⟨hfound, hst⟩ := scanAnswer_true_recorded
                (fun u y => Polluted.match_ d fuel u y 0) x
                (fun u y hu => match_stable d cacheOK_stable fuel u y 0 hu)
                answer2.Answer _ t hok2 hscan
              refine Or.inl ⟨hfound, fun hno => hst
                (fun u y hy2 hu => match_keeps_absent d x hno fuel u y 0 hy2 hu)
                (hno _ _ _ _ hy) habs⟩
            · exact absurd (putRet_bool heq) (by decide)

/-- A call of `match` at retry count 0 for a hostname the cache holds returns
from the cache, without an exchange. -/
theorem match_hit_returns (d : Dns) (fuel : Nat) (t : Run) (x : String) (st : Int)
    (hrec : (t.pr.cache.Get x).2 = (st, true)) :
    ∃ u, Polluted.match_ d (fuel + 1) t x 0 = .ret (decide (st = HostnamePolluted)) u ∧
      u.sent = t.sent := by
  have h1 : (t.pr.cache.Get x).2.1 = st := by rw [hrec]
  have h2 : (t.pr.cache.Get x).2.2 = true := by rw [hrec]
  refine ⟨t.withCache (t.pr.cache.Get x).1, ?_, rfl⟩
  rw [Polluted.match_]
  simp only [show ¬ ((0 : Int) > 3) by norm_num, if_false, h2, if_true, h1]

/-- C11 as stated fails, in two ways. From the initial run of `exampleRule`,
with a resolver whose first four exchanges end in transport errors: the
first `IsMatch` for `h.` returns polluted by retry exhaustion after four
exchanges and stores nothing; the second `IsMatch`, made right after it,
issues two more exchanges and returns clean. And with a resolver whose
local answer for `h.` holds CNAME records for `h.` itself and for `u.`: the
nested classification of `h.` stores it as clean, `u.` is then found
polluted, the first `IsMatch` for `h.` returns polluted after five exchanges
and its `Put` leaves the stored state as it is; the second `IsMatch` issues
no exchange and returns clean. -/
theorem C11_counterexample :
    ((Polluted.IsMatch flakyCleanDns 5 exampleRun ⟨"h."⟩).result = some true ∧
    (Polluted.IsMatch flakyCleanDns 5 exampleRun ⟨"h."⟩).run.sent.length = 4 ∧
    ((Polluted.IsMatch flakyCleanDns 5 exampleRun ⟨"h."⟩).run.pr.cache.Get "h.").2.2 = false ∧
    (Polluted.IsMatch flakyCleanDns 5
      (Polluted.IsMatch flakyCleanDns 5 exampleRun ⟨"h."⟩).run ⟨"h."⟩).result = some false ∧
    (Polluted.IsMatch flakyCleanDns 5
      (Polluted.IsMatch flakyCleanDns 5 exampleRun ⟨"h."⟩).run ⟨"h."⟩).run.sent.length = 6) ∧
    ((Polluted.IsMatch loopDns 5 exampleRun ⟨"h."⟩).result = some true ∧
    (Polluted.IsMatch loopDns 5 exampleRun ⟨"h."⟩).run.sent.length = 5 ∧
    ((Polluted.IsMatch loopDns 5 exampleRun ⟨"h."⟩).run.pr.cache.Get "h.").2
      = (HostnameClean, true) ∧
    (Polluted.IsMatch loopDns 5
      (Polluted.IsMatch loopDns 5 exampleRun ⟨"h."⟩).run ⟨"h."⟩).result = some false ∧
    (Polluted.IsMatch loopDns 5
      (Polluted.IsMatch loopDns 5 exampleRun ⟨"h."⟩).run ⟨"h."⟩).run.sent.length = 5) := by
  refine ⟨⟨by decide, by decide, by decide, by decide, by decide⟩,
    ⟨by decide, by decide, by decide, by decide, by decide⟩⟩

/-- C11 (amended): idempotence under cache, with its two exceptions. For a run
whose cache is well formed with capacity 1024 and valid states (every run
the rule reaches), if a first `IsMatch` for `h` returns `b`, then a second
`IsMatch` for `h` made right after it, with any resolver, returns `b` and
issues no exchange, except in two cases, both with `h` not cached before
the first call and `b` polluted. Either the first call made four probing
attempts that each ended in a transport error and left the rule and its
cache as they were: the second call then issues the honeypot exchange
again. Or some answer of the resolver holds a CNAME record for `h` itself
and the first call left `h` stored as clean: the second call then returns
clean, without an exchange. -/
theorem C11_second_call_after_first (d d2 : Dns) (fuel fuel2 : Nat) (s t : Run)
    (metadata : Metadata) (b : Bool) (hok : CacheOK s)
    (hfirst : Polluted.IsMatch d fuel s metadata = .ret b t) :
    (∃ u, Polluted.IsMatch d2 (fuel2 + 1) t metadata = .ret b u ∧ u.sent = t.sent) ∨
    (b = true ∧ (s.pr.cache.Get metadata.Host).2.2 = false ∧
      failedAttempts d s.pr (d.Fqdn metadata.Host) 4 s.sent.length = some t.sent.length ∧
      t.pr = s.pr ∧
      ∃ rest, (Polluted.IsMatch d2 (fuel2 + 1) t metadata).run.sent
        = t.sent ++ ⟨t.pr.honeypotDNS, d2.Fqdn metadata.Host⟩ :: rest) ∨
    (b = true ∧ (s.pr.cache.Get metadata.Host).2.2 = false ∧
      (∃ n name server a, d.Exchange n name server = .msg a ∧
        (⟨TypeCNAME, some metadata.Host⟩ : RR) ∈ a.Answer) ∧
      (t.pr.cache.Get metadata.Host).2 = (HostnameClean, true) ∧
      ∃ u, Polluted.IsMatch d2 (fuel2 + 1) t metadata = .ret false u ∧ u.sent = t.sent) := by
  unfold Polluted.IsMatch at hfirst ⊢
  have hokt : CacheOK t := by
    have := match_stable d cacheOK_stable fuel s metadata.Host 0 hok
    rw [hfirst] at this
    exact this
  cases b with
  | false =>
    left
    have hrec := match_false_records_clean d fuel s metadata.Host 0 t hok hfirst
    exact match_hit_returns d2 fuel2 t metadata.Host HostnameClean hrec
  | true =>
    by_cases hfound : (s.pr.cache.Get metadata.Host).2.2 = true
    · left
      obtain ⟨f, rfl⟩ : ∃ f, fuel = f + 1 := by
        cases fuel with
        | zero => rw [Polluted.match_] at hfirst; cases hfirst
        | succ f => exact ⟨f, rfl⟩
      rw [Polluted.match_] at hfirst
      simp only [show ¬ ((0 : Int) > 3) by norm_num, if_false, hfound, if_true,
        Outcome.ret.injEq] at hfirst
      obtain ⟨hb, ht⟩ := hfirst
      have hrec : (t.pr.cache.Get metadata.Host).2
          = ((s.pr.cache.Get metadata.Host).2.1, true) := by
        rw [← ht]
        show ((s.pr.cache.Get metadata.Host).1.Get metadata.Host).2 = _
        rw [Get_Get, ← hfound]
      have := match_hit_returns d2 fuel2 t metadata.Host _ hrec
      rw [hb] at this
      exact this
    · have hmiss : (s.pr.cache.Get metadata.Host).2.2 = false := by
        cases hb : (s.pr.cache.Get metadata.Host).2.2 with
        | true => exact absurd hb hfound
        | false => rfl
      rcases match_true_cases d fuel s metadata.Host 0 t hok hmiss (by norm_num) hfirst with
        ⟨hf, hpol⟩ | ⟨k, hk1, hk2, hk3⟩
      · rcases Get_found_state hokt hf with hst | hst
        · left
          exact match_hit_returns d2 fuel2 t metadata.Host HostnamePolluted hst
        · by_cases hex : ∃ n name server a, d.Exchange n name server = .msg a ∧
              (⟨TypeCNAME, some metadata.Host⟩ : RR) ∈ a.Answer
          · right
            right
            exact ⟨rfl, hmiss, hex, hst,
              match_hit_returns d2 fuel2 t metadata.Host HostnameClean hst⟩
          · exfalso
            have hno : ∀ n name server a, d.Exchange n name server = .msg a →
                (⟨TypeCNAME, some metadata.Host⟩ : RR) ∉ a.Answer :=
              fun n name server a ha hm => hex ⟨n, name, server, a, ha, hm⟩
            have := hpol hno
            rw [hst] at this
            exact absurd this (by decide)
      · right
        left
        have hk : k = 4 := by omega
        subst hk
        refine ⟨rfl, hmiss, hk2, hk3, ?_⟩
        exact match_miss_sends d2 fuel2 t metadata.Host 0 (by rw [hk3]; exact hmiss)
          (by norm_num)

theorem C11_second_call_after_first_witness :
    (CacheOK exampleRun ∧
      Polluted.IsMatch cleanChainDns 2 exampleRun ⟨"h."⟩
        = .ret false (Polluted.IsMatch cleanChainDns 2 exampleRun ⟨"h."⟩).run) ∧
    ((∃ u, Polluted.IsMatch deadDns (0 + 1)
        (Polluted.IsMatch cleanChainDns 2 exampleRun ⟨"h."⟩).run ⟨"h."⟩ = .ret false u ∧
      u.sent = (Polluted.IsMatch cleanChainDns 2 exampleRun ⟨"h."⟩).run.sent) ∨
    (false = true ∧ (exampleRun.pr.cache.Get (⟨"h."⟩ : Metadata).Host).2.2 = false ∧
      failedAttempts cleanChainDns exampleRun.pr (cleanChainDns.Fqdn (⟨"h."⟩ : Metadata).Host) 4
        exampleRun.sent.length
        = some (Polluted.IsMatch cleanChainDns 2 exampleRun ⟨"h."⟩).run.sent.length ∧
      (Polluted.IsMatch cleanChainDns 2 exampleRun ⟨"h."⟩).run.pr = exampleRun.pr ∧
      ∃ rest, (Polluted.IsMatch deadDns (0 + 1)
          (Polluted.IsMatch cleanChainDns 2 exampleRun ⟨"h."⟩).run ⟨"h."⟩).run.sent
        = (Polluted.IsMatch cleanChainDns 2 exampleRun ⟨"h."⟩).run.sent ++
          ⟨(Polluted.IsMatch cleanChainDns 2 exampleRun ⟨"h."⟩).run.pr.honeypotDNS,
            deadDns.Fqdn (⟨"h."⟩ : Metadata).Host⟩ :: rest) ∨
    (false = true ∧ (exampleRun.pr.cache.Get (⟨"h."⟩ : Metadata).Host).2.2 = false ∧
      (∃ n name server a, cleanChainDns.Exchange n name server = .msg a ∧
        (⟨TypeCNAME, some (⟨"h."⟩ : Metadata).Host⟩ : RR) ∈ a.Answer) ∧
      ((Polluted.IsMatch cleanChainDns 2 exampleRun ⟨"h."⟩).run.pr.cache.Get
        (⟨"h."⟩ : Metadata).Host).2 = (HostnameClean, true) ∧
      ∃ u, Polluted.IsMatch deadDns (0 + 1)
          (Polluted.IsMatch cleanChainDns 2 exampleRun ⟨"h."⟩).run ⟨"h."⟩ = .ret false u ∧
        u.sent = (Polluted.IsMatch cleanChainDns 2 exampleRun ⟨"h."⟩).run.sent)) :=
  ⟨⟨exampleRun_cacheOK, rfl⟩,
    C11_second_call_after_first cleanChainDns deadDns 2 0 exampleRun _ ⟨"h."⟩ false
      exampleRun_cacheOK rfl⟩

/-! ## The fail-safe and CNAME targets -/

/-- Four failed attempts: the call returns polluted and leaves the rule and its
cache as they were. -/
theorem match_failsafe (d : Dns) (s : Run) (x : String) (n fuel : Nat)
    (habs : (s.pr.cache.Get x).2.2 = false)
    (hfail : failedAttempts d s.pr (d.Fqdn x) 4 s.sent.length = some n) (hfuel : 5 ≤ fuel) :
    ∃ t, Polluted.match_ d fuel s x 0 = .ret true t ∧ t.pr = s.pr ∧ t.sent.length = n := by
  obtain ⟨f, rfl⟩ : ∃ f, fuel = (f + 1) + 4 := ⟨fuel - 5, by omega⟩
  obtain ⟨t, ht1, ht2, _, ht4⟩ := match_after_failures d x 4 (f + 1) s 0 n habs (by norm_num) hfail
  have hret : Polluted.match_ d (f + 1) t x (0 + ((4 : Nat) : Int)) = .ret true t := by
    rw [Polluted.match_]
    simp
  exact ⟨t, by rw [ht4, hret], ht1, ht2⟩

/-- C15 as stated fails. From the initial run of `exampleRule`: the local answer
for `h.` holds a CNAME record for `u.`, and the four attempts for `u.` all
end in transport errors, so the classification of `u.` ends by the fail-safe
and stores nothing; the scan of `h.` then records `u.` as polluted, and `u.`
is in the cache when `IsMatch` returns. -/
theorem C15_counterexample :
    (exampleRun.pr.cache.Get "u.").2.2 = false ∧
    failedAttempts failingTargetDns exampleRun.pr (failingTargetDns.Fqdn "u.") 4 2 = some 6 ∧
    (Polluted.match_ failingTargetDns 5
      ((exampleRun.send "h." "1.2.3.4:53").send "h." "8.8.8.8:53") "u." 0).result = some true ∧
    ((Polluted.match_ failingTargetDns 5
      ((exampleRun.send "h." "1.2.3.4:53").send "h." "8.8.8.8:53") "u." 0).run.pr.cache.Get
        "u.").2.2 = false ∧
    (Polluted.IsMatch failingTargetDns 6 exampleRun ⟨"h."⟩).result = some true ∧
    ((Polluted.IsMatch failingTargetDns 6 exampleRun ⟨"h."⟩).run.pr.cache.Get "u.").2
      = (HostnamePolluted, true) := by
  refine ⟨by decide, by decide, by decide, by decide, by decide, by decide⟩

/-- C15 (amended): the fail-safe outcome is not cached by the call that reaches it.
For a run whose cache is well formed with capacity 1024 and valid states, if
`x` is not cached and its four attempts all end in transport errors, then
`match(x, 0)` returns polluted with the rule and its cache unchanged: `x`
is still absent, and a later `IsMatch` for `x` issues the honeypot exchange
again. When `x` is the target of a CNAME record the scan of the caller
meets in that state, the scan leaves `match` with polluted and has recorded
`x` as polluted (and the caller's own hostname). -/
theorem C15_failsafe_not_cached_by_itself (d : Dns) (s : Run) (x : String) (n fuel : Nat)
    (hok : CacheOK s) (habs : (s.pr.cache.Get x).2.2 = false)
    (hfail : failedAttempts d s.pr (d.Fqdn x) 4 s.sent.length = some n) (hfuel : 5 ≤ fuel) :
    (∃ t, Polluted.match_ d fuel s x 0 = .ret true t ∧ t.pr = s.pr ∧
      (t.pr.cache.Get x).2.2 = false ∧
      ∀ (d2 : Dns) (fuel2 : Nat), 1 ≤ fuel2 →
        ∃ rest, (Polluted.IsMatch d2 fuel2 t ⟨x⟩).run.sent
          = t.sent ++ ⟨t.pr.honeypotDNS, d2.Fqdn x⟩ :: rest) ∧
    (∀ (h : String) (post : List RR), ∃ u,
      scanAnswer (fun t y => Polluted.match_ d fuel t y 0) h (⟨TypeCNAME, some x⟩ :: post) s
        = .error (.ret true u) ∧
      (u.pr.cache.Get x).2 = (HostnamePolluted, true) ∧
      (u.pr.cache.Get h).2.2 = true) := by
  obtain ⟨t, hret, htpr, _⟩ := match_failsafe d s x n fuel habs hfail hfuel
  have habst : (t.pr.cache.Get x).2.2 = false := by rw [htpr]; exact habs
  constructor
  · refine ⟨t, hret, htpr, habst, ?_⟩
    intro d2 fuel2 hf2
    obtain ⟨f2, rfl⟩ : ∃ f2, fuel2 = f2 + 1 := ⟨fuel2 - 1, by omega⟩
    unfold Polluted.IsMatch
    exact match_miss_sends d2 f2 t x 0 habst (by norm_num)
  · intro h post
    have hokt : CacheOK t := by
      have := match_stable d cacheOK_stable fuel s x 0 hok
      rw [hret] at this
      exact this
    have hwt := hokt.1
    have hcapt := hokt.2.1
    obtain ⟨c5, hput5⟩ := Put_isSome hwt (by rw [hcapt]; norm_num) x HostnamePolluted
    have hw5 := Put_WF hwt hput5
    have hcap5 : c5.capacity = 1024 := by rw [Put_capacity hput5, hcapt]
    obtain ⟨c6, hput6⟩ := Put_isSome hw5 (by rw [hcap5]; norm_num) h HostnamePolluted
    have hw6 := Put_WF hw5 hput6
    obtain ⟨e5, rest5, hent5, hhost5, hfrom5, _⟩ := Put_head hwt hput5
    obtain ⟨e6, rest6, hent6, hhost6, _, _⟩ := Put_head hw5 hput6
    have he5 : e5 ∈ c6.entries := Put_keeps_front hw5 (by rw [hcap5]; norm_num) hent5 hput6
    have he6 : e6 ∈ c6.entries := by rw [hent6]; simp
    have hg5 := (Get_of_mem hw6 he5).1
    have hg6 := (Get_of_mem hw6 he6).1
    rw [hhost5] at hg5
    rw [hhost6] at hg6
    have hst5 : e5.state = HostnamePolluted := by
      rcases hfrom5 with h1 | h1
      · exfalso
        have hm : x ∈ t.pr.cache.hostnames := List.mem_map.2 ⟨e5, h1, hhost5⟩
        have := (Get_found_iff hwt x).2 hm
        rw [habst] at this
        cases this
      · exact h1
    have hcache : ((t.withCache c5).withCache c6).pr.cache = c6 := rfl
    refine ⟨(t.withCache c5).withCache c6, ?_, by rw [hcache, hg5, hst5], by rw [hcache, hg6]⟩
    rw [scanAnswer]
    simp only [if_true, hret, hput5]
    unfold Run.putRet
    have : (t.withCache c5).pr.cache.Put h HostnamePolluted = some c6 := hput6
    rw [this]

theorem C15_failsafe_not_cached_by_itself_witness :
    (CacheOK exampleRun ∧ (exampleRun.pr.cache.Get "u.").2.2 = false ∧
      failedAttempts deadDns exampleRun.pr (deadDns.Fqdn "u.") 4 exampleRun.sent.length
        = some 4 ∧ 5 ≤ 5) ∧
    ((∃ t, Polluted.match_ deadDns 5 exampleRun "u." 0 = .ret true t ∧ t.pr = exampleRun.pr ∧
      (t.pr.cache.Get "u.").2.2 = false ∧
      ∀ (d2 : Dns) (fuel2 : Nat), 1 ≤ fuel2 →
        ∃ rest, (Polluted.IsMatch d2 fuel2 t ⟨"u."⟩).run.sent
          = t.sent ++ ⟨t.pr.honeypotDNS, d2.Fqdn "u."⟩ :: rest) ∧
    (∀ (h : String) (post : List RR), ∃ u,
      scanAnswer (fun t y => Polluted.match_ deadDns 5 t y 0) h
          (⟨TypeCNAME, some "u."⟩ :: post) exampleRun
        = .error (.ret true u) ∧
      (u.pr.cache.Get "u.").2 = (HostnamePolluted, true) ∧
      (u.pr.cache.Get h).2.2 = true)) :=
  ⟨⟨exampleRun_cacheOK, by decide, by decide, by decide⟩,
    C15_failsafe_not_cached_by_itself deadDns exampleRun "u." 4 5 exampleRun_cacheOK
      (by decide) (by decide) (by decide)⟩

/-! ## Counting transport errors -/

theorem putRet_sent (s : Run) (h : String) (st : Int) (b : Bool) :
    (s.putRet h st b).run.sent = s.sent := by
  unfold Run.putRet
  cases s.pr.cache.Put h st <;> rfl

/-! ## Counting attempts -/

theorem errorsIn_append (d : Dns) (qs1 qs2 : List Query) :
    ∀ n, errorsIn d n (qs1 ++ qs2) = errorsIn d n qs1 + errorsIn d (n + qs1.length) qs2 := by
  induction qs1 with
  | nil => intro n; simp [errorsIn]
  | cons q rest ih =>
    intro n
    show errorsIn d n (q :: (rest ++ qs2)) = _
    rw [errorsIn, errorsIn, ih (n + 1), List.length_cons,
      show n + (rest.length + 1) = n + 1 + rest.length by omega]
    omega

theorem cnamesIn_append (d : Dns) (qs1 qs2 : List Query) :
    ∀ n, cnamesIn d n (qs1 ++ qs2) = cnamesIn d n qs1 + cnamesIn d (n + qs1.length) qs2 := by
  induction qs1 with
  | nil => intro n; simp [cnamesIn]
  | cons q rest ih =>
    intro n
    show cnamesIn d n (q :: (rest ++ qs2)) = _
    rw [cnamesIn, cnamesIn, ih (n + 1), List.length_cons,
      show n + (rest.length + 1) = n + 1 + rest.length by omega]
    omega

theorem exchangesTo_append (server : String) (qs1 qs2 : List Query) :
    exchangesTo server (qs1 ++ qs2) = exchangesTo server qs1 + exchangesTo server qs2 := by
  simp [exchangesTo, List.countP_append]

theorem withinBudget_nil (d : Dns) (hp loc : String) (n : Nat) (b : Int) (hb : 0 ≤ b) :
    WithinBudget d hp loc n [] b := by
  refine ⟨?_, ?_, fun _ => ?_⟩ <;> simp [errorsIn, cnamesIn, exchangesTo] <;> omega

theorem withinBudget_mono {d : Dns} {hp loc : String} {n : Nat} {qs : List Query} {b c : Int}
    (h : WithinBudget d hp loc n qs b) (hbc : b ≤ c) : WithinBudget d hp loc n qs c := by
  obtain ⟨h1, h2, h3⟩ := h
  refine ⟨by omega, by omega, fun hne => ?_⟩
  have := h3 hne
  omega

theorem withinBudget_append {d : Dns} {hp loc : String} {n : Nat} {qs1 qs2 : List Query}
    {b1 b2 : Int} (h1 : WithinBudget d hp loc n qs1 b1)
    (h2 : WithinBudget d hp loc (n + qs1.length) qs2 b2) :
    WithinBudget d hp loc n (qs1 ++ qs2) (b1 + b2) := by
  obtain ⟨e1, l1, c1⟩ := h1
  obtain ⟨e2, l2, c2⟩ := h2
  refine ⟨?_, ?_, fun hne => ?_⟩
  · rw [errorsIn_append, cnamesIn_append]
    push_cast
    omega
  · rw [List.length_append, cnamesIn_append]
    push_cast
    omega
  · have := c1 hne
    have := c2 hne
    rw [exchangesTo_append, cnamesIn_append]
    push_cast
    omega

/-- One honeypot exchange is within one attempt. -/
theorem withinBudget_probe1 (d : Dns) (hp loc name : String) (n : Nat) :
    WithinBudget d hp loc n [⟨hp, name⟩] 1 := by
  refine ⟨?_, ?_, fun _ => ?_⟩
  · simp only [errorsIn, cnamesIn]
    split <;> push_cast <;> omega
  · simp only [List.length_singleton, cnamesIn]
    push_cast
    omega
  · simp only [exchangesTo, cnamesIn, List.countP_cons, List.countP_nil, decide_True, if_true]
    push_cast
    omega

/-- A honeypot exchange that returns a message and the local exchange after it
are within one attempt, less four for each CNAME record of the local answer
when it is a message. -/
theorem withinBudget_probe2 (d : Dns) (hp loc name : String) (n : Nat) (a : Msg)
    (hx : d.Exchange n name hp = .msg a) :
    WithinBudget d hp loc n [⟨hp, name⟩, ⟨loc, name⟩]
      (1 - 4 * (match d.Exchange (n + 1) name loc with
        | .msg a2 => (cnameCount a2.Answer : Int)
        | _ => 0)) := by
  refine ⟨?_, ?_, fun hne => ?_⟩
  · simp only [errorsIn, cnamesIn, hx]
    cases d.Exchange (n + 1) name loc <;> simp
    all_goals omega
  · simp only [List.length_cons, List.length_nil, cnamesIn, hx]
    cases d.Exchange (n + 1) name loc <;> simp
    all_goals omega
  · have hne2 : ¬ loc = hp := fun h => hne h.symm
    simp only [exchangesTo, cnamesIn, hx, List.countP_cons, List.countP_nil, decide_True,
      if_true, hne2, decide_False]
    cases d.Exchange (n + 1) name loc <;> simp
    all_goals omega

theorem endpoints_stable (hp loc : String) :
    Stable (fun u => u.pr.honeypotDNS = hp ∧ u.pr.localDNS = loc) :=
  ⟨fun _ _ hs => hs, fun _ _ _ _ hs _ _ => hs, fun _ _ _ hs => hs⟩

theorem cnameCount_cons_cname (rr : RR) (rest : List RR) (h : rr.Rrtype = TypeCNAME) :
    cnameCount (rr :: rest) = cnameCount rest + 1 := by
  simp [cnameCount, List.countP_cons, h]

theorem cnameCount_cons_other (rr : RR) (rest : List RR) (h : ¬ rr.Rrtype = TypeCNAME) :
    cnameCount (rr :: rest) = cnameCount rest := by
  simp [cnameCount, List.countP_cons, h]

/-- A scan stays within four attempts for each CNAME record it holds, plus four
for each CNAME record received meanwhile, when each classification of a target
stays within four attempts. -/
theorem scanAnswer_counts (d : Dns) (hp loc : String) (classify : Run → String → Outcome)
    (hostname : String)
    (hcl : ∀ u t, u.pr.honeypotDNS = hp ∧ u.pr.localDNS = loc →
      ((classify u t).run.pr.honeypotDNS = hp ∧ (classify u t).run.pr.localDNS = loc) ∧
      ∃ qs, (classify u t).run.sent = u.sent ++ qs ∧
        WithinBudget d hp loc u.sent.length qs 4) :
    ∀ (rrs : List RR) (s : Run), s.pr.honeypotDNS = hp ∧ s.pr.localDNS = loc →
      ∃ qs, (scanEnd (scanAnswer classify hostname rrs s)).sent = s.sent ++ qs ∧
        WithinBudget d hp loc s.sent.length qs (4 * cnameCount rrs) := by
  intro rrs
  induction rrs with
  | nil =>
    intro s _
    exact ⟨[], by simp [scanAnswer, scanEnd], withinBudget_nil d hp loc _ _ (by simp [cnameCount])⟩
  | cons rr rest ih =>
    intro s hs
    rw [scanAnswer]
    split
    · rename_i hty
      have hcount : (4 * (cnameCount (rr :: rest) : Int)) = 4 + 4 * cnameCount rest := by
        rw [cnameCount_cons_cname rr rest hty]
        push_cast
        ring
      have hnonneg : (0 : Int) ≤ 4 * cnameCount rest := by positivity
      cases hcn : rr.cname with
      | none =>
        exact ⟨[], by simp [scanEnd, Outcome.run],
          withinBudget_nil d hp loc _ _ (by rw [hcount]; omega)⟩
      | some target =>
        simp only
        obtain ⟨hcfg, qs1, hq1, hw1⟩ := hcl s target hs
        have hw1' : WithinBudget d hp loc s.sent.length qs1 (4 * cnameCount (rr :: rest)) :=
          withinBudget_mono hw1 (by rw [hcount]; omega)
        cases hres : classify s target with
        | ret b s1 =>
          rw [hres] at hcfg hq1
          simp only [Outcome.run] at hcfg hq1
          cases b with
          | true =>
            simp only
            cases hp1 : s1.pr.cache.Put target HostnamePolluted with
            | none => exact ⟨qs1, hq1, hw1'⟩
            | some c =>
              refine ⟨qs1, ?_, hw1'⟩
              simp only [scanEnd]
              rw [putRet_sent]
              exact hq1
          | false =>
            simp only
            cases hp1 : s1.pr.cache.Put target HostnameClean with
            | none => exact ⟨qs1, hq1, hw1'⟩
            | some c =>
              obtain ⟨qs2, hq2, hw2⟩ := ih (s1.withCache c) hcfg
              have hsent : (s1.withCache c).sent = s.sent ++ qs1 := hq1
              rw [hsent] at hq2 hw2
              rw [List.length_append] at hw2
              refine ⟨qs1 ++ qs2, ?_, ?_⟩
              · rw [hq2, List.append_assoc]
              · rw [hcount]
                exact withinBudget_append hw1 hw2
        | abort s1 =>
          rw [hres] at hq1
          exact ⟨qs1, hq1, hw1'⟩
        | outOfFuel s1 =>
          rw [hres] at hq1
          exact ⟨qs1, hq1, hw1'⟩
    · rename_i hty
      rw [cnameCount_cons_other rr rest hty]
      exact ih s hs

/-- A call of `match` at retry count `r` stays within `4 - r` attempts, plus four
for each CNAME record received. -/
theorem match_counts (d : Dns) (hp loc : String) :
    ∀ (fuel : Nat) (s : Run) (h : String) (r : Int),
      s.pr.honeypotDNS = hp ∧ s.pr.localDNS = loc →
      ∃ qs, (Polluted.match_ d fuel s h r).run.sent = s.sent ++ qs ∧
        WithinBudget d hp loc s.sent.length qs (max 0 (4 - r)) := by
  intro fuel
  induction fuel with
  | zero =>
    intro s h r _
    exact ⟨[], by simp [Polluted.match_, Outcome.run],
      withinBudget_nil d hp loc _ _ (le_max_left _ _)⟩
  | succ fuel ih =>
    intro s h r hs
    rw [Polluted.match_]
    split
    · exact ⟨[], by simp [Outcome.run], withinBudget_nil d hp loc _ _ (le_max_left _ _)⟩
    · rename_i hr
      have hbudget : (1 : Int) + max 0 (4 - (r + 1)) ≤ max 0 (4 - r) := by
        have h1 : max 0 (4 - (r + 1)) ≤ 3 - r := by apply max_le <;> omega
        have h2 : 4 - r ≤ max 0 (4 - r) := le_max_right _ _
        omega
      have hone : (1 : Int) ≤ max 0 (4 - r) := by
        have h2 : 4 - r ≤ max 0 (4 - r) := le_max_right _ _
        omega
      simp only
      split
      · exact ⟨[], by simp [Outcome.run, Run.withCache],
          withinBudget_nil d hp loc _ _ (le_max_left _ _)⟩
      · have hs0 : (s.withCache (s.pr.cache.Get h).1).sent = s.sent := rfl
        have hc0 : (s.withCache (s.pr.cache.Get h).1).pr.honeypotDNS = hp ∧
            (s.withCache (s.pr.cache.Get h).1).pr.localDNS = loc := hs
        generalize s.withCache (s.pr.cache.Get h).1 = s0 at hs0 hc0 ⊢
        rw [hc0.1]
        have hs1 : (s0.send (d.Fqdn h) hp).sent = s.sent ++ [⟨hp, d.Fqdn h⟩] := by
          simp [Run.send, hs0]
        have hc1 : (s0.send (d.Fqdn h) hp).pr.honeypotDNS = hp ∧
            (s0.send (d.Fqdn h) hp).pr.localDNS = loc := hc0
        have hlen1 : (s0.send (d.Fqdn h) hp).sent.length = s.sent.length + 1 := by
          rw [hs1]; simp
        have hx0 : s0.exchange d (d.Fqdn h) hp = d.Exchange s.sent.length (d.Fqdn h) hp := by
          unfold Run.exchange
          rw [hs0]
        rw [hx0]
        have hw1 := withinBudget_probe1 d hp loc (d.Fqdn h) s.sent.length
        generalize s0.send (d.Fqdn h) hp = s1 at hs1 hc1 hlen1 ⊢
        split
        · obtain ⟨qs, hq1, hq2⟩ := ih s1 h (r + 1) hc1
          rw [hlen1] at hq2
          refine ⟨[⟨hp, d.Fqdn h⟩] ++ qs, ?_, ?_⟩
          · rw [hq1, hs1, List.append_assoc]
          · exact withinBudget_mono (withinBudget_append hw1 hq2) hbudget
        · exact ⟨[⟨hp, d.Fqdn h⟩], by simp [Outcome.run, hs1], withinBudget_mono hw1 hone⟩
        · rename_i answer hx
          split
          · exact ⟨[⟨hp, d.Fqdn h⟩], by rw [putRet_sent, hs1], withinBudget_mono hw1 hone⟩
          · rw [hc1.2]
            have hs2 : (s1.send (d.Fqdn h) loc).sent
                = s.sent ++ [⟨hp, d.Fqdn h⟩, ⟨loc, d.Fqdn h⟩] := by
              simp [Run.send, hs1]
            have hc2 : (s1.send (d.Fqdn h) loc).pr.honeypotDNS = hp ∧
                (s1.send (d.Fqdn h) loc).pr.localDNS = loc := hc1
            have hlen2 : (s1.send (d.Fqdn h) loc).sent.length = s.sent.length + 2 := by
              rw [hs2]; simp
            have hy0 : s1.exchange d (d.Fqdn h) loc
                = d.Exchange (s.sent.length + 1) (d.Fqdn h) loc := by
              unfold Run.exchange
              rw [hlen1]
            rw [hy0]
            have hw2 := withinBudget_probe2 d hp loc (d.Fqdn h) s.sent.length answer hx
            generalize s1.send (d.Fqdn h) loc = s2 at hs2 hc2 hlen2 ⊢
            split
            · rename_i hy
              rw [hy] at hw2
              simp only [mul_zero, sub_zero] at hw2
              obtain ⟨qs, hq1, hq2⟩ := ih s2 h (r + 1) hc2
              rw [hlen2] at hq2
              refine ⟨[⟨hp, d.Fqdn h⟩, ⟨loc, d.Fqdn h⟩] ++ qs, ?_, ?_⟩
              · rw [hq1, hs2, List.append_assoc]
              · exact withinBudget_mono (withinBudget_append hw2 hq2) hbudget
            · rename_i hy
              rw [hy] at hw2
              simp only [mul_zero, sub_zero] at hw2
              exact ⟨[⟨hp, d.Fqdn h⟩, ⟨loc, d.Fqdn h⟩], by rw [putRet_sent, hs2],
                withinBudget_mono hw2 hone⟩
            · rename_i answer2 hy
              rw [hy] at hw2
              simp only at hw2
              obtain ⟨qs, hq1, hq2⟩ := scanAnswer_counts d hp loc
                (fun t target => Polluted.match_ d fuel t target 0) h
                (fun u t hu => ⟨match_stable d (endpoints_stable hp loc) fuel u t 0 hu, by
                  have := ih u t 0 hu
                  simpa using this⟩)
                answer2.Answer s2 hc2
              rw [hlen2] at hq2
              have hall : WithinBudget d hp loc s.sent.length
                  ([⟨hp, d.Fqdn h⟩, ⟨loc, d.Fqdn h⟩] ++ qs) (max 0 (4 - r)) := by
                have := withinBudget_append hw2 hq2
                exact withinBudget_mono this (by omega)
              refine ⟨[⟨hp, d.Fqdn h⟩, ⟨loc, d.Fqdn h⟩] ++ qs, ?_, hall⟩
              split
              · rename_i o heq
                rw [heq] at hq1
                simp only [scanEnd] at hq1
                rw [hq1, hs2, List.append_assoc]
              · rename_i s3 heq
                rw [heq] at hq1
                simp only [scanEnd] at hq1
                rw [putRet_sent, hq1, hs2, List.append_assoc]

/-! ## Counting attempts by question name -/

theorem attemptsFor_append (hp name : String) (qs1 qs2 : List Query) :
    attemptsFor hp name (qs1 ++ qs2) = attemptsFor hp name qs1 + attemptsFor hp name qs2 := by
  simp [attemptsFor, List.countP_append]

theorem targetsIn_append (d : Dns) (loc name : String) (qs1 qs2 : List Query) :
    ∀ n, targetsIn d loc name n (qs1 ++ qs2)
      = targetsIn d loc name n qs1 + targetsIn d loc name (n + qs1.length) qs2 := by
  induction qs1 with
  | nil => intro n; simp [targetsIn]
  | cons q rest ih =>
    intro n
    show targetsIn d loc name n (q :: (rest ++ qs2)) = _
    rw [targetsIn, targetsIn, ih (n + 1), List.length_cons,
      show n + (rest.length + 1) = n + 1 + rest.length by omega]
    omega

theorem errorsFor_append (d : Dns) (name : String) (qs1 qs2 : List Query) :
    ∀ n, errorsFor d name n (qs1 ++ qs2)
      = errorsFor d name n qs1 + errorsFor d name (n + qs1.length) qs2 := by
  induction qs1 with
  | nil => intro n; simp [errorsFor]
  | cons q rest ih =>
    intro n
    show errorsFor d name n (q :: (rest ++ qs2)) = _
    rw [errorsFor, errorsFor, ih (n + 1), List.length_cons,
      show n + (rest.length + 1) = n + 1 + rest.length by omega]
    omega

theorem attemptsWithin_nil (d : Dns) (hp loc name : String) (n : Nat) (b : Int) (hb : 0 ≤ b) :
    AttemptsWithin d hp loc name n [] b := by
  unfold AttemptsWithin
  simp only [attemptsFor, List.countP_nil, targetsIn, errorsFor]
  constructor
  · split <;> push_cast <;> omega
  · push_cast
    omega

theorem attemptsWithin_mono {d : Dns} {hp loc name : String} {n : Nat} {qs : List Query}
    {b b2 : Int} (h : AttemptsWithin d hp loc name n qs b) (hb : b ≤ b2) :
    AttemptsWithin d hp loc name n qs b2 := by
  unfold AttemptsWithin at h ⊢
  obtain ⟨h, he⟩ := h
  refine ⟨?_, by omega⟩
  by_cases hl : hp = loc
  · subst hl
    simp only [eq_self_iff_true, if_true] at h ⊢
    omega
  · simp only [hl, if_false] at h ⊢
    omega

theorem attemptsWithin_append {d : Dns} {hp loc name : String} {n : Nat}
    {qs1 qs2 : List Query} {b1 b2 : Int}
    (h1 : AttemptsWithin d hp loc name n qs1 b1)
    (h2 : AttemptsWithin d hp loc name (n + qs1.length) qs2 b2) :
    AttemptsWithin d hp loc name n (qs1 ++ qs2) (b1 + b2) := by
  unfold AttemptsWithin at h1 h2 ⊢
  obtain ⟨h1, he1⟩ := h1
  obtain ⟨h2, he2⟩ := h2
  rw [attemptsFor_append, targetsIn_append, errorsFor_append]
  push_cast
  refine ⟨?_, by omega⟩
  by_cases hl : hp = loc
  · subst hl
    simp only [eq_self_iff_true, if_true] at h1 h2 ⊢
    omega
  · simp only [hl, if_false] at h1 h2 ⊢
    omega

/-- A lone honeypot exchange for `fq` is one attempt for `fq`. -/
theorem attemptsWithin_probe1 (d : Dns) (hp loc name fq : String) (n : Nat) :
    AttemptsWithin d hp loc name n [⟨hp, fq⟩] (if fq = name then 1 else 0) := by
  unfold AttemptsWithin
  have hT : (0 : Int) ≤ targetsIn d loc name n [⟨hp, fq⟩] := by positivity
  generalize (targetsIn d loc name n [⟨hp, fq⟩] : Int) = T at hT ⊢
  simp only [attemptsFor, errorsFor, List.countP_cons, List.countP_nil, decide_True,
    Bool.true_and]
  constructor
  · by_cases hn : fq = name <;> by_cases hl : hp = loc <;> simp [hn, hl] <;> omega
  · by_cases hn : fq = name <;> by_cases he : d.Exchange n fq hp = .err <;> simp [hn, he] <;>
      omega

/-- A honeypot exchange for `fq` that returns a message and the local exchange
after it are one attempt for `fq`, less four for each CNAME record for `name`
in the local answer. -/
theorem attemptsWithin_probe2 (d : Dns) (hp loc name fq : String) (n : Nat) (a : Msg)
    (hx : d.Exchange n fq hp = .msg a) :
    AttemptsWithin d hp loc name n [⟨hp, fq⟩, ⟨loc, fq⟩]
      ((if fq = name then 1 else 0) - 4 * (match d.Exchange (n + 1) fq loc with
        | .msg a2 => (targetCount d.Fqdn name a2.Answer : Int)
        | _ => 0)) := by
  unfold AttemptsWithin
  by_cases hl : hp = loc
  · subst hl
    simp only [attemptsFor, targetsIn, errorsFor, hx, List.countP_cons, List.countP_nil,
      decide_True, Bool.true_and, if_true, reduceCtorEq, and_false, if_false]
    by_cases hn : fq = name <;> cases d.Exchange (n + 1) fq hp <;> simp [hn]
    all_goals omega
  · have hl2 : ¬ loc = hp := fun h => hl h.symm
    simp only [attemptsFor, targetsIn, errorsFor, hx, List.countP_cons, List.countP_nil,
      decide_True, Bool.true_and, if_true, hl, hl2, if_false, decide_False, Bool.false_and,
      reduceCtorEq, and_false]
    by_cases hn : fq = name <;> cases d.Exchange (n + 1) fq loc <;> simp [hn]

theorem targetCount_cons_target (fqdn : String → String) (name : String) (rr : RR)
    (rest : List RR) (target : String) (h : rr.Rrtype = TypeCNAME)
    (hcn : rr.cname = some target) :
    targetCount fqdn name (rr :: rest)
      = targetCount fqdn name rest + (if fqdn target = name then 1 else 0) := by
  simp [targetCount, List.countP_cons, h, hcn]

theorem targetCount_cons_other (fqdn : String → String) (name : String) (rr : RR)
    (rest : List RR) (h : ¬ rr.Rrtype = TypeCNAME) :
    targetCount fqdn name (rr :: rest) = targetCount fqdn name rest := by
  simp [targetCount, List.countP_cons, h]

/-- A scan sends the honeypot endpoint the question `name` at most four times
for each CNAME record for `name` it holds, plus four times for each one
received meanwhile. -/
theorem scanAnswer_attempts (d : Dns) (hp loc name : String)
    (classify : Run → String → Outcome) (hostname : String)
    (hcl : ∀ u t, u.pr.honeypotDNS = hp ∧ u.pr.localDNS = loc →
      ((classify u t).run.pr.honeypotDNS = hp ∧ (classify u t).run.pr.localDNS = loc) ∧
      ∃ qs, (classify u t).run.sent = u.sent ++ qs ∧
        AttemptsWithin d hp loc name u.sent.length qs (if d.Fqdn t = name then 4 else 0)) :
    ∀ (rrs : List RR) (s : Run), s.pr.honeypotDNS = hp ∧ s.pr.localDNS = loc →
      ∃ qs, (scanEnd (scanAnswer classify hostname rrs s)).sent = s.sent ++ qs ∧
        AttemptsWithin d hp loc name s.sent.length qs (4 * targetCount d.Fqdn name rrs) := by
  intro rrs
  induction rrs with
  | nil =>
    intro s _
    exact ⟨[], by simp [scanAnswer, scanEnd],
      attemptsWithin_nil d hp loc name _ _ (by simp [targetCount])⟩
  | cons rr rest ih =>
    intro s hs
    have hnonneg : (0 : Int) ≤ 4 * targetCount d.Fqdn name rest := by positivity
    rw [scanAnswer]
    split
    · rename_i hty
      cases hcn : rr.cname with
      | none =>
        exact ⟨[], by simp [scanEnd, Outcome.run],
          attemptsWithin_nil d hp loc name _ _ (by positivity)⟩
      | some target =>
        simp only
        have hcount : (4 * (targetCount d.Fqdn name (rr :: rest) : Int))
            = (if d.Fqdn target = name then 4 else 0) + 4 * targetCount d.Fqdn name rest := by
          rw [targetCount_cons_target d.Fqdn name rr rest target hty hcn]
          split <;> push_cast <;> ring
        obtain ⟨hcfg, qs1, hq1, hw1⟩ := hcl s target hs
        have hw1' : AttemptsWithin d hp loc name s.sent.length qs1
            (4 * targetCount d.Fqdn name (rr :: rest)) :=
          attemptsWithin_mono hw1 (by rw [hcount]; omega)
        cases hres : classify s target with
        | ret b s1 =>
          rw [hres] at hcfg hq1
          simp only [Outcome.run] at hcfg hq1
          cases b with
          | true =>
            simp only
            cases hp1 : s1.pr.cache.Put target HostnamePolluted with
            | none => exact ⟨qs1, hq1, hw1'⟩
            | some c =>
              refine ⟨qs1, ?_, hw1'⟩
              simp only [scanEnd]
              rw [putRet_sent]
              exact hq1
          | false =>
            simp only
            cases hp1 : s1.pr.cache.Put target HostnameClean with
            | none => exact ⟨qs1, hq1, hw1'⟩
            | some c =>
              obtain ⟨qs2, hq2, hw2⟩ := ih (s1.withCache c) hcfg
              have hsent : (s1.withCache c).sent = s.sent ++ qs1 := hq1
              rw [hsent] at hq2 hw2
              rw [List.length_append] at hw2
              refine ⟨qs1 ++ qs2, ?_, ?_⟩
              · rw [hq2, List.append_assoc]
              · rw [hcount]
                exact attemptsWithin_append hw1 hw2
        | abort s1 =>
          rw [hres] at hq1
          exact ⟨qs1, hq1, hw1'⟩
        | outOfFuel s1 =>
          rw [hres] at hq1
          exact ⟨qs1, hq1, hw1'⟩
    · rename_i hty
      rw [targetCount_cons_other d.Fqdn name rr rest hty]
      exact ih s hs

/-- A call of `match` for `h` at retry count `r` sends the honeypot endpoint the
question `name` at most `4 - r` times when `name` is the question name of
`h`, plus four times for each CNAME record for `name` received. -/
theorem match_attempts (d : Dns) (hp loc name : String) :
    ∀ (fuel : Nat) (s : Run) (h : String) (r : Int),
      s.pr.honeypotDNS = hp ∧ s.pr.localDNS = loc →
      ∃ qs, (Polluted.match_ d fuel s h r).run.sent = s.sent ++ qs ∧
        AttemptsWithin d hp loc name s.sent.length qs
          (if d.Fqdn h = name then max 0 (4 - r) else 0) := by
  intro fuel
  induction fuel with
  | zero =>
    intro s h r _
    exact ⟨[], by simp [Polluted.match_, Outcome.run],
      attemptsWithin_nil d hp loc name _ _ (by split <;> simp)⟩
  | succ fuel ih =>
    intro s h r hs
    have hzero : (0 : Int) ≤ (if d.Fqdn h = name then max 0 (4 - r) else 0) := by
      split <;> simp
    rw [Polluted.match_]
    split
    · exact ⟨[], by simp [Outcome.run], attemptsWithin_nil d hp loc name _ _ hzero⟩
    · rename_i hr
      have hbudget : (if d.Fqdn h = name then (1 : Int) else 0)
          + (if d.Fqdn h = name then max 0 (4 - (r + 1)) else 0)
          ≤ (if d.Fqdn h = name then max 0 (4 - r) else 0) := by
        have h1 : max 0 (4 - (r + 1)) ≤ 3 - r := by apply max_le <;> omega
        have h2 : 4 - r ≤ max 0 (4 - r) := le_max_right _ _
        split <;> omega
      have hone : (if d.Fqdn h = name then (1 : Int) else 0)
          ≤ (if d.Fqdn h = name then max 0 (4 - r) else 0) := by
        have h2 : 4 - r ≤ max 0 (4 - r) := le_max_right _ _
        split <;> omega
      simp only
      split
      · exact ⟨[], by simp [Outcome.run, Run.withCache],
          attemptsWithin_nil d hp loc name _ _ hzero⟩
      · have hs0 : (s.withCache (s.pr.cache.Get h).1).sent = s.sent := rfl
        have hc0 : (s.withCache (s.pr.cache.Get h).1).pr.honeypotDNS = hp ∧
            (s.withCache (s.pr.cache.Get h).1).pr.localDNS = loc := hs
        generalize s.withCache (s.pr.cache.Get h).1 = s0 at hs0 hc0 ⊢
        rw [hc0.1]
        have hs1 : (s0.send (d.Fqdn h) hp).sent = s.sent ++ [⟨hp, d.Fqdn h⟩] := by
          simp [Run.send, hs0]
        have hc1 : (s0.send (d.Fqdn h) hp).pr.honeypotDNS = hp ∧
            (s0.send (d.Fqdn h) hp).pr.localDNS = loc := hc0
        have hlen1 : (s0.send (d.Fqdn h) hp).sent.length = s.sent.length + 1 := by
          rw [hs1]; simp
        have hx0 : s0.exchange d (d.Fqdn h) hp = d.Exchange s.sent.length (d.Fqdn h) hp := by
          unfold Run.exchange
          rw [hs0]
        rw [hx0]
        have hw1 := attemptsWithin_probe1 d hp loc name (d.Fqdn h) s.sent.length
        generalize s0.send (d.Fqdn h) hp = s1 at hs1 hc1 hlen1 ⊢
        split
        · obtain ⟨qs, hq1, hq2⟩ := ih s1 h (r + 1) hc1
          rw [hlen1] at hq2
          refine ⟨[⟨hp, d.Fqdn h⟩] ++ qs, ?_, ?_⟩
          · rw [hq1, hs1, List.append_assoc]
          · exact attemptsWithin_mono (attemptsWithin_append hw1 hq2) hbudget
        · exact ⟨[⟨hp, d.Fqdn h⟩], by simp [Outcome.run, hs1], attemptsWithin_mono hw1 hone⟩
        · rename_i answer hx
          split
          · exact ⟨[⟨hp, d.Fqdn h⟩], by rw [putRet_sent, hs1], attemptsWithin_mono hw1 hone⟩
          · rw [hc1.2]
            have hs2 : (s1.send (d.Fqdn h) loc).sent
                = s.sent ++ [⟨hp, d.Fqdn h⟩, ⟨loc, d.Fqdn h⟩] := by
              simp [Run.send, hs1]
            have hc2 : (s1.send (d.Fqdn h) loc).pr.honeypotDNS = hp ∧
                (s1.send (d.Fqdn h) loc).pr.localDNS = loc := hc1
            have hlen2 : (s1.send (d.Fqdn h) loc).sent.length = s.sent.length + 2 := by
              rw [hs2]; simp
            have hy0 : s1.exchange d (d.Fqdn h) loc
                = d.Exchange (s.sent.length + 1) (d.Fqdn h) loc := by
              unfold Run.exchange
              rw [hlen1]
            rw [hy0]
            have hw2 := attemptsWithin_probe2 d hp loc name (d.Fqdn h) s.sent.length answer hx
            generalize s1.send (d.Fqdn h) loc = s2 at hs2 hc2 hlen2 ⊢
            split
            · rename_i hy
              rw [hy] at hw2
              simp only [mul_zero, sub_zero] at hw2
              obtain ⟨qs, hq1, hq2⟩ := ih s2 h (r + 1) hc2
              rw [hlen2] at hq2
              refine ⟨[⟨hp, d.Fqdn h⟩, ⟨loc, d.Fqdn h⟩] ++ qs, ?_, ?_⟩
              · rw [hq1, hs2, List.append_assoc]
              · exact attemptsWithin_mono (attemptsWithin_append hw2 hq2) hbudget
            · rename_i hy
              rw [hy] at hw2
              simp only [mul_zero, sub_zero] at hw2
              exact ⟨[⟨hp, d.Fqdn h⟩, ⟨loc, d.Fqdn h⟩], by rw [putRet_sent, hs2],
                attemptsWithin_mono hw2 hone⟩
            · rename_i answer2 hy
              rw [hy] at hw2
              simp only at hw2
              obtain ⟨qs, hq1, hq2⟩ := scanAnswer_attempts d hp loc name
                (fun t target => Polluted.match_ d fuel t target 0) h
                (fun u t hu => ⟨match_stable d (endpoints_stable hp loc) fuel u t 0 hu, by
                  have := ih u t 0 hu
                  simpa using this⟩)
                answer2.Answer s2 hc2
              rw [hlen2] at hq2
              have hall : AttemptsWithin d hp loc name s.sent.length
                  ([⟨hp, d.Fqdn h⟩, ⟨loc, d.Fqdn h⟩] ++ qs)
                  (if d.Fqdn h = name then max 0 (4 - r) else 0) := by
                have := attemptsWithin_append hw2 hq2
                exact attemptsWithin_mono this (by omega)
              refine ⟨[⟨hp, d.Fqdn h⟩, ⟨loc, d.Fqdn h⟩] ++ qs, ?_, ?_⟩
              · split
                · rename_i o heq
                  rw [heq] at hq1
                  simp only [scanEnd] at hq1
                  rw [hq1, hs2, List.append_assoc]
                · rename_i s3 heq
                  rw [heq] at hq1
                  simp only [scanEnd] at hq1
                  rw [putRet_sent, hq1, hs2, List.append_assoc]
              · exact hall

/-- C16 as stated fails. From the initial run of `exampleRule`: three attempts for
`h.` end in transport errors at the honeypot probe, the fourth one gets an
empty honeypot answer and a local answer with a CNAME record for `u.`, and
the four attempts for `u.` (retry count back at 0) all end in transport
errors. The call returns polluted; seven of its nine exchanges ended in a
transport error. -/
theorem C16_counterexample :
    (Polluted.IsMatch retryThenTargetDns 9 exampleRun ⟨"h."⟩).result = some true ∧
    (Polluted.IsMatch retryThenTargetDns 9 exampleRun ⟨"h."⟩).run.sent.length = 9 ∧
    errorsIn retryThenTargetDns 0
      (Polluted.IsMatch retryThenTargetDns 9 exampleRun ⟨"h."⟩).run.sent = 7 := by
  refine ⟨by decide, by decide, by decide⟩

/-- C16 (amended): retry bound per classification. During one `IsMatch` call,
for every resolver and whatever the answers contain, the number of exchanges
that end in a transport error is at most 4 for the hostname of the call plus
4 for each CNAME record received in an answer: the classification of a CNAME
target starts again at retry count 0 and has its own 4 attempts. Name by
name: the exchanges with the question `name` that end in a transport error
are at most 4 when `name` is the question name of the hostname of the call,
plus 4 for each CNAME record for `name` received from the local endpoint. -/
theorem C16_retry_bound_per_classification (d : Dns) (fuel : Nat) (s : Run)
    (metadata : Metadata) :
    ∃ qs, (Polluted.IsMatch d fuel s metadata).run.sent = s.sent ++ qs ∧
      errorsIn d s.sent.length qs ≤ 4 + 4 * cnamesIn d s.sent.length qs ∧
      ∀ name, errorsFor d name s.sent.length qs ≤
        (if d.Fqdn metadata.Host = name then 4 else 0)
          + 4 * targetsIn d s.pr.localDNS name s.sent.length qs := by
  obtain ⟨qs, h1, h2, _⟩ := match_counts d s.pr.honeypotDNS s.pr.localDNS fuel s
    metadata.Host 0 ⟨rfl, rfl⟩
  refine ⟨qs, h1, ?_, fun name => ?_⟩
  · have h3 : max (0 : Int) (4 - 0) = 4 := by norm_num
    rw [h3] at h2
    exact_mod_cast h2
  · obtain ⟨qs2, h4, _, h5⟩ := match_attempts d s.pr.honeypotDNS s.pr.localDNS name fuel s
      metadata.Host 0 ⟨rfl, rfl⟩
    have hqs : qs2 = qs := by
      rw [h1] at h4
      exact (List.append_cancel_left h4).symm
    rw [hqs] at h5
    have h3 : max (0 : Int) (4 - 0) = 4 := by norm_num
    rw [h3] at h5
    by_cases hn : d.Fqdn metadata.Host = name
    · simp only [hn, if_true] at h5 ⊢
      exact_mod_cast h5
    · simp only [hn, if_false] at h5 ⊢
      exact_mod_cast h5
/-! ## Termination -/

theorem putRet_finished (s : Run) (h : String) (st : Int) (b : Bool) :
    (s.putRet h st b).finished = true := by
  unfold Run.putRet
  cases s.pr.cache.Put h st <;> rfl

theorem localDNS_stable (loc : String) : Stable (fun u => u.pr.localDNS = loc) :=
  ⟨fun _ _ hs => hs, fun _ _ _ _ hs _ _ => hs, fun _ _ _ hs => hs⟩

/-- A scan ends otherwise than by lack of fuel when the classification of each
of its CNAME targets does. -/
theorem scanAnswer_finished (classify : Run → String → Outcome) (loc hostname : String)
    (hkeep : ∀ u t, u.pr.localDNS = loc → (classify u t).run.pr.localDNS = loc) :
    ∀ (rrs : List RR),
      (∀ rr ∈ rrs, rr.Rrtype = TypeCNAME → ∀ t, rr.cname = some t →
        ∀ u : Run, u.pr.localDNS = loc → (classify u t).finished = true) →
      ∀ s : Run, s.pr.localDNS = loc →
        ∀ o, scanAnswer classify hostname rrs s = .error o → o.finished = true := by
  intro rrs
  induction rrs with
  | nil => intro _ s _ o h; cases h
  | cons rr rest ih =>
    intro hfin s hs o h
    have ihr := ih (fun x hx => hfin x (List.mem_cons_of_mem _ hx))
    rw [scanAnswer] at h
    split at h
    · rename_i hty
      cases hcn : rr.cname with
      | none =>
        rw [hcn] at h
        cases h
        rfl
      | some target =>
        rw [hcn] at h
        simp only at h
        have hf := hfin rr (by simp) hty target hcn s hs
        have hk := hkeep s target hs
        cases hcl : classify s target with
        | ret b s1 =>
          rw [hcl] at h hk
          cases b with
          | true =>
            simp only at h
            cases hp : s1.pr.cache.Put target HostnamePolluted with
            | none => rw [hp] at h; cases h; rfl
            | some c =>
              rw [hp] at h
              cases h
              exact putRet_finished _ _ _ _
          | false =>
            simp only at h
            cases hp : s1.pr.cache.Put target HostnameClean with
            | none => rw [hp] at h; cases h; rfl
            | some c =>
              rw [hp] at h
              exact ihr (s1.withCache c) hk o h
        | abort s1 => rw [hcl] at h; cases h; rfl
        | outOfFuel s1 =>
          rw [hcl] at hf
          cases hf
    · exact ihr s hs o h

/-- With fuel `M` enough for each CNAME target of `h`, fuel `M + k`, and at
least `k + 1`, is enough for `h` at a retry count from which `k` more
attempts reach the bound: the last attempt is `k` calls deep and the call
that meets the bound `k + 1`. -/
theorem match_finishes_step (d : Dns) (loc h : String) (hdet : Deterministic d) (M : Nat)
    (htargets : ∀ t, cnameTarget d loc t h → ∀ fuel, M ≤ fuel → ∀ s : Run,
      s.pr.localDNS = loc → (Polluted.match_ d fuel s t 0).finished = true) :
    ∀ (k fuel : Nat) (s : Run) (r : Int), M + k ≤ fuel → k + 1 ≤ fuel → 4 ≤ r + k →
      s.pr.localDNS = loc → (Polluted.match_ d fuel s h r).finished = true := by
  intro k
  induction k with
  | zero =>
    intro fuel s r _ hfuel hr _
    obtain ⟨f, rfl⟩ : ∃ f, fuel = f + 1 := ⟨fuel - 1, by omega⟩
    have hgt : r > 3 := by push_cast at hr; omega
    rw [Polluted.match_, if_pos hgt]
    rfl
  | succ k ih =>
    intro fuel s r hfuel hfuel1 hr hs
    obtain ⟨f, rfl⟩ : ∃ f, fuel = f + 1 := ⟨fuel - 1, by omega⟩
    have hf : M + k ≤ f := by omega
    have hf1 : k + 1 ≤ f := by omega
    have hr1 : 4 ≤ (r + 1) + k := by push_cast at hr; omega
    rw [Polluted.match_]
    split
    · rfl
    · simp only
      split
      · rfl
      · have hs0 : (s.withCache (s.pr.cache.Get h).1).pr.localDNS = loc := hs
        generalize s.withCache (s.pr.cache.Get h).1 = s0 at hs0 ⊢
        have hs1 : (s0.send (d.Fqdn h) s0.pr.honeypotDNS).pr.localDNS = loc := hs0
        split
        · exact ih f _ (r + 1) hf hf1 hr1 hs1
        · rfl
        · split
          · exact putRet_finished _ _ _ _
          · generalize s0.send (d.Fqdn h) s0.pr.honeypotDNS = s1 at hs1 ⊢
            have hs2 : (s1.send (d.Fqdn h) s1.pr.localDNS).pr.localDNS = loc := hs1
            split
            · exact ih f _ (r + 1) hf hf1 hr1 hs2
            · exact putRet_finished _ _ _ _
            · rename_i answer2 hy
              unfold Run.exchange at hy
              rw [hdet, hs1] at hy
              have hscan := scanAnswer_finished
                (fun t target => Polluted.match_ d f t target 0) loc h
                (fun u t hu => match_stable d (localDNS_stable loc) f u t 0 hu)
                answer2.Answer
                (fun rr hrr hty t hcn u hu => htargets t
                  ⟨answer2, hy, by
                    have : rr = ⟨TypeCNAME, some t⟩ := by
                      cases rr
                      simp only at hty hcn
                      rw [hty, hcn]
                    rw [← this]
                    exact hrr⟩ f (by omega) u hu)
                (s1.send (d.Fqdn h) s1.pr.localDNS) hs2
              split
              · rename_i o heq
                exact hscan o heq
              · exact putRet_finished _ _ _ _

theorem exists_bound_list (G : String → Nat → Prop)
    (hmono : ∀ t M N, G t M → M ≤ N → G t N) :
    ∀ l : List RR, (∀ t, (⟨TypeCNAME, some t⟩ : RR) ∈ l → ∃ M, G t M) →
      ∃ M, ∀ t, (⟨TypeCNAME, some t⟩ : RR) ∈ l → G t M := by
  intro l
  induction l with
  | nil => intro _; exact ⟨0, fun t ht => by simp at ht⟩
  | cons rr rest ih =>
    intro hall
    obtain ⟨M1, h1⟩ := ih (fun t ht => hall t (List.mem_cons_of_mem _ ht))
    by_cases hrr : ∃ t, rr = ⟨TypeCNAME, some t⟩
    · obtain ⟨t0, ht0⟩ := hrr
      obtain ⟨M0, h0⟩ := hall t0 (by rw [ht0]; simp)
      refine ⟨max M0 M1, fun t ht => ?_⟩
      rcases List.mem_cons.1 ht with h2 | h2
      · have : t = t0 := by
          rw [ht0] at h2
          simpa using h2
        rw [this]
        exact hmono t0 M0 _ h0 (le_max_left _ _)
      · exact hmono t M1 _ (h1 t h2) (le_max_right _ _)
    · refine ⟨M1, fun t ht => ?_⟩
      rcases List.mem_cons.1 ht with h2 | h2
      · exact absurd ⟨t, h2.symm⟩ hrr
      · exact h1 t h2

/-- With a well-founded CNAME-target relation every hostname has a fuel bound
that is enough in every state. -/
theorem match_finishes_of_wf (d : Dns) (loc : String) (hdet : Deterministic d)
    (hwf : WellFounded (cnameTarget d loc)) :
    ∀ h, ∃ M, ∀ (k fuel : Nat) (s : Run) (r : Int), M + k ≤ fuel → k + 1 ≤ fuel →
      4 ≤ r + k → s.pr.localDNS = loc → (Polluted.match_ d fuel s h r).finished = true := by
  intro h
  induction h using hwf.induction with
  | _ h ih =>
    have hgood : ∀ t, cnameTarget d loc t h → ∃ M, ∀ fuel, M ≤ fuel → ∀ s : Run,
        s.pr.localDNS = loc → (Polluted.match_ d fuel s t 0).finished = true := by
      intro t ht
      obtain ⟨M, hM⟩ := ih t ht
      exact ⟨M + 5, fun fuel hfuel s hs => hM 4 fuel s 0 (by omega) (by omega) (by norm_num) hs⟩
    have hbound : ∃ M, ∀ t, cnameTarget d loc t h → ∀ fuel, M ≤ fuel → ∀ s : Run,
        s.pr.localDNS = loc → (Polluted.match_ d fuel s t 0).finished = true := by
      cases hx : d.Exchange 0 (d.Fqdn h) loc with
      | err =>
        refine ⟨0, fun t ht => ?_⟩
        obtain ⟨a, ha, _⟩ := ht
        rw [hx] at ha
        cases ha
      | nilMsg =>
        refine ⟨0, fun t ht => ?_⟩
        obtain ⟨a, ha, _⟩ := ht
        rw [hx] at ha
        cases ha
      | msg a =>
        obtain ⟨M, hM⟩ := exists_bound_list
          (fun t M => ∀ fuel, M ≤ fuel → ∀ s : Run, s.pr.localDNS = loc →
            (Polluted.match_ d fuel s t 0).finished = true)
          (fun t M N hG hMN fuel hfuel s hs => hG fuel (by omega) s hs)
          a.Answer (fun t ht => hgood t ⟨a, hx, ht⟩)
        refine ⟨M, fun t ht => ?_⟩
        obtain ⟨a2, ha2, hmem⟩ := ht
        rw [hx] at ha2
        cases ha2
        exact hM t hmem
    obtain ⟨M, hM⟩ := hbound
    exact ⟨M, match_finishes_step d loc h hdet M hM⟩

/-- With a rank that decreases along CNAME records, fuel `4 * rank h + 1 + k` is
enough for `h` at a retry count from which `k` more attempts reach the
bound: four nested calls for each hostname of a chain before the last one. -/
theorem match_finishes_of_rank (d : Dns) (loc : String) (hdet : Deterministic d)
    (rank : String → Nat) (hrank : ∀ t x, cnameTarget d loc t x → rank t < rank x) :
    ∀ (n : Nat) (h : String), rank h = n →
      ∀ (k fuel : Nat) (s : Run) (r : Int), 4 * rank h + 1 + k ≤ fuel → 4 ≤ r + k →
        s.pr.localDNS = loc → (Polluted.match_ d fuel s h r).finished = true := by
  intro n
  induction n using Nat.strong_induction_on with
  | _ n ih =>
    intro h hn k fuel s r hfuel hr hs
    apply match_finishes_step d loc h hdet (4 * rank h + 1) _ k fuel s r (by omega) (by omega)
      hr hs
    intro t ht fuel2 hfuel2 s2 hs2
    have hlt := hrank t h ht
    exact ih (rank t) (by omega) t rfl 4 fuel2 s2 0 (by omega) (by norm_num) hs2

theorem deadDns_no_target (loc t x : String) : ¬ cnameTarget deadDns loc t x := by
  rintro ⟨a, ha, _⟩
  cases ha

/-- C17 as stated fails for a retry count below 0. With a resolver whose every
exchange ends in a transport error (its answers do not depend on the
position and it has no CNAME target at all), `match("h", -1)` from the
initial run of `exampleRule` returns polluted after five probing attempts
for the one hostname it visits: five exchanges, all of them sent to the
honeypot endpoint with the question `h.`. -/
theorem C17_counterexample :
    Deterministic deadDns ∧ WellFounded (cnameTarget deadDns "8.8.8.8:53") ∧
    (Polluted.match_ deadDns 6 exampleRun "h" (-1)).result = some true ∧
    (Polluted.match_ deadDns 6 exampleRun "h" (-1)).run.sent.length = 5 ∧
    attemptsFor "1.2.3.4:53" "h." (Polluted.match_ deadDns 6 exampleRun "h" (-1)).run.sent
      = 5 := by
  refine ⟨fun _ _ _ => rfl, ⟨fun x => Acc.intro x (fun t ht => ?_)⟩, by decide, by decide,
    by decide⟩
  exact absurd ht (deadDns_no_target _ _ _)

/-- C17 (amended): termination under acyclic CNAME chains, with the attempts
counted from the retry count of the call. For a resolver whose answers do
not depend on the position of the exchange and whose CNAME-target relation
(on the local endpoint `loc`) is well founded, `match(h, r)` ends, by
returning or aborting, for every hostname, retry count and state of a rule
with that local endpoint, whenever the fuel (the depth of nested calls)
reaches a bound that depends only on `h` and `r`. With a rank that decreases
along CNAME records (the length of the longest chain from a hostname is
one) depth `4 * rank h + 1 + max 0 (4 - r)` is enough: four attempts for
each hostname of a chain before the last one, so at most `rank h` nested
CNAME classifications. The honeypot endpoint is sent the question `name` at
most `max 0 (4 - r)` times when `name` is the question name of `h` (4 times
at retry count 0, the count of every call `IsMatch` or a CNAME record
starts), plus 4 times for each CNAME record for `name` received from the
local endpoint; both exchanges of an attempt count when the two endpoints
are the same server. -/
theorem C17_termination_and_attempts (d : Dns) (loc : String) (hdet : Deterministic d)
    (hwf : WellFounded (cnameTarget d loc)) (h : String) :
    (∀ r : Int, ∃ N, ∀ fuel, N ≤ fuel → ∀ s : Run, s.pr.localDNS = loc →
      (Polluted.match_ d fuel s h r).finished = true) ∧
    (∀ rank : String → Nat, (∀ t x, cnameTarget d loc t x → rank t < rank x) →
      ∀ (fuel : Nat) (r : Int) (s : Run), 4 * rank h + 1 + (4 - r).toNat ≤ fuel →
        s.pr.localDNS = loc → (Polluted.match_ d fuel s h r).finished = true) ∧
    (∀ (fuel : Nat) (r : Int) (s : Run) (name : String), s.pr.localDNS = loc →
      ∃ qs, (Polluted.match_ d fuel s h r).run.sent = s.sent ++ qs ∧
        (attemptsFor s.pr.honeypotDNS name qs : Int) ≤
          (if s.pr.honeypotDNS = loc then 2 else 1) *
            ((if d.Fqdn h = name then max 0 (4 - r) else 0)
              + 4 * targetsIn d loc name s.sent.length qs)) := by
  refine ⟨?_, ?_, ?_⟩
  · intro r
    obtain ⟨M, hM⟩ := match_finishes_of_wf d loc hdet hwf h
    refine ⟨M + 1 + (4 - r).toNat, fun fuel hfuel s hs => ?_⟩
    apply hM (4 - r).toNat fuel s r (by omega) (by omega) _ hs
    have := Int.self_le_toNat (4 - r)
    omega
  · intro rank hrank fuel r s hfuel hs
    apply match_finishes_of_rank d loc hdet rank hrank (rank h) h rfl (4 - r).toNat fuel s r
      hfuel _ hs
    have := Int.self_le_toNat (4 - r)
    omega
  · intro fuel r s name hs
    obtain ⟨qs, h1, h2⟩ := match_attempts d s.pr.honeypotDNS loc name fuel s h r ⟨rfl, hs⟩
    exact ⟨qs, h1, h2.1⟩

theorem oneStepDns_deterministic : Deterministic oneStepDns := fun _ _ _ => rfl

theorem oneStepDns_target {t x : String} (h : cnameTarget oneStepDns "8.8.8.8:53" t x) :
    x = "h." ∧ t = "u." := by
  obtain ⟨a, ha, hmem⟩ := h
  simp only [oneStepDns] at ha
  split at ha
  · rename_i hc
    cases ha
    simp only [List.mem_singleton, RR.mk.injEq, true_and, Option.some.injEq] at hmem
    exact ⟨hc.1, hmem⟩
  · cases ha
    simp at hmem

theorem oneStepDns_wf : WellFounded (cnameTarget oneStepDns "8.8.8.8:53") := by
  refine ⟨fun x => Acc.intro x (fun t ht => ?_)⟩
  obtain ⟨_, htu⟩ := oneStepDns_target ht
  refine Acc.intro t (fun v hv => ?_)
  obtain ⟨hth, _⟩ := oneStepDns_target hv
  rw [htu] at hth
  exact absurd hth (by decide)

theorem C17_termination_and_attempts_witness :
    (Deterministic oneStepDns ∧ WellFounded (cnameTarget oneStepDns "8.8.8.8:53")) ∧
    ((∀ r : Int, ∃ N, ∀ fuel, N ≤ fuel → ∀ s : Run, s.pr.localDNS = "8.8.8.8:53" →
      (Polluted.match_ oneStepDns fuel s "h." r).finished = true) ∧
    (∀ rank : String → Nat,
      (∀ t x, cnameTarget oneStepDns "8.8.8.8:53" t x → rank t < rank x) →
      ∀ (fuel : Nat) (r : Int) (s : Run), 4 * rank "h." + 1 + (4 - r).toNat ≤ fuel →
        s.pr.localDNS = "8.8.8.8:53" →
        (Polluted.match_ oneStepDns fuel s "h." r).finished = true) ∧
    (∀ (fuel : Nat) (r : Int) (s : Run) (name : String), s.pr.localDNS = "8.8.8.8:53" →
      ∃ qs, (Polluted.match_ oneStepDns fuel s "h." r).run.sent = s.sent ++ qs ∧
        (attemptsFor s.pr.honeypotDNS name qs : Int) ≤
          (if s.pr.honeypotDNS = "8.8.8.8:53" then 2 else 1) *
            ((if oneStepDns.Fqdn "h." = name then max 0 (4 - r) else 0)
              + 4 * targetsIn oneStepDns "8.8.8.8:53" name s.sent.length qs))) :=
  ⟨⟨oneStepDns_deterministic, oneStepDns_wf⟩,
    C17_termination_and_attempts oneStepDns "8.8.8.8:53" oneStepDns_deterministic
      oneStepDns_wf "h."⟩
/-! ## No abort on what the client delivers -/

theorem putRet_not_aborted {s : Run} (hok : CacheOK s) (h : String) (st : Int) (b : Bool) :
    (s.putRet h st b).aborted = false := by
  obtain ⟨c, hc⟩ := Put_isSome hok.1 (by rw [hok.2.1]; norm_num) h st
  unfold Run.putRet
  rw [hc]
  rfl

theorem cacheOK_honeypot_stable (hp : String) :
    Stable (fun u => CacheOK u ∧ u.pr.honeypotDNS = hp) :=
  ⟨fun s h hs => ⟨cacheOK_stable.get s h hs.1, hs.2⟩,
    fun s h st c hs hst hput => ⟨cacheOK_stable.put s h st c hs.1 hst hput, hs.2⟩,
    fun s name server hs => ⟨cacheOK_stable.send s name server hs.1, hs.2⟩⟩

/-- A scan over records whose CNAME type is carried by CNAME values does not
abort when the classification of its targets does not. -/
theorem scanAnswer_not_aborted (classify : Run → String → Outcome) (hp hostname : String)
    (hkeep : ∀ u t, CacheOK u ∧ u.pr.honeypotDNS = hp →
      CacheOK (classify u t).run ∧ (classify u t).run.pr.honeypotDNS = hp)
    (hcl : ∀ u t, CacheOK u ∧ u.pr.honeypotDNS = hp → (classify u t).aborted = false) :
    ∀ (rrs : List RR), (∀ rr ∈ rrs, rr.Rrtype = TypeCNAME → rr.cname ≠ none) →
      ∀ s : Run, CacheOK s ∧ s.pr.honeypotDNS = hp →
        ∀ o, scanAnswer classify hostname rrs s = .error o → o.aborted = false := by
  intro rrs
  induction rrs with
  | nil => intro _ s _ o h; cases h
  | cons rr rest ih =>
    intro htyped s hs o h
    have ihr := ih (fun x hx => htyped x (List.mem_cons_of_mem _ hx))
    rw [scanAnswer] at h
    split at h
    · rename_i hty
      cases hcn : rr.cname with
      | none => exact absurd hcn (htyped rr (by simp) hty)
      | some target =>
        rw [hcn] at h
        simp only at h
        have hk := hkeep s target hs
        have ha := hcl s target hs
        cases hres : classify s target with
        | ret b s1 =>
          rw [hres] at h hk
          have hok1 : CacheOK s1 := hk.1
          cases b with
          | true =>
            simp only at h
            obtain ⟨c, hc⟩ := Put_isSome hok1.1 (by rw [hok1.2.1]; norm_num) target
              HostnamePolluted
            rw [hc] at h
            cases h
            exact putRet_not_aborted
              (cacheOK_stable.put s1 target _ c hok1 (Or.inl rfl) hc) _ _ _
          | false =>
            simp only at h
            obtain ⟨c, hc⟩ := Put_isSome hok1.1 (by rw [hok1.2.1]; norm_num) target
              HostnameClean
            rw [hc] at h
            exact ihr (s1.withCache c)
              ⟨cacheOK_stable.put s1 target _ c hok1 (Or.inr rfl) hc, hk.2⟩ o h
        | abort s1 =>
          rw [hres] at ha
          cases ha
        | outOfFuel s1 =>
          rw [hres] at h
          cases h
          rfl
    · exact ihr s hs o h

/-- When no honeypot exchange returns a nil message without error and CNAME-typed
records are CNAME values, `match` never aborts from a state whose cache is
well formed with capacity 1024. -/
theorem match_not_aborted (d : Dns) (hp : String)
    (hnil : ∀ n name, d.Exchange n name hp ≠ .nilMsg)
    (htyped : ∀ n name server a, d.Exchange n name server = .msg a →
      ∀ rr ∈ a.Answer, rr.Rrtype = TypeCNAME → rr.cname ≠ none) :
    ∀ (fuel : Nat) (s : Run) (h : String) (r : Int), CacheOK s ∧ s.pr.honeypotDNS = hp →
      (Polluted.match_ d fuel s h r).aborted = false := by
  intro fuel
  induction fuel with
  | zero => intro s h r _; rfl
  | succ fuel ih =>
    intro s h r hs
    rw [Polluted.match_]
    split
    · rfl
    · simp only
      split
      · rfl
      · have hs0 : CacheOK (s.withCache (s.pr.cache.Get h).1) ∧
            (s.withCache (s.pr.cache.Get h).1).pr.honeypotDNS = hp :=
          (cacheOK_honeypot_stable hp).get s h hs
        generalize s.withCache (s.pr.cache.Get h).1 = s0 at hs0 ⊢
        have hs1 := (cacheOK_honeypot_stable hp).send s0 (d.Fqdn h) s0.pr.honeypotDNS hs0
        split
        · exact ih _ _ _ hs1
        · rename_i hx
          unfold Run.exchange at hx
          rw [hs0.2] at hx
          exact absurd hx (hnil _ _)
        · split
          · exact putRet_not_aborted hs1.1 _ _ _
          · generalize s0.send (d.Fqdn h) s0.pr.honeypotDNS = s1 at hs1 ⊢
            have hs2 := (cacheOK_honeypot_stable hp).send s1 (d.Fqdn h) s1.pr.localDNS hs1
            split
            · exact ih _ _ _ hs2
            · exact putRet_not_aborted hs2.1 _ _ _
            · rename_i answer2 hy
              unfold Run.exchange at hy
              have hkeep : ∀ (u : Run) (t : String), CacheOK u ∧ u.pr.honeypotDNS = hp →
                  CacheOK (Polluted.match_ d fuel u t 0).run ∧
                  (Polluted.match_ d fuel u t 0).run.pr.honeypotDNS = hp :=
                fun u t hu => match_stable d (cacheOK_honeypot_stable hp) fuel u t 0 hu
              have hscan := scanAnswer_not_aborted
                (fun t target => Polluted.match_ d fuel t target 0) hp h hkeep
                (fun u t hu => ih u t 0 hu) answer2.Answer (htyped _ _ _ _ hy)
                (s1.send (d.Fqdn h) s1.pr.localDNS) hs2
              have hend := scanAnswer_stable (cacheOK_honeypot_stable hp)
                (fun t target => Polluted.match_ d fuel t target 0) hkeep h answer2.Answer
                (s1.send (d.Fqdn h) s1.pr.localDNS) hs2
              split
              · rename_i o heq
                exact hscan o heq
              · rename_i s3 heq
                rw [heq] at hend
                exact putRet_not_aborted hend.1 _ _ _

/-- C14 (amended): classification never faults on what the DNS client delivers.
From a state whose cache is well formed with capacity 1024 and valid states
(every run the rule reaches), for every hostname, retry count and fuel, and
for every resolver whose honeypot exchanges end in a transport error or a
message (the local ones may also return no message and no error) and whose
records of CNAME type are CNAME values, as the DNS library builds them,
`match` does not abort: when it finishes it returns a boolean. -/
theorem C14_never_aborts_on_client_outcomes (d : Dns) (s : Run) (h : String) (r : Int)
    (fuel : Nat) (hok : CacheOK s)
    (hnil : ∀ n name, d.Exchange n name s.pr.honeypotDNS ≠ .nilMsg)
    (htyped : ∀ n name server a, d.Exchange n name server = .msg a →
      ∀ rr ∈ a.Answer, rr.Rrtype = TypeCNAME → rr.cname ≠ none) :
    (Polluted.match_ d fuel s h r).aborted = false ∧
    ((Polluted.match_ d fuel s h r).finished = true →
      ∃ b t, Polluted.match_ d fuel s h r = .ret b t) := by
  have ha := match_not_aborted d s.pr.honeypotDNS hnil htyped fuel s h r ⟨hok, rfl⟩
  refine ⟨ha, fun hf => ?_⟩
  cases ho : Polluted.match_ d fuel s h r with
  | ret b t => exact ⟨b, t, rfl⟩
  | abort t => rw [ho] at ha; cases ha
  | outOfFuel t => rw [ho] at hf; cases hf

theorem localRefusingDns_honeypot :
    ∀ n name, localRefusingDns.Exchange n name exampleRun.pr.honeypotDNS ≠ .nilMsg := by
  intro n name h
  have : localRefusingDns.Exchange n name exampleRun.pr.honeypotDNS = .msg ⟨[]⟩ := rfl
  rw [this] at h
  cases h

theorem localRefusingDns_typed :
    ∀ n name server a, localRefusingDns.Exchange n name server = .msg a →
      ∀ rr ∈ a.Answer, rr.Rrtype = TypeCNAME → rr.cname ≠ none := by
  intro n name server a h rr hrr
  simp only [localRefusingDns] at h
  split at h
  · cases h
  · cases h
    simp at hrr

theorem C14_never_aborts_on_client_outcomes_witness :
    (CacheOK exampleRun ∧
      (∀ n name, localRefusingDns.Exchange n name exampleRun.pr.honeypotDNS ≠ .nilMsg) ∧
      (∀ n name server a, localRefusingDns.Exchange n name server = .msg a →
        ∀ rr ∈ a.Answer, rr.Rrtype = TypeCNAME → rr.cname ≠ none) ∧
      localRefusingDns.Exchange 1 (localRefusingDns.Fqdn "h.") exampleRun.pr.localDNS
        = .nilMsg) ∧
    ((Polluted.match_ localRefusingDns 1 exampleRun "h." 0).aborted = false ∧
    ((Polluted.match_ localRefusingDns 1 exampleRun "h." 0).finished = true →
      ∃ b t, Polluted.match_ localRefusingDns 1 exampleRun "h." 0 = .ret b t)) :=
  ⟨⟨exampleRun_cacheOK, localRefusingDns_honeypot, localRefusingDns_typed, by decide⟩,
    C14_never_aborts_on_client_outcomes localRefusingDns exampleRun "h." 0 1
      exampleRun_cacheOK localRefusingDns_honeypot localRefusingDns_typed⟩

end Clash
